import Mathlib

/-!
Verification of the WSRA safety pipeline (guardrails, scope resolution,
sandboxed execution, observation building) against its specification.

The Python sources are shallowly embedded: strings become `List Char`,
Python functions become Lean functions with the same control flow, and the
regular-expression scans of `scope.py` / `executor.py` are compiled to a
small backtracking matcher whose match enumeration order mirrors the
leftmost / greedy / first-alternative semantics of Python `re`.

Modelling conventions, fixed once here:
* character classes (`\s`, `\S`, word characters, `str.lower`, `str.strip`)
  are modelled on their ASCII behaviour, which is what every string
  appearing in the repository exercises;
* `pathlib.Path.resolve` touches the filesystem, so it is passed in as an
  arbitrary function argument `resolve`;
* Python exceptions that a modelled function can raise are `Except`/`Option`
  error values; a function that cannot raise is total.
-/

namespace WSRA

/-- Python strings, modelled as lists of characters. -/
abbrev Str := List Char

/-! ## Basic Python string primitives -/

/-- The uppercase/lowercase table of ASCII `str.lower`. -/
def lowerPairs : List (Char × Char) :=
  [('A','a'), ('B','b'), ('C','c'), ('D','d'), ('E','e'), ('F','f'), ('G','g'),
   ('H','h'), ('I','i'), ('J','j'), ('K','k'), ('L','l'), ('M','m'), ('N','n'),
   ('O','o'), ('P','p'), ('Q','q'), ('R','r'), ('S','s'), ('T','t'), ('U','u'),
   ('V','v'), ('W','w'), ('X','x'), ('Y','y'), ('Z','z')]

/-- ASCII `str.lower` on one character (Python `str.lower`, ASCII range). -/
def pyToLower (c : Char) : Char :=
  match lowerPairs.find? (fun p => p.1 == c) with
  | some p => p.2
  | none => c

/-- `str.lower` on a whole string. -/
def lowerStr (s : Str) : Str := s.map pyToLower

/-- Python whitespace (`str.strip` / regex `\s`), ASCII range. -/
def pyIsSpace (c : Char) : Bool :=
  c = ' ' || c = '\t' || c = '\n' || c = '\r' || c = '\x0b' || c = '\x0c'

/-- Python `str.strip()`: remove leading and trailing whitespace. -/
def pyStrip (s : Str) : Str :=
  ((s.dropWhile pyIsSpace).reverse.dropWhile pyIsSpace).reverse

/-- Executable prefix test: `startsWith pat s` iff `pat` is a prefix of `s`. -/
def startsWith : Str → Str → Bool
  | [], _ => true
  | _ :: _, [] => false
  | p :: ps, c :: cs => p == c && startsWith ps cs

/-- Python `sub in s` (substring containment). -/
def hasSub (pat : Str) : Str → Bool
  | [] => pat.isEmpty
  | c :: t => startsWith pat (c :: t) || hasSub pat t

/-- Python `s.endswith(pat)`. -/
def endsW (s pat : Str) : Bool := startsWith pat.reverse s.reverse

/-- The propositional form of substring containment. -/
def SubstringOf (pat s : Str) : Prop := ∃ l r, s = l ++ pat ++ r

/-- Python `str.split()` with no argument: split on whitespace runs,
dropping empty fields. -/
def pyWsSplit : Str → List Str
  | [] => []
  | c :: t =>
    if pyIsSpace c then pyWsSplit t
    else (c :: t.takeWhile (fun d => !pyIsSpace d)) ::
         pyWsSplit (t.dropWhile (fun d => !pyIsSpace d))
termination_by s => s.length
decreasing_by
  all_goals simp only [List.length_cons]
  · omega
  · have hdw : (t.dropWhile (fun d => !pyIsSpace d)).length ≤ t.length := by
      conv_rhs => rw [← List.takeWhile_append_dropWhile
        (p := fun d => !pyIsSpace d) (l := t)]
      rw [List.length_append]
      omega
    omega

/-! ## A small regular-expression engine

`scope.py` extracts network targets with three fixed regexes via
`re.findall`.  They are compiled to the syntax below; `mrun` enumerates
candidate matches in Python-`re` priority order (greedy repetition longest
first, left alternative first), so the head of its result list is exactly
the match Python's backtracking engine commits to. -/

/-- Regex word character (`\b` semantics): `[a-zA-Z0-9_]`. -/
def isWordChar (c : Char) : Bool := c.isAlphanum || c = '_'

def optWord : Option Char → Bool
  | none => false
  | some c => isWordChar c

inductive RE where
  | eps
  | cls (p : Char → Bool)
  | seq (a b : RE)
  | alt (a b : RE)
  | rep (p : Char → Bool) (lo : Nat) (hi : Option Nat)
  | wb
  | grp (a : RE)

/-- Splits for a greedy character-class repetition, longest first. -/
def repSplits (p : Char → Bool) (lo : Nat) (hi : Option Nat) (s : Str) :
    List (Str × Option Str × Str) :=
  let run := s.takeWhile p
  let m := match hi with
    | none => run.length
    | some h => min run.length h
  if m < lo then []
  else (List.range (m + 1 - lo)).map (fun i =>
    let k := m - i
    (s.take k, none, s.drop k))

/-- The character preceding the current position after consuming `consumed`. -/
def lastCh (prev : Option Char) (consumed : Str) : Option Char :=
  match consumed.getLast? with
  | some c => some c
  | none => prev

/-- All candidate matches of `r` at the start of `s` (given the previous
character `prev` for word boundaries), in backtracking priority order.
Each entry is `(consumed text, innermost group capture, rest)`. -/
def mrun : RE → Option Char → Str → List (Str × Option Str × Str)
  | .eps, _, s => [([], none, s)]
  | .cls p, _, s =>
    match s with
    | [] => []
    | c :: t => if p c then [([c], none, t)] else []
  | .seq a b, prev, s =>
    (mrun a prev s).flatMap fun x =>
      (mrun b (lastCh prev x.1) x.2.2).map fun y =>
        (x.1 ++ y.1, (y.2.1).orElse (fun _ => x.2.1), y.2.2)
  | .alt a b, prev, s => mrun a prev s ++ mrun b prev s
  | .rep p lo hi, _, s => repSplits p lo hi s
  | .wb, prev, s =>
    let nw := match s with
      | [] => false
      | c :: _ => isWordChar c
    if optWord prev != nw then [([], none, s)] else []
  | .grp a, prev, s => (mrun a prev s).map fun x => (x.1, some x.1, x.2.2)

/-- The match Python's engine commits to at this position, if any. -/
def firstMatch (r : RE) (prev : Option Char) (s : Str) :
    Option (Str × Option Str) :=
  match mrun r prev s with
  | [] => none
  | x :: _ => some (x.1, x.2.1)

/-- The scan loop of `re.findall`: at skip count 0 try the pattern at the
current position; a committed match of `n` characters emits its capture
(or the whole match) and passes over the next `n - 1` characters without
further attempts (non-overlapping matches); otherwise move one character.
The skip counter keeps the recursion structural. -/
def reFindAllGo (r : RE) : Option Char → (s : Str) → Nat → List Str
  | prev, [], 0 =>
    match firstMatch r prev [] with
    | some (c, g) => [g.getD c]
    | none => []
  | _, [], _ + 1 => []
  | _, c :: t, k + 1 => reFindAllGo r (some c) t k
  | prev, c :: t, 0 =>
    match firstMatch r prev (c :: t) with
    | some (con, g) =>
      match con with
      | [] => (g.getD []) :: reFindAllGo r (some c) t 0
      | _ :: _ => (g.getD con) :: reFindAllGo r (some c) t (con.length - 1)
    | none => reFindAllGo r (some c) t 0

/-- `re.findall`. -/
def reFindAll (r : RE) (prev : Option Char) (s : Str) : List Str :=
  reFindAllGo r prev s 0

def litC (c : Char) : RE := .cls (fun d => d == c)

def litS (s : Str) : RE := s.foldr (fun c r => .seq (litC c) r) .eps

/-- `[a-zA-Z0-9.-]` -/
def hostCls (c : Char) : Bool := c.isAlphanum || c = '.' || c = '-'

/-- `[a-zA-Z0-9.-]+\.[a-zA-Z]{2,}` — shared body of `HOST_RE`/`URL_RE`. -/
def domBody : RE :=
  .seq (.rep hostCls 1 none) (.seq (litC '.') (.rep Char.isAlpha 2 none))

/-- `scope.py`: `HOST_RE = \b([a-zA-Z0-9.-]+\.[a-zA-Z]{2,})\b` -/
def HOST_RE : RE := .seq .wb (.seq (.grp domBody) .wb)

/-- `scope.py`: `URL_RE = https?://([a-zA-Z0-9.-]+\.[a-zA-Z]{2,})` -/
def URL_RE : RE :=
  .seq (litS ['h', 't', 't', 'p'])
    (.seq (.alt (litC 's') .eps)
      (.seq (litS [':', '/', '/']) (.grp domBody)))

/-- `\d{1,3}` -/
def octet : RE := .rep Char.isDigit 1 (some 3)

/-- `scope.py`: `IP_RE = \b(?:(?:\d{1,3}\.){3}\d{1,3})\b` -/
def IP_RE : RE :=
  .seq .wb (.seq octet (.seq (litC '.') (.seq octet (.seq (litC '.')
    (.seq octet (.seq (litC '.') (.seq octet .wb)))))))

/-! ## shlex

`shlex.split(cmd)` (POSIX mode, whitespace split, comments off), as used by
`guardrails.py`, `scope.py` and `executor.py`.  `none` models the
`ValueError` raised on an unbalanced quote or trailing escape. -/

/-- shlex whitespace is exactly space, tab, CR, LF. -/
def shWs (c : Char) : Bool := c = ' ' || c = '\t' || c = '\r' || c = '\n'

/-- The single-quote character. -/
def sqC : Char := Char.ofNat 39

/-- The backslash character. -/
def bsC : Char := Char.ofNat 92

inductive ShState where
  | ws | word | squote | dquote | escWord | escDquote

/-- CPython `shlex.read_token` state machine (posix, whitespace_split). -/
def shlexRun : ShState → Str → Str → Option (List Str)
  | .ws, _, [] => some []
  | .ws, _, c :: t =>
    if shWs c then shlexRun .ws [] t
    else if c = bsC then shlexRun .escWord [] t
    else if c = sqC then shlexRun .squote [] t
    else if c = '"' then shlexRun .dquote [] t
    else shlexRun .word [c] t
  | .word, tok, [] => some [tok]
  | .word, tok, c :: t =>
    if shWs c then (shlexRun .ws [] t).map (tok :: ·)
    else if c = bsC then shlexRun .escWord tok t
    else if c = sqC then shlexRun .squote tok t
    else if c = '"' then shlexRun .dquote tok t
    else shlexRun .word (tok ++ [c]) t
  | .squote, _, [] => none
  | .squote, tok, c :: t =>
    if c = sqC then shlexRun .word tok t else shlexRun .squote (tok ++ [c]) t
  | .dquote, _, [] => none
  | .dquote, tok, c :: t =>
    if c = '"' then shlexRun .word tok t
    else if c = bsC then shlexRun .escDquote tok t
    else shlexRun .dquote (tok ++ [c]) t
  | .escWord, _, [] => none
  | .escWord, tok, c :: t => shlexRun .word (tok ++ [c]) t
  | .escDquote, _, [] => none
  | .escDquote, tok, c :: t =>
    if c = '"' || c = bsC then shlexRun .dquote (tok ++ [c]) t
    else shlexRun .dquote (tok ++ [bsC, c]) t

/-- `shlex.split(cmd)`; `none` is the raised `ValueError`. -/
def pyShlexSplit (s : Str) : Option (List Str) := shlexRun .ws [] s

/-! ## Data model (`models.py`) -/

inductive Mode where
  | PLAN_ONLY | EXECUTE_WITH_APPROVAL | AUTO_READONLY | SIMULATE
deriving DecidableEq

/-- `models.Scope` (the free-text/ROE fields of the session are omitted;
nothing in the gated pipeline reads them). -/
structure Scope where
  cidrs : List Str
  domains : List Str
  hosts : List Str
  paths : List Str
  out_of_scope : List Str
deriving DecidableEq

structure SessionConfig where
  scope : Scope
  mode : Mode
  output_dir : Str
deriving DecidableEq

/-! ## Scope resolver (`scope.py`) -/

/-- Deduplicating fold used to model a Python `set` as a list. -/
def dedupAdd (acc : List Str) (x : Str) : List Str :=
  if acc.contains x then acc else acc ++ [x]

/-- `scope._extract_targets`: union of the three `findall` passes. -/
def extractTargets (cmd : Str) : List Str :=
  (reFindAll URL_RE none cmd ++ reFindAll HOST_RE none cmd ++
    reFindAll IP_RE none cmd).foldl dedupAdd []

/-- `scope._extract_paths`: shlex tokens (whitespace fallback on error)
starting with a slash. -/
def extractPaths (cmd : Str) : List Str :=
  let tokens := match pyShlexSplit cmd with
    | some ts => ts
    | none => pyWsSplit cmd
  (tokens.filter (fun tok =>
    match tok with
    | [] => false
    | c :: _ => c = '/')).foldl dedupAdd []

/-- The reasons `in_scope_command` can return.  The Python function
formats them into f-strings (whose text interpolates a `set`, with
unspecified iteration order); the constructors carry the same data. -/
inductive ScopeReason where
  | outOfScopeTarget (ts : List Str)
  | noAllowedTarget (ts : List Str)
  | absPathNotAllowed (p : Str)
  | inScope
deriving DecidableEq

/-- The absolute-path check at the end of `in_scope_command`.
`resolve` stands for `pathlib.Path.resolve` (filesystem dependent). -/
def scopePathCheck (resolve : Str → Str) (cfg : SessionConfig) (cmd : Str) :
    Bool × ScopeReason :=
  match (extractPaths cmd).find? (fun ap =>
      !(cfg.scope.paths.any (fun root => startsWith (resolve root) (resolve ap)))) with
  | some ap => (false, .absPathNotAllowed ap)
  | none => (true, .inScope)

/-- `scope.in_scope_command`. -/
def in_scope_command (resolve : Str → Str) (cfg : SessionConfig) (cmd : Str) :
    Bool × ScopeReason :=
  let targets := extractTargets cmd
  if targets.isEmpty then scopePathCheck resolve cfg cmd
  else if targets.any (fun t => cfg.scope.out_of_scope.contains t) then
    (false, .outOfScopeTarget (targets.filter (fun t => cfg.scope.out_of_scope.contains t)))
  else if targets.any (fun t =>
      cfg.scope.domains.any (fun al => al == t || endsW t ('.' :: al)) ||
      cfg.scope.hosts.contains t) then
    scopePathCheck resolve cfg cmd
  else (false, .noAllowedTarget targets)

/-! ## Guardrail classifier and mode authorizer (`guardrails.py`) -/

inductive Risk where
  | low | medium
deriving DecidableEq

def LOW_READONLY_BINARIES : List Str :=
  ["echo".toList, "cat".toList, "head".toList, "tail".toList, "ls".toList,
   "stat".toList, "file".toList, "strings".toList, "sha256sum".toList,
   "curl".toList, "wget".toList, "dig".toList, "nslookup".toList,
   "whois".toList, "openssl".toList]

def DENY_PATTERNS : List Str :=
  ["rm -rf".toList, "mkfs".toList, "dd of=/dev".toList, "reboot".toList,
   "shutdown".toList, "nc -e".toList, "bash -i >&".toList,
   "chmod -R 777 /".toList]

def denyMsg (pat : Str) : Str := "Denied pattern: ".toList ++ pat

/-- The head token: `shlex.split(cmd)[0]`, falling back to naive
whitespace splitting when shlex raises; empty when there are no tokens. -/
def headToken (cmd : Str) : Str :=
  match pyShlexSplit cmd with
  | some parts => parts.headD []
  | none => (pyWsSplit cmd).headD []

/-- `guardrails.classify_and_check`. -/
def classify_and_check (cmd : Str) : Risk × Bool × Str :=
  let txt := lowerStr (pyStrip cmd)
  match DENY_PATTERNS.find? (fun pat => hasSub pat txt) with
  | some pat => (.medium, false, denyMsg pat)
  | none =>
    let head := headToken cmd
    if head = "curl".toList then
      if hasSub " -I".toList cmd || hasSub " --head".toList cmd then
        (.low, true, "curl with --head/-I (metadata only)".toList)
      else
        (.medium, false, "curl without --head/-I is not read-only safe by default".toList)
    else if head = "wget".toList then
      if hasSub " --spider".toList cmd then
        (.low, true, "wget --spider (metadata only)".toList)
      else
        (.medium, false, "wget without --spider is not read-only safe by default".toList)
    else if LOW_READONLY_BINARIES.contains head then
      (.low, true, head ++ " considered read-only (MVP allowlist)".toList)
    else
      (.medium, false,
        (if head.isEmpty then "command".toList else head) ++ " requires approval".toList)

/-- The reasons `enforce` can return (f-strings in the Python source,
with the interpolated data carried by the constructor). -/
inductive EnforceReason where
  | outOfScope (r : ScopeReason)
  | modeForbids (m : Mode)
  | allowedAutoReadonly (why : Str)
  | needsApprovalAutoReadonly (why : Str)
  | approvalRequired (why : Str)
  | unknownMode
deriving DecidableEq

/-- `guardrails.enforce`: returns `(allow_execute, needs_approval, reason)`. -/
def enforce (resolve : Str → Str) (cfg : SessionConfig) (cmd : Str) :
    Bool × Bool × EnforceReason :=
  let rcw := classify_and_check cmd
  let sc := in_scope_command resolve cfg cmd
  if sc.1 = false then (false, true, .outOfScope sc.2)
  else if cfg.mode = .PLAN_ONLY ∨ cfg.mode = .SIMULATE then
    (false, true, .modeForbids cfg.mode)
  else if cfg.mode = .AUTO_READONLY then
    if rcw.1 = .low ∧ rcw.2.1 = true then
      (true, false, .allowedAutoReadonly rcw.2.2)
    else (false, true, .needsApprovalAutoReadonly rcw.2.2)
  else if cfg.mode = .EXECUTE_WITH_APPROVAL then
    (false, true, .approvalRequired rcw.2.2)
  else (false, true, .unknownMode)

/-! ## Redaction (`executor.REDACTIONS` / `executor._redact`)

Each rewrite in `REDACTIONS` is a `re.sub`.  `subScan` is the generic
`re.sub` scan: at every position try the pattern; on a match emit the
replacement and continue after the match, otherwise copy one character.
The four patterns are deterministic (their greedy repetitions need no
backtracking), so each is compiled to a `try` function returning the
replacement text and the length of the match. -/

def REDACTED : Str := "[REDACTED]".toList

def JWT_RED : Str := "[JWT_REDACTED]".toList

def AUTH_PAT : Str := "authorization:".toList

def PWD_PAT : Str := "password=".toList

def AWS_PAT : Str := "aws_secret_access_key=".toList

/-- `\S` -/
def nonWS (c : Char) : Bool := !pyIsSpace c

/-- Matcher for `(?i)(pat\s*)(\S+)` (rules 1–3 of `REDACTIONS`; rules 2–3
have no `\s*`, i.e. `allowWs = false`), replacement `\1[REDACTED]`.
Returns the replacement text and the matched length. -/
def tryHdr (pat : Str) (allowWs : Bool) (s : Str) : Option (Str × Nat) :=
  let pre := s.take pat.length
  if lowerStr pre = pat then
    let rest := s.drop pat.length
    let ws := if allowWs then rest.takeWhile pyIsSpace else []
    let tok := (rest.drop ws.length).takeWhile nonWS
    if tok.isEmpty then none
    else some (pre ++ ws ++ REDACTED, pat.length + ws.length + tok.length)
  else none

/-- `[A-Za-z0-9-_]` -/
def jwtCls (c : Char) : Bool := c.isAlphanum || c = '-' || c = '_'

/-- Matcher for `([A-Za-z0-9-_]+\.[A-Za-z0-9-_]+\.[A-Za-z0-9-_]+)`
(rule 4 of `REDACTIONS`), replacement `[JWT_REDACTED]`. -/
def tryJwt (s : Str) : Option (Str × Nat) :=
  let r1 := s.takeWhile jwtCls
  if r1.isEmpty then none
  else
    match s.drop r1.length with
    | '.' :: s1 =>
      let r2 := s1.takeWhile jwtCls
      if r2.isEmpty then none
      else
        match s1.drop r2.length with
        | '.' :: s2 =>
          let r3 := s2.takeWhile jwtCls
          if r3.isEmpty then none
          else some (JWT_RED, r1.length + 1 + r2.length + 1 + r3.length)
        | _ => none
    | _ => none

/-- The `re.sub` scan loop: at skip count 0 try the pattern at the
current position; a match of `n` characters emits the replacement and
passes the next `n - 1` characters through the skip counter (so matched
text is not copied and not rescanned); otherwise copy one character.
(The `n = 0` case — replace an empty match, copy one character, continue —
is Python's empty-match rule; none of the four patterns can match the
empty string.) -/
def subScanGo (tryM : Str → Option (Str × Nat)) : Str → Nat → Str
  | [], 0 =>
    match tryM [] with
    | some (rep, _) => rep
    | none => []
  | [], _ + 1 => []
  | _ :: t, k + 1 => subScanGo tryM t k
  | c :: t, 0 =>
    match tryM (c :: t) with
    | some (rep, n) =>
      if n = 0 then rep ++ c :: subScanGo tryM t 0
      else rep ++ subScanGo tryM t (n - 1)
    | none => c :: subScanGo tryM t 0

/-- One `re.sub` pass. -/
def subScan (tryM : Str → Option (Str × Nat)) (s : Str) : Str :=
  subScanGo tryM s 0

def sub1 : Str → Str := subScan (tryHdr AUTH_PAT true)

def sub2 : Str → Str := subScan (tryHdr PWD_PAT false)

def sub3 : Str → Str := subScan (tryHdr AWS_PAT false)

def sub4 : Str → Str := subScan tryJwt

/-- `executor._redact`: the four rewrites applied in order. -/
def pyRedact (s : Str) : Str := sub4 (sub3 (sub2 (sub1 s)))

/-! ## Permissive UTF-8 decoding (`bytes.decode("utf-8", errors="ignore")`)

CPython's UTF-8 decoder with the `ignore` error handler: decode valid
sequences; on an invalid sequence skip its maximal valid subpart
(at least one byte) and continue.  Total — decoding never fails. -/

/-- A UTF-8 continuation byte. -/
def contB (b : Nat) : Bool := 128 ≤ b && b ≤ 191

/-- One decoding step of CPython's (strict) UTF-8 decoder: given the
first byte and the following bytes, either the decoded character and the
sequence length, or `none` and the length of the maximal invalid subpart
to skip (at least 1).  Overlong encodings, surrogates and values beyond
U+10FFFF are invalid, via the lead-byte-dependent bounds on the first
continuation byte. -/
def utf8Peek (b : Nat) (t : List Nat) : Option Char × Nat :=
  if b ≤ 127 then (some (Char.ofNat b), 1)
  else if b ≤ 193 then (none, 1)
  else if b ≤ 223 then
    match t with
    | b1 :: _ =>
      if contB b1 then (some (Char.ofNat ((b - 192) * 64 + (b1 - 128))), 2)
      else (none, 1)
    | [] => (none, 1)
  else if b ≤ 239 then
    let lo1 := if b = 224 then 160 else 128
    let hi1 := if b = 237 then 159 else 191
    match t with
    | b1 :: b2 :: _ =>
      if lo1 ≤ b1 ∧ b1 ≤ hi1 then
        if contB b2 then
          (some (Char.ofNat ((b - 224) * 4096 + (b1 - 128) * 64 + (b2 - 128))), 3)
        else (none, 2)
      else (none, 1)
    | [b1] => if lo1 ≤ b1 ∧ b1 ≤ hi1 then (none, 2) else (none, 1)
    | [] => (none, 1)
  else if b ≤ 244 then
    let lo1 := if b = 240 then 144 else 128
    let hi1 := if b = 244 then 143 else 191
    match t with
    | b1 :: b2 :: b3 :: _ =>
      if lo1 ≤ b1 ∧ b1 ≤ hi1 then
        if contB b2 then
          if contB b3 then
            (some (Char.ofNat ((b - 240) * 262144 + (b1 - 128) * 4096 +
              (b2 - 128) * 64 + (b3 - 128))), 4)
          else (none, 3)
        else (none, 2)
      else (none, 1)
    | [b1, b2] =>
      if lo1 ≤ b1 ∧ b1 ≤ hi1 then
        if contB b2 then (none, 3) else (none, 2)
      else (none, 1)
    | [b1] => if lo1 ≤ b1 ∧ b1 ≤ hi1 then (none, 2) else (none, 1)
    | [] => (none, 1)
  else (none, 1)

/-- The `errors="ignore"` scan: skip invalid subparts, emitting nothing. -/
def utf8IgnoreGo : List Nat → Nat → Str
  | [], _ => []
  | _ :: t, k + 1 => utf8IgnoreGo t k
  | b :: t, 0 =>
    match utf8Peek b t with
    | (some ch, n) => ch :: utf8IgnoreGo t (n - 1)
    | (none, n) => utf8IgnoreGo t (n - 1)

/-- `bytes.decode("utf-8", errors="ignore")`, as `run_command` uses. -/
def utf8DecodeIgnore (bs : List Nat) : Str := utf8IgnoreGo bs 0

/-- The `errors="replace"` scan: U+FFFD for each invalid subpart. -/
def utf8ReplaceGo : List Nat → Nat → Str
  | [], _ => []
  | _ :: t, k + 1 => utf8ReplaceGo t k
  | b :: t, 0 =>
    match utf8Peek b t with
    | (some ch, n) => ch :: utf8ReplaceGo t (n - 1)
    | (none, n) => Char.ofNat 65533 :: utf8ReplaceGo t (n - 1)

/-- Modelled from the spec: "decode permissively (invalid byte sequences
are **replaced**, never fatal)" — decoding where each invalid subpart is
replaced by U+FFFD, as `errors="replace"` would do.  This is the
behaviour the specification ascribes to the executor; compare with
`utf8DecodeIgnore`, which is what the code (`errors="ignore"`) does. -/
def specUtf8DecodeReplace (bs : List Nat) : Str := utf8ReplaceGo bs 0

/-! ## Sandboxed executor (`executor.run_command`) -/

/-- What happened to the spawned subprocess: it timed out, its spawn
raised an `OSError`, or it ran to completion with the captured output
bytes and return code.  (The process itself is outside the embedding;
`run_command` is a function of this outcome.) -/
inductive ProcOutcome where
  | timeout
  | spawnFailure
  | completed (out err : List Nat) (returncode : Int)

/-- Exceptions `run_command` can propagate. -/
inductive ExecError where
  | shlexValueError
  | spawnOSError
deriving DecidableEq

structure ExecResult where
  returncode : Int
  stdout : Str
  stderr : Str
  outPath : Str
  errPath : Str
deriving DecidableEq

def logPathOut (cfg : SessionConfig) (block_id : Str) (idx : Nat) : Str :=
  cfg.output_dir ++ "/logs/".toList ++ block_id ++ "_".toList ++
    (toString idx).toList ++ ".out".toList

def logPathErr (cfg : SessionConfig) (block_id : Str) (idx : Nat) : Str :=
  cfg.output_dir ++ "/logs/".toList ++ block_id ++ "_".toList ++
    (toString idx).toList ++ ".err".toList

/-- `executor.run_command`.  The timeout branch returns normally with the
sentinel `(124, "", "Timeout", Path(), Path())` (the two empty `Path()`
placeholders are modelled as empty strings); a shlex `ValueError` or a
spawn failure propagates as an exception. -/
def run_command (cfg : SessionConfig) (block_id : Str) (idx : Nat) (cmd : Str)
    (proc : ProcOutcome) : Except ExecError ExecResult :=
  match pyShlexSplit cmd with
  | none => .error .shlexValueError
  | some _parts =>
    match proc with
    | .spawnFailure => .error .spawnOSError
    | .timeout => .ok ⟨124, [], "Timeout".toList, [], []⟩
    | .completed out err rc =>
      .ok ⟨rc, pyRedact (utf8DecodeIgnore out), pyRedact (utf8DecodeIgnore err),
        logPathOut cfg block_id idx, logPathErr cfg block_id idx⟩

/-! ## Observation builder (`executor.make_observation`) -/

structure Observation where
  block_id : Str
  exit_code : Int
  key_lines : List Str
  bytes_out : Nat
  summary : Str
  log_paths : List Str
deriving DecidableEq

/-- Python `str.splitlines()`. -/
def pyLineBreak (c : Char) : Bool :=
  c = '\n' || c = '\r' || c = '\x0b' || c = '\x0c' ||
  c = '\x1c' || c = '\x1d' || c = '\x1e' || c = '\x85' ||
  c = '\u2028' || c = '\u2029'

/-- Scanner for `str.splitlines`: accumulate the current line (reversed);
a break character ends the line, `\r\n` counting as a single break; a
final unterminated line is emitted, a terminated end is not. -/
def slGo (acc : Str) : Str → List Str
  | [] => if acc.isEmpty then [] else [acc.reverse]
  | '\r' :: '\n' :: t => acc.reverse :: slGo [] t
  | c :: t => if pyLineBreak c then acc.reverse :: slGo [] t else slGo (c :: acc) t

def pySplitlines (s : Str) : List Str := slGo [] s

/-- Python `len(s.encode())`: the UTF-8 byte length. -/
def utf8Len (s : Str) : Nat := (s.map Char.utf8Size).sum

/-- `"".join` -/
def joinAll (l : List Str) : Str := l.foldr (· ++ ·) []

/-- `max(gen, default=0)` over the exit codes. -/
def maxExit (l : List Int) : Int :=
  match l with
  | [] => 0
  | x :: t => t.foldl max x

/-- `executor.make_observation`.  (Python appends both per-command log
paths unconditionally: a `pathlib.Path` — even the empty `Path()` from the
timeout branch — has no `__bool__`, so `if o:` is always true.) -/
def make_observation (block_id : Str) (all_results : List ExecResult) : Observation :=
  let exit_code := maxExit (all_results.map (·.returncode))
  let combined := joinAll (all_results.map (·.stdout))
  let key_lines :=
    if combined.isEmpty then []
    else (pySplitlines combined).take 20 ++ ["...".toList] ++
      (pySplitlines combined).drop ((pySplitlines combined).length - 10)
  let bytes_out := (all_results.map (fun r => utf8Len r.stdout)).sum
  let summary :=
    (toString all_results.length).toList ++ " command(s), exit=".toList ++
    (toString exit_code).toList ++ ", bytes=".toList ++ (toString bytes_out).toList
  let log_paths := all_results.flatMap (fun r => [r.outPath, r.errPath])
  ⟨block_id, exit_code, key_lines, bytes_out, summary, log_paths⟩

/-! ## Fixed inputs used by the concrete parts of the claims -/

def cfgPlan : SessionConfig :=
  ⟨⟨[], ["example.com".toList], [], [".".toList], []⟩, .PLAN_ONLY, []⟩

def cfgAuto : SessionConfig :=
  ⟨⟨[], ["example.com".toList], [], [".".toList], []⟩, .AUTO_READONLY, []⟩

def cmdCurlHead : Str := "curl -I https://example.com".toList

def cmdCurlPlain : Str := "curl https://example.com".toList

def cmdCurlSub : Str := "curl https://sub.example.com".toList

/-- The session configuration of the `sub.example.com` scenario:
`example.com` allowed as a domain or not, an arbitrary denylist,
no host entries. -/
def cfgSub (allowEx : Bool) (oos : List Str) : SessionConfig :=
  ⟨⟨[], if allowEx then ["example.com".toList] else [], [], [".".toList], oos⟩,
    .AUTO_READONLY, []⟩

/-- Exit codes 0, 2, 0 for the concrete part of C6. -/
def res0 : ExecResult := ⟨0, "one\n".toList, [], "p1".toList, "q1".toList⟩

def res2 : ExecResult := ⟨2, "two\n".toList, [], "p2".toList, "q2".toList⟩

def res0b : ExecResult := ⟨0, "three\n".toList, [], "p3".toList, "q3".toList⟩

/-- A decidable mismatch witness: some position below both lengths where
the (already lowercased) text `u` differs from the pattern. -/
def mismL (u pat : Str) : Bool :=
  (List.range (min u.length pat.length)).any (fun i => !(u.getD i ' ' == pat.getD i ' '))

/-- A match of the matcher at `v` only rewrites text to itself. -/
def IdAt (tryM : Str → Option (Str × Nat)) (v : Str) : Prop :=
  ∀ rep n, tryM v = some (rep, n) → rep = v.take n ∧ 1 ≤ n

/-- `IdAt` at every suffix. -/
def Idem (tryM : Str → Option (Str × Nat)) (t : Str) : Prop :=
  ∀ u v, t = u ++ v → IdAt tryM v

/-! ## Claim theorems: mode authorizer -/

/-- **C10.** For every session config and every command string, the
authorization decision returned by `enforce` satisfies
`allow_execute = not needs_approval` on every return path. -/
theorem enforce_allow_iff_not_needs_approval (resolve : Str → Str)
    (cfg : SessionConfig) (cmd : Str) :
    (enforce resolve cfg cmd).1 = !(enforce resolve cfg cmd).2.1 := by
  simp only [enforce]
  repeat' split
  all_goals rfl

/-- **C1.** In `PLAN_ONLY`, `SIMULATE`, or `EXECUTE_WITH_APPROVAL` mode,
`enforce` returns `allow_execute = false` and `needs_approval = true` for
every command; in particular it never returns `allow_execute = true`. -/
theorem restricted_modes_never_execute (resolve : Str → Str)
    (cfg : SessionConfig) (cmd : Str)
    (h : cfg.mode = .PLAN_ONLY ∨ cfg.mode = .SIMULATE ∨
         cfg.mode = .EXECUTE_WITH_APPROVAL) :
    (enforce resolve cfg cmd).1 = false ∧ (enforce resolve cfg cmd).2.1 = true := by
  simp only [enforce]
  rcases h with h | h | h <;> simp only [h] <;> split <;> simp

/-- Witness for C1: a concrete `PLAN_ONLY` session and command. -/
theorem restricted_modes_never_execute_witness :
    (cfgPlan.mode = .PLAN_ONLY ∨ cfgPlan.mode = .SIMULATE ∨
     cfgPlan.mode = .EXECUTE_WITH_APPROVAL) ∧
    (enforce id cfgPlan ("ls".toList)).1 = false ∧
    (enforce id cfgPlan ("ls".toList)).2.1 = true :=
  ⟨Or.inl rfl, restricted_modes_never_execute id cfgPlan ("ls".toList) (Or.inl rfl)⟩

/-! ## Claim theorems: sandboxed executor -/

/-- **C8.** When the subprocess exceeds its timeout, `run_command` returns
normally (no exception value) with the sentinel exit code 124, an empty
stdout body and the placeholder stderr body. -/
theorem run_command_timeout_sentinel (cfg : SessionConfig) (bid : Str)
    (idx : Nat) (cmd : Str) (parts : List Str)
    (h : pyShlexSplit cmd = some parts) :
    run_command cfg bid idx cmd .timeout =
      .ok ⟨124, [], "Timeout".toList, [], []⟩ := by
  simp only [run_command, h]

/-- Witness for C8 at a concrete command. -/
theorem run_command_timeout_sentinel_witness :
    pyShlexSplit ("sleep 100".toList) = some ["sleep".toList, "100".toList] ∧
    run_command cfgAuto ("b1".toList) 0 ("sleep 100".toList) .timeout =
      .ok ⟨124, [], "Timeout".toList, [], []⟩ :=
  ⟨by decide, run_command_timeout_sentinel cfgAuto ("b1".toList) 0 ("sleep 100".toList)
    ["sleep".toList, "100".toList] (by decide)⟩

/-- **C9 (counterexample).** The claim says invalid byte sequences are
*replaced with a replacement marker*.  The code decodes with
`errors="ignore"`: on the invalid byte `0xFF` it produces the empty
string — no replacement marker appears — while the replacement decoding
the specification describes would produce U+FFFD. -/
theorem decode_ignore_drops_no_marker :
    utf8DecodeIgnore [255] = [] ∧
    ¬ (Char.ofNat 65533 ∈ utf8DecodeIgnore [255]) ∧
    specUtf8DecodeReplace [255] = [Char.ofNat 65533] ∧
    utf8DecodeIgnore [255] ≠ specUtf8DecodeReplace [255] := by
  refine ⟨rfl, ?_, rfl, ?_⟩ <;> decide

/-- **C9 (amended).** The executor decodes captured bytes permissively:
decoding never fails (the completed-process path always returns normally,
for every byte sequence), and invalid byte sequences are dropped
(ignored), not replaced with a marker. -/
theorem decode_permissive_never_fatal :
    (∀ (cfg : SessionConfig) (bid : Str) (idx : Nat) (cmd : Str)
       (out err : List Nat) (rc : Int) (parts : List Str),
       pyShlexSplit cmd = some parts →
       run_command cfg bid idx cmd (.completed out err rc) =
         .ok ⟨rc, pyRedact (utf8DecodeIgnore out), pyRedact (utf8DecodeIgnore err),
           logPathOut cfg bid idx, logPathErr cfg bid idx⟩) ∧
    (∀ bs : List Nat, utf8DecodeIgnore (255 :: bs) = utf8DecodeIgnore bs) ∧
    utf8DecodeIgnore [65, 255, 66] = ['A', 'B'] := by
  refine ⟨fun cfg bid idx cmd out err rc parts h => ?_, fun bs => ?_, by decide⟩
  · simp only [run_command, h]
  · simp [utf8DecodeIgnore, utf8IgnoreGo, utf8Peek]

/-- Witness for C9 (amended) at concrete inputs. -/
theorem decode_permissive_never_fatal_witness :
    pyShlexSplit ("cat x".toList) = some ["cat".toList, "x".toList] ∧
    run_command cfgAuto ("b1".toList) 0 ("cat x".toList)
        (.completed [65, 255, 66] [] 0) =
      .ok ⟨0, pyRedact (utf8DecodeIgnore [65, 255, 66]),
        pyRedact (utf8DecodeIgnore []),
        logPathOut cfgAuto ("b1".toList) 0, logPathErr cfgAuto ("b1".toList) 0⟩ :=
  ⟨by decide,
    decode_permissive_never_fatal.1 cfgAuto ("b1".toList) 0 ("cat x".toList)
      [65, 255, 66] [] 0 ["cat".toList, "x".toList] (by decide)⟩

/-! ## Claim theorems: observation builder -/

theorem seed_le_foldl_max (x : Int) (t : List Int) : x ≤ t.foldl max x := by
  induction t generalizing x with
  | nil => exact le_refl x
  | cons a t ih =>
    simp only [List.foldl_cons]
    exact le_trans (le_max_left x a) (ih (max x a))

theorem mem_le_foldl_max (x : Int) (t : List Int) (y : Int) (hy : y ∈ t) :
    y ≤ t.foldl max x := by
  induction t generalizing x with
  | nil => cases hy
  | cons a t ih =>
    simp only [List.foldl_cons]
    rcases List.mem_cons.1 hy with h | h
    · subst h
      exact le_trans (le_max_right x y) (seed_le_foldl_max (max x y) t)
    · exact ih (max x a) h

theorem foldl_max_mem (x : Int) (t : List Int) :
    t.foldl max x = x ∨ t.foldl max x ∈ t := by
  induction t generalizing x with
  | nil => simp
  | cons a t ih =>
    simp only [List.foldl_cons]
    rcases ih (max x a) with h | h
    · rcases max_choice x a with hm | hm
      · exact Or.inl (h.trans hm)
      · exact Or.inr (List.mem_cons.2 (Or.inl (h.trans hm)))
    · exact Or.inr (List.mem_cons.2 (Or.inr h))

/-- **C6.** The observation builder sets the aggregate exit code to the
numeric maximum of the per-command exit codes: it bounds every
per-command code from above, is one of them whenever the list is
non-empty (and 0 on the empty list), and on codes `[0, 2, 0]` it is `2`. -/
theorem observation_exit_code_is_max :
    (∀ (bid : Str) (results : List ExecResult) (r : ExecResult), r ∈ results →
       r.returncode ≤ (make_observation bid results).exit_code) ∧
    (∀ bid : Str, (make_observation bid []).exit_code = 0) ∧
    (∀ (bid : Str) (r : ExecResult) (rest : List ExecResult),
       (make_observation bid (r :: rest)).exit_code ∈
         (r :: rest).map (·.returncode)) ∧
    (make_observation ("b".toList) [res0, res2, res0b]).exit_code = 2 := by
  refine ⟨fun bid results r hr => ?_, fun bid => rfl, fun bid r rest => ?_, by decide⟩
  · cases results with
    | nil => cases hr
    | cons a t =>
      simp only [make_observation, maxExit, List.map_cons]
      rcases List.mem_cons.1 hr with h | h
      · subst h
        exact seed_le_foldl_max r.returncode (t.map (·.returncode))
      · exact mem_le_foldl_max _ _ _ (List.mem_map_of_mem (·.returncode) h)
  · simp only [make_observation, maxExit, List.map_cons]
    rcases foldl_max_mem r.returncode (rest.map (·.returncode)) with h | h
    · exact List.mem_cons.2 (Or.inl h)
    · exact List.mem_cons.2 (Or.inr h)

/-- Witness for C6 (first conjunct has a membership hypothesis). -/
theorem observation_exit_code_is_max_witness :
    res2 ∈ [res0, res2, res0b] ∧
    res2.returncode ≤ (make_observation ("b".toList) [res0, res2, res0b]).exit_code :=
  ⟨by decide, observation_exit_code_is_max.1 ("b".toList) [res0, res2, res0b] res2 (by decide)⟩

/-- **C7.** For every non-empty combined output, the key-lines extract is
the first 20 lines of the combined output, then the ellipsis marker, then
the last 10 lines — at most 31 entries, a bounded preview. -/
theorem observation_key_lines_head_tail (bid : Str) (results : List ExecResult)
    (h : joinAll (results.map (·.stdout)) ≠ []) :
    (make_observation bid results).key_lines =
      (pySplitlines (joinAll (results.map (·.stdout)))).take 20 ++
      ["...".toList] ++
      (pySplitlines (joinAll (results.map (·.stdout)))).drop
        ((pySplitlines (joinAll (results.map (·.stdout)))).length - 10) ∧
    (make_observation bid results).key_lines.length ≤ 31 := by
  have hne : (joinAll (results.map (·.stdout))).isEmpty = false :=
    List.isEmpty_eq_false.2 h
  constructor
  · simp only [make_observation, hne, Bool.false_eq_true, if_false, List.append_assoc]
  · simp only [make_observation, hne, Bool.false_eq_true, if_false]
    simp only [List.length_append, List.length_take, List.length_drop,
      List.length_cons, List.length_nil]
    omega

/-- Witness for C7 at a concrete result list. -/
theorem observation_key_lines_head_tail_witness :
    joinAll ([res0].map (·.stdout)) ≠ [] ∧
    (make_observation ("b".toList) [res0]).key_lines =
      (pySplitlines (joinAll ([res0].map (·.stdout)))).take 20 ++
      ["...".toList] ++
      (pySplitlines (joinAll ([res0].map (·.stdout)))).drop
        ((pySplitlines (joinAll ([res0].map (·.stdout)))).length - 10) :=
  ⟨by decide, (observation_key_lines_head_tail ("b".toList) [res0] (by decide)).1⟩

/-! ## Substring and strip lemmas (for C2) -/

theorem startsWith_iff (pat s : Str) :
    startsWith pat s = true ↔ ∃ r, s = pat ++ r := by
  induction pat generalizing s with
  | nil => simp [startsWith]
  | cons p ps ih =>
    cases s with
    | nil => simp [startsWith]
    | cons c cs => simp [startsWith, ih, eq_comm (a := p) (b := c)]

theorem hasSub_iff (pat s : Str) : hasSub pat s = true ↔ SubstringOf pat s := by
  induction s with
  | nil =>
    simp only [hasSub, List.isEmpty_iff, SubstringOf]
    constructor
    · rintro rfl; exact ⟨[], [], rfl⟩
    · rintro ⟨l, r, h⟩
      rcases List.append_eq_nil.1 h.symm with ⟨h1, h2⟩
      rcases List.append_eq_nil.1 h1 with ⟨-, h3⟩
      exact h3
  | cons c t ih =>
    simp only [hasSub, Bool.or_eq_true, startsWith_iff, ih, SubstringOf]
    constructor
    · rintro (⟨r, hr⟩ | ⟨l, r, hlr⟩)
      · exact ⟨[], r, by simpa using hr⟩
      · exact ⟨c :: l, r, by simp [hlr]⟩
    · rintro ⟨l, r, hlr⟩
      cases l with
      | nil => exact Or.inl ⟨r, by simpa using hlr⟩
      | cons x xs =>
        simp only [List.cons_append, List.cons.injEq] at hlr
        exact Or.inr ⟨xs, r, hlr.2⟩

theorem dropWhile_sub (p : Char → Bool) (l m r : Str) (hm : m ≠ [])
    (hh : p (m.headD ' ') = false) :
    ∃ a, (l ++ m ++ r).dropWhile p = a ++ m ++ r := by
  induction l with
  | nil =>
    cases m with
    | nil => cases hm rfl
    | cons x xs =>
      simp only [List.headD_cons] at hh
      exact ⟨[], by simp [List.dropWhile_cons, hh]⟩
  | cons y ys ih =>
    by_cases hy : p y = true
    · simpa [List.dropWhile_cons, hy] using ih
    · exact ⟨y :: ys ++ [], by simp [List.dropWhile_cons, hy]⟩

theorem strip_preserves_sub (pat s : Str) (hne : pat ≠ [])
    (hh : pyIsSpace (pat.headD ' ') = false)
    (hl : pyIsSpace (pat.reverse.headD ' ') = false) :
    SubstringOf pat s → SubstringOf pat (pyStrip s) := by
  rintro ⟨l, r, rfl⟩
  obtain ⟨a, ha⟩ := dropWhile_sub pyIsSpace l pat r hne hh
  unfold pyStrip
  rw [ha]
  have hrev : (a ++ pat ++ r).reverse = r.reverse ++ pat.reverse ++ a.reverse := by
    simp [List.reverse_append, List.append_assoc]
  rw [hrev]
  obtain ⟨b, hb⟩ := dropWhile_sub pyIsSpace r.reverse pat.reverse a.reverse
    (by simpa using hne) hl
  rw [hb]
  exact ⟨a, b.reverse, by simp [List.reverse_append, List.append_assoc]⟩

theorem strip_decomp (s : Str) : ∃ u v, s = u ++ pyStrip s ++ v := by
  refine ⟨s.takeWhile pyIsSpace,
    ((s.dropWhile pyIsSpace).reverse.takeWhile pyIsSpace).reverse, ?_⟩
  conv_lhs => rw [← List.takeWhile_append_dropWhile (p := pyIsSpace) (l := s)]
  rw [List.append_assoc]
  congr 1
  unfold pyStrip
  conv_lhs =>
    rw [← List.reverse_reverse (s.dropWhile pyIsSpace),
      ← List.takeWhile_append_dropWhile (p := pyIsSpace)
        (l := (s.dropWhile pyIsSpace).reverse)]
  rw [List.reverse_append]

theorem sub_of_strip_sub (pat s : Str) :
    SubstringOf pat (pyStrip s) → SubstringOf pat s := by
  rintro ⟨l, r, h⟩
  obtain ⟨u, v, hs⟩ := strip_decomp s
  exact ⟨u ++ l, r ++ v, by rw [hs, h]; simp [List.append_assoc]⟩

theorem lowerPairs_space : ∀ p ∈ lowerPairs, pyIsSpace p.2 = pyIsSpace p.1 := by
  decide

theorem pyIsSpace_toLower (c : Char) : pyIsSpace (pyToLower c) = pyIsSpace c := by
  unfold pyToLower
  cases h : lowerPairs.find? (fun p => p.1 == c) with
  | none => rfl
  | some p =>
    have hmem := List.mem_of_find?_eq_some h
    have hbeta := @List.find?_some (Char × Char) (fun q => q.1 == c) p lowerPairs h
    have hc : p.1 = c := by simpa using hbeta
    rw [← hc]
    exact lowerPairs_space p hmem

theorem lowerStr_strip (s : Str) : lowerStr (pyStrip s) = pyStrip (lowerStr s) := by
  have hpf : pyIsSpace ∘ pyToLower = pyIsSpace := funext pyIsSpace_toLower
  unfold pyStrip lowerStr
  rw [List.dropWhile_map, ← List.map_reverse, List.dropWhile_map, ← List.map_reverse,
    hpf]

theorem deny_pats_shape :
    ∀ pat ∈ DENY_PATTERNS, pat ≠ [] ∧ pyIsSpace (pat.headD ' ') = false ∧
      pyIsSpace (pat.reverse.headD ' ') = false := by decide

/-- **C2.** A command that case-insensitively contains a deny-list
substring is classified `medium`, not read-only, with a reason naming a
matched pattern — before and regardless of any tokenization or allowlist
logic (the conclusion holds for every such command, whatever its leading
token). -/
theorem deny_match_forces_medium (cmd : Str)
    (h : ∃ pat ∈ DENY_PATTERNS, SubstringOf pat (lowerStr cmd)) :
    ∃ pat ∈ DENY_PATTERNS, SubstringOf pat (lowerStr cmd) ∧
      classify_and_check cmd = (.medium, false, denyMsg pat) := by
  obtain ⟨pat, hmem, hsub⟩ := h
  have hco : lowerStr (pyStrip cmd) = pyStrip (lowerStr cmd) := lowerStr_strip cmd
  have conds := deny_pats_shape pat hmem
  have hsub2 : SubstringOf pat (lowerStr (pyStrip cmd)) := by
    rw [hco]
    exact strip_preserves_sub pat (lowerStr cmd) conds.1 conds.2.1 conds.2.2 hsub
  have hfind : (DENY_PATTERNS.find? (fun q => hasSub q (lowerStr (pyStrip cmd)))).isSome :=
    List.find?_isSome.2 ⟨pat, hmem, (hasSub_iff _ _).2 hsub2⟩
  obtain ⟨p0, hp0⟩ := Option.isSome_iff_exists.1 hfind
  refine ⟨p0, List.mem_of_find?_eq_some hp0, ?_, ?_⟩
  · have hp0beta :=
      @List.find?_some Str (fun q => hasSub q (lowerStr (pyStrip cmd))) p0
        DENY_PATTERNS hp0
    have hp0sub : hasSub p0 (lowerStr (pyStrip cmd)) = true := hp0beta
    have h1 : SubstringOf p0 (pyStrip (lowerStr cmd)) := by
      rw [← hco]
      exact (hasSub_iff _ _).1 hp0sub
    exact sub_of_strip_sub p0 (lowerStr cmd) h1
  · simp only [classify_and_check, hp0]

/-- Witness for C2: a concrete command containing a deny-list pattern. -/
theorem deny_match_forces_medium_witness :
    (∃ pat ∈ DENY_PATTERNS, SubstringOf pat (lowerStr ("echo hi && RM -RF /tmp".toList))) ∧
    ∃ pat ∈ DENY_PATTERNS, SubstringOf pat (lowerStr ("echo hi && RM -RF /tmp".toList)) ∧
      classify_and_check ("echo hi && RM -RF /tmp".toList) = (.medium, false, denyMsg pat) :=
  have hx : ∃ pat ∈ DENY_PATTERNS, SubstringOf pat (lowerStr ("echo hi && RM -RF /tmp".toList)) :=
    ⟨"rm -rf".toList, by decide,
      ⟨"echo hi && ".toList, " /tmp".toList, by decide⟩⟩
  ⟨hx, deny_match_forces_medium ("echo hi && RM -RF /tmp".toList) hx⟩

/-! ## Claim theorems: AUTO_READONLY gate and scope resolver -/

/-- **C3.** In `AUTO_READONLY` mode, for every command that passes the
scope check, `enforce` allows automatically iff the classifier returned
`low` risk and read-only-safe, and otherwise reports `needs_approval`;
concretely, with scope domains `["example.com"]`,
`curl -I https://example.com` is allowed automatically (`low`) and
`curl https://example.com` needs approval (`medium`). -/
theorem auto_readonly_allow_iff :
    (∀ (resolve : Str → Str) (cfg : SessionConfig) (cmd : Str),
      cfg.mode = .AUTO_READONLY →
      (in_scope_command resolve cfg cmd).1 = true →
      (((enforce resolve cfg cmd).1 = true ↔
          ((classify_and_check cmd).1 = .low ∧ (classify_and_check cmd).2.1 = true)) ∧
        (¬((classify_and_check cmd).1 = .low ∧ (classify_and_check cmd).2.1 = true) →
          (enforce resolve cfg cmd).2.1 = true))) ∧
    (enforce id cfgAuto cmdCurlHead).1 = true ∧
    (enforce id cfgAuto cmdCurlHead).2.1 = false ∧
    (classify_and_check cmdCurlHead).1 = .low ∧
    (classify_and_check cmdCurlHead).2.1 = true ∧
    (enforce id cfgAuto cmdCurlPlain).1 = false ∧
    (enforce id cfgAuto cmdCurlPlain).2.1 = true ∧
    (classify_and_check cmdCurlPlain).1 = .medium := by
  refine ⟨fun resolve cfg cmd hmode hscope => ?_,
    by decide, by decide, by decide, by decide, by decide, by decide, by decide⟩
  rcases hcc : classify_and_check cmd with ⟨risk, ro, why⟩
  by_cases hc : (risk = Risk.low ∧ ro = true)
  · simp [enforce, hcc, hmode, hscope, hc]
  · simp only [enforce, hcc, hmode, hscope]
    simp [hc]

/-- Witness for C3 at the concrete session and command. -/
theorem auto_readonly_allow_iff_witness :
    cfgAuto.mode = .AUTO_READONLY ∧
    (in_scope_command id cfgAuto cmdCurlHead).1 = true ∧
    ((enforce id cfgAuto cmdCurlHead).1 = true ↔
      ((classify_and_check cmdCurlHead).1 = .low ∧
       (classify_and_check cmdCurlHead).2.1 = true)) :=
  ⟨rfl, by decide,
    (auto_readonly_allow_iff.1 id cfgAuto cmdCurlHead rfl (by decide)).1⟩

/-- **C4.** Denylist membership always overrides allow membership: if any
extracted target of a command is in the out-of-scope denylist the command
is rejected, even when that target is also in the allowed domains or
hosts; and the command `curl https://sub.example.com` is in scope iff
`example.com` is an allowed domain and `sub.example.com` is not
separately denylisted. -/
theorem scope_denylist_overrides :
    (∀ (resolve : Str → Str) (cfg : SessionConfig) (cmd : Str) (t : Str),
      t ∈ extractTargets cmd → t ∈ cfg.scope.out_of_scope →
      (in_scope_command resolve cfg cmd).1 = false) ∧
    (∀ (resolve : Str → Str) (allowEx : Bool) (oos : List Str),
      (in_scope_command resolve (cfgSub allowEx oos) cmdCurlSub).1 =
        (allowEx && !(oos.contains ("sub.example.com".toList)))) := by
  constructor
  · intro resolve cfg cmd t ht hoos
    have hne : (extractTargets cmd).isEmpty = false :=
      List.isEmpty_eq_false.2 (List.ne_nil_of_mem ht)
    have hany : ((extractTargets cmd).any
        fun x => cfg.scope.out_of_scope.contains x) = true := by
      simp only [List.any_eq_true]
      exact ⟨t, ht, by simpa using hoos⟩
    simp only [in_scope_command, hne, Bool.false_eq_true, if_false]
    rw [hany]
    simp
  · intro resolve allowEx oos
    have hT : extractTargets cmdCurlSub = ["sub.example.com".toList] := by decide
    have hP : extractPaths cmdCurlSub = [] := by decide
    simp only [in_scope_command, hT, cfgSub, scopePathCheck, hP, List.find?_nil,
      List.isEmpty_cons, Bool.false_eq_true, if_false, List.any_cons, List.any_nil]
    cases h : oos.contains ("sub.example.com".toList) with
    | true =>
      have hmem : ("sub.example.com".toList) ∈ oos := by simpa using h
      simp [hmem]
    | false =>
      have hmem : ¬ (("sub.example.com".toList) ∈ oos) := by simpa using h
      cases allowEx with
      | true =>
        simp only [hmem]
        simp
        decide
      | false => simp [hmem]

/-- Witness for C4 (the first conjunct has membership hypotheses). -/
theorem scope_denylist_overrides_witness :
    ("sub.example.com".toList ∈ extractTargets cmdCurlSub) ∧
    ("sub.example.com".toList ∈
      (cfgSub true ["sub.example.com".toList]).scope.out_of_scope) ∧
    (in_scope_command id (cfgSub true ["sub.example.com".toList]) cmdCurlSub).1 = false :=
  ⟨by decide, by decide,
    scope_denylist_overrides.1 id (cfgSub true ["sub.example.com".toList]) cmdCurlSub
      ("sub.example.com".toList) (by decide) (by decide)⟩

/-! ## Claim theorem: redaction idempotence -/

theorem Idem.suffix {tryM : Str → Option (Str × Nat)} {t u v : Str}
    (h : Idem tryM t) (hs : t = u ++ v) : Idem tryM v := by
  intro a b hab
  exact h (u ++ a) b (by rw [hs, hab, List.append_assoc])

theorem Idem.head {tryM : Str → Option (Str × Nat)} {t : Str}
    (h : Idem tryM t) : IdAt tryM t := h [] t rfl

/-- Skipping `k` characters is scanning the `k`-dropped suffix, provided
the matcher cannot fire on the empty string. -/
theorem subScanGo_skip (tryM : Str → Option (Str × Nat)) (h0 : tryM [] = none)
    (t : Str) (k : Nat) : subScanGo tryM t k = subScan tryM (t.drop k) := by
  induction t generalizing k with
  | nil => cases k <;> simp [subScan, subScanGo, h0]
  | cons c t ih =>
    cases k with
    | zero => simp [subScan]
    | succ k => simpa [subScanGo] using ih k

theorem subScan_nil (tryM : Str → Option (Str × Nat)) (h0 : tryM [] = none) :
    subScan tryM [] = [] := by simp [subScan, subScanGo, h0]

theorem subScan_cons_none (tryM : Str → Option (Str × Nat)) (c : Char) (t : Str)
    (h : tryM (c :: t) = none) :
    subScan tryM (c :: t) = c :: subScan tryM t := by
  simp [subScan, subScanGo, h]

theorem subScan_cons_some (tryM : Str → Option (Str × Nat)) (h0 : tryM [] = none)
    (c : Char) (t : Str) (rep : Str) (n : Nat)
    (h : tryM (c :: t) = some (rep, n)) (hn : 1 ≤ n) :
    subScan tryM (c :: t) = rep ++ subScan tryM (t.drop (n - 1)) := by
  have hne : ¬ n = 0 := by omega
  simp only [subScan, subScanGo, h, hne, if_false]
  rw [subScanGo_skip tryM h0]
  rfl

/-- A scan over a string all of whose suffix matches are identity
rewrites leaves the string unchanged. -/
theorem subScan_eq_self (tryM : Str → Option (Str × Nat)) (h0 : tryM [] = none)
    (t : Str) (hid : Idem tryM t) : subScan tryM t = t := by
  suffices H : ∀ (L : Nat) (t : Str), t.length ≤ L → Idem tryM t →
      subScan tryM t = t from H t.length t (le_refl _) hid
  intro L
  induction L with
  | zero =>
    intro t hl _
    cases t with
    | nil => exact subScan_nil tryM h0
    | cons c t => simp at hl
  | succ L ih =>
    intro t hl hid
    cases t with
    | nil => exact subScan_nil tryM h0
    | cons c t =>
      cases h : tryM (c :: t) with
      | none =>
        rw [subScan_cons_none tryM c t h]
        rw [ih t (by simp at hl; omega) (hid.suffix (u := [c]) rfl)]
      | some rn =>
        obtain ⟨rep, n⟩ := rn
        obtain ⟨hrep, hn⟩ := hid.head rep n h
        rw [subScan_cons_some tryM h0 c t rep n h hn, hrep]
        have hdrop : (c :: t).drop n = t.drop (n - 1) := by
          cases n with
          | zero => omega
          | succ m => simp
        have hidd : Idem tryM (t.drop (n - 1)) :=
          hid.suffix (u := (c :: t).take n)
            (by rw [← hdrop]; exact (List.take_append_drop n (c :: t)).symm)
        have hlen : (t.drop (n - 1)).length ≤ L := by
          simp only [List.length_drop]
          simp only [List.length_cons] at hl
          omega
        rw [ih _ hlen hidd, ← hdrop]
        exact List.take_append_drop n (c :: t)

/-- If the matcher fails at every position inside `pre` (with the given
tail), the scan copies `pre` verbatim. -/
theorem subScan_copy_through (tryM : Str → Option (Str × Nat)) (pre tail : Str)
    (hf : ∀ k, k < pre.length → tryM (pre.drop k ++ tail) = none) :
    subScan tryM (pre ++ tail) = pre ++ subScan tryM tail := by
  induction pre with
  | nil => rfl
  | cons p pre ih =>
    have h0 := hf 0 (by simp)
    simp only [List.drop_zero] at h0
    rw [List.cons_append, subScan_cons_none tryM p (pre ++ tail) h0]
    rw [ih (fun k hk => by simpa using hf (k + 1) (by simpa using hk))]
    rfl

/-- A string where the matcher fails at every suffix scans to itself. -/
theorem subScan_allfail (tryM : Str → Option (Str × Nat))
    (t : Str) (hf : ∀ u v, t = u ++ v → tryM v = none) : subScan tryM t = t := by
  have h0 : tryM [] = none := hf t [] (by simp)
  refine subScan_eq_self tryM h0 t ?_
  intro u v huv rep n h
  rw [hf u v huv] at h
  cases h

/-! Facts about single characters and `mismL`. -/

theorem pyToLower_of_ws (c : Char) (h : pyIsSpace c = true) : pyToLower c = c := by
  have h2 := h
  simp only [pyIsSpace, Bool.or_eq_true, decide_eq_true_eq] at h2
  rcases h2 with ((((h2 | h2) | h2) | h2) | h2) | h2 <;> subst h2 <;> decide

theorem getD_mem_of_lt {l : Str} {i : Nat} (h : i < l.length) (d : Char) :
    l.getD i d ∈ l := by
  rw [List.getD_eq_getElem?_getD, List.getElem?_eq_getElem h]
  exact List.getElem_mem h

/-- The central mismatch lemma: a position below the pattern length where
the lowered input differs from the pattern makes the prefix test of
`tryHdr` fail. -/
theorem tryHdr_none_of_get (pat : Str) (aw : Bool) (s : Str) (i : Nat)
    (hiL : i < pat.length) (his : i < s.length)
    (hne : pyToLower (s.getD i ' ') ≠ pat.getD i ' ') :
    tryHdr pat aw s = none := by
  have hpre : ¬ (lowerStr (s.take pat.length) = pat) := by
    intro heq
    have h1 : (lowerStr (s.take pat.length))[i]? = pat[i]? := by rw [heq]
    rw [lowerStr, List.getElem?_map, List.getElem?_take_of_lt hiL,
      List.getElem?_eq_getElem his, List.getElem?_eq_getElem hiL] at h1
    have h2 : pyToLower s[i] = pat[i] := by simpa using h1
    apply hne
    rw [List.getD_eq_getElem?_getD, List.getElem?_eq_getElem his,
      List.getD_eq_getElem?_getD, List.getElem?_eq_getElem hiL]
    simpa using h2
  simp only [tryHdr, hpre, if_false]

/-- `mismL`-driven failure: the scanned text starts with `u` whose
lowering `u'` has a mismatch witness against the pattern. -/
theorem tryHdr_none_of_mismL (pat : Str) (aw : Bool) (u u' x : Str)
    (hu : lowerStr u = u') (hm : mismL u' pat = true) :
    tryHdr pat aw (u ++ x) = none := by
  obtain ⟨i, hir, hi⟩ := List.any_eq_true.1 hm
  rw [List.mem_range] at hir
  have hiu : i < u.length := by
    have : u'.length = u.length := by rw [← hu, lowerStr, List.length_map]
    omega
  have hiL : i < pat.length := by omega
  refine tryHdr_none_of_get pat aw (u ++ x) i hiL (by rw [List.length_append]; omega) ?_
  have hget : (u ++ x).getD i ' ' = u.getD i ' ' := by
    rw [List.getD_eq_getElem?_getD, List.getElem?_append_left hiu,
      ← List.getD_eq_getElem?_getD]
  rw [hget]
  have hlow : pyToLower (u.getD i ' ') = u'.getD i ' ' := by
    rw [← hu, List.getD_eq_getElem?_getD, List.getD_eq_getElem?_getD, lowerStr,
      List.getElem?_map, List.getElem?_eq_getElem hiu]
    simp
  rw [hlow]
  simpa using hi

/-- A whitespace head makes `tryHdr` fail (the patterns start with a
non-whitespace character). -/
theorem tryHdr_none_of_ws_head (pat : Str) (aw : Bool) (c : Char) (x : Str)
    (hpat : pat ≠ []) (hp : ∀ d ∈ pat, pyIsSpace d = false)
    (hc : pyIsSpace c = true) :
    tryHdr pat aw (c :: x) = none := by
  have hL : 0 < pat.length := List.length_pos.2 hpat
  refine tryHdr_none_of_get pat aw (c :: x) 0 hL (by simp) ?_
  have h0 : (c :: x).getD 0 ' ' = c := rfl
  rw [h0, pyToLower_of_ws c hc]
  intro heq
  have : pyIsSpace (pat.getD 0 ' ') = false := hp _ (getD_mem_of_lt hL ' ')
  rw [← heq] at this
  rw [hc] at this
  cases this

theorem tryHdr_nil (pat : Str) (aw : Bool) (hpat : pat ≠ []) :
    tryHdr pat aw [] = none := by
  have : ¬ (lowerStr (([] : Str).take pat.length) = pat) := by
    simpa [lowerStr] using hpat
  simp only [tryHdr, this, if_false]

theorem tryJwt_nil : tryJwt [] = none := rfl

theorem drop_length_takeWhile (p : Char → Bool) (l : Str) :
    l.drop (l.takeWhile p).length = l.dropWhile p := by
  induction l with
  | nil => rfl
  | cons c t ih =>
    by_cases h : p c
    · simp [List.takeWhile_cons_of_pos h, List.dropWhile_cons_of_pos h, ih]
    · simp [List.takeWhile_cons_of_neg h, List.dropWhile_cons_of_neg h]

/-- Shape of a successful `tryHdr` match: pattern occurrence (any casing),
a whitespace run (empty unless `aw`), a maximal non-whitespace token, and
a rest that is empty or starts with whitespace. -/
theorem tryHdr_some_shape (pat : Str) (aw : Bool) (s rep : Str) (n : Nat)
    (h : tryHdr pat aw s = some (rep, n)) :
    ∃ A W TOK rest,
      s = A ++ W ++ TOK ++ rest ∧
      A.length = pat.length ∧ lowerStr A = pat ∧
      (∀ c ∈ W, pyIsSpace c = true) ∧ (aw = false → W = []) ∧
      TOK ≠ [] ∧ (∀ c ∈ TOK, pyIsSpace c = false) ∧
      (rest = [] ∨ pyIsSpace (rest.headD ' ') = true) ∧
      rep = A ++ W ++ REDACTED ∧ n = pat.length + W.length + TOK.length := by
  unfold tryHdr at h
  by_cases hpre : lowerStr (s.take pat.length) = pat
  case neg => simp only [hpre, if_false] at h; cases h
  simp only [hpre, if_true] at h
  have hlenA : (s.take pat.length).length = pat.length := by
    have := congrArg List.length hpre
    simpa [lowerStr] using this
  cases aw with
  | false =>
    simp only [Bool.false_eq_true, if_false, List.length_nil, List.drop_zero] at h
    by_cases htok : ((s.drop pat.length).takeWhile nonWS).isEmpty
    case pos => simp only [htok, if_true] at h; cases h
    simp only [htok, Bool.false_eq_true, if_false, Option.some.injEq, Prod.mk.injEq] at h
    refine ⟨s.take pat.length, [], (s.drop pat.length).takeWhile nonWS,
      (s.drop pat.length).dropWhile nonWS,
      ?_, hlenA, hpre, ?_, ?_, ?_, ?_, ?_, ?_, ?_⟩
    · simp only [List.append_nil, List.append_assoc]
      rw [List.takeWhile_append_dropWhile, List.take_append_drop]
    · intro c hc
      cases hc
    · intro _
      rfl
    · simpa [List.isEmpty_iff] using htok
    · intro c hc
      have := List.mem_takeWhile_imp hc
      simpa [nonWS] using this
    · rcases hd : (s.drop pat.length).dropWhile nonWS with _ | ⟨d, ds⟩
      · exact Or.inl rfl
      · right
        have hh := List.head?_dropWhile_not nonWS (s.drop pat.length)
        rw [hd] at hh
        simp only [List.head?_cons, Option.all_some] at hh
        simpa [nonWS] using hh
    · rw [← h.1]
    · rw [← h.2]
      simp
  | true =>
    simp only [if_true] at h
    by_cases htok : (((s.drop pat.length).drop
        ((s.drop pat.length).takeWhile pyIsSpace).length).takeWhile nonWS).isEmpty
    case pos => simp only [htok, if_true] at h; cases h
    simp only [htok, Bool.false_eq_true, if_false, Option.some.injEq, Prod.mk.injEq] at h
    rw [drop_length_takeWhile] at htok h
    refine ⟨s.take pat.length, (s.drop pat.length).takeWhile pyIsSpace,
      ((s.drop pat.length).dropWhile pyIsSpace).takeWhile nonWS,
      ((s.drop pat.length).dropWhile pyIsSpace).dropWhile nonWS,
      ?_, hlenA, hpre, ?_, ?_, ?_, ?_, ?_, ?_, ?_⟩
    · simp only [List.append_assoc]
      rw [List.takeWhile_append_dropWhile (p := nonWS),
        List.takeWhile_append_dropWhile (p := pyIsSpace), List.take_append_drop]
    · intro c hc
      exact List.mem_takeWhile_imp hc
    · intro hba
      cases hba
    · simpa [List.isEmpty_iff] using htok
    · intro c hc
      have := List.mem_takeWhile_imp hc
      simpa [nonWS] using this
    · rcases hd : ((s.drop pat.length).dropWhile pyIsSpace).dropWhile nonWS
        with _ | ⟨d, ds⟩
      · exact Or.inl rfl
      · right
        have hh := List.head?_dropWhile_not nonWS
          ((s.drop pat.length).dropWhile pyIsSpace)
        rw [hd] at hh
        simp only [List.head?_cons, Option.all_some] at hh
        simpa [nonWS] using hh
    · rw [← h.1]
    · rw [← h.2]

/-- Converse construction: on a pattern occurrence followed by (optional)
whitespace, the literal `[REDACTED]` token and a whitespace-or-end rest,
`tryHdr` fires and rewrites the match to itself. -/
theorem tryHdr_identity (pat : Str) (aw : Bool) (A W rest : Str)
    (hA : A.length = pat.length) (hlow : lowerStr A = pat)
    (hW : ∀ c ∈ W, pyIsSpace c = true) (hWaw : aw = false → W = [])
    (hrest : rest = [] ∨ pyIsSpace (rest.headD ' ') = true) :
    tryHdr pat aw (A ++ W ++ REDACTED ++ rest) =
      some (A ++ W ++ REDACTED, pat.length + W.length + REDACTED.length) := by
  have hs : A ++ W ++ REDACTED ++ rest = A ++ (W ++ (REDACTED ++ rest)) := by
    simp [List.append_assoc]
  have htake : (A ++ W ++ REDACTED ++ rest).take pat.length = A := by
    rw [hs]; exact List.take_left' hA
  have hdrop : (A ++ W ++ REDACTED ++ rest).drop pat.length = W ++ (REDACTED ++ rest) := by
    rw [hs]; exact List.drop_left' hA
  have htwRest : (REDACTED ++ rest).takeWhile nonWS = REDACTED ++ rest.takeWhile nonWS := by
    refine List.takeWhile_append_of_pos ?_
    intro a ha
    fin_cases ha <;> decide
  have htwR : rest.takeWhile nonWS = [] := by
    rcases hrest with h | h
    · rw [h]; rfl
    · cases rest with
      | nil => rfl
      | cons d ds =>
        simp only [List.headD_cons] at h
        have : nonWS d = false := by simp [nonWS, h]
        simp [List.takeWhile_cons_of_neg, this]
  have hwsrun : ∀ b : Bool, (if b = true then (W ++ (REDACTED ++ rest)).takeWhile pyIsSpace
      else []).length = (if b = true then W else []).length := by
    intro b
    cases b with
    | false => simp
    | true =>
      simp only [if_true]
      rw [List.takeWhile_append_of_pos hW]
      have : (REDACTED ++ rest).takeWhile pyIsSpace = [] := by
        have : pyIsSpace '[' = false := by decide
        simp [REDACTED, List.takeWhile_cons_of_neg, this]
      rw [this, List.append_nil]
  simp only [tryHdr, htake, hdrop, hlow, eq_self_iff_true, if_true]
  cases aw with
  | false =>
    have hWnil : W = [] := hWaw rfl
    subst hWnil
    simp only [Bool.false_eq_true, if_false, List.length_nil, List.drop_zero,
      List.nil_append]
    rw [htwRest, htwR, List.append_nil]
    have hne : (REDACTED : Str).isEmpty = false := by decide
    simp [hne]
  | true =>
    simp only [if_true]
    rw [List.takeWhile_append_of_pos hW]
    have hz : (REDACTED ++ rest).takeWhile pyIsSpace = [] := by
      have : pyIsSpace '[' = false := by decide
      simp [REDACTED, List.takeWhile_cons_of_neg, this]
    rw [hz, List.append_nil]
    rw [List.drop_left]
    rw [htwRest, htwR, List.append_nil]
    have hne : (REDACTED : Str).isEmpty = false := by decide
    simp [hne]

theorem take_append_le : ∀ (n : Nat) (l₁ l₂ : Str), n ≤ l₁.length →
    (l₁ ++ l₂).take n = l₁.take n
  | 0, _, _, _ => by simp
  | n + 1, [], l₂, h => by simp at h
  | n + 1, c :: l₁, l₂, h => by
    simp only [List.cons_append, List.take_succ_cons]
    rw [take_append_le n l₁ l₂ (by simpa using h)]

theorem drop_append_le : ∀ (n : Nat) (l₁ l₂ : Str), n ≤ l₁.length →
    (l₁ ++ l₂).drop n = l₁.drop n ++ l₂
  | 0, _, _, _ => by simp
  | n + 1, [], l₂, h => by simp at h
  | n + 1, c :: l₁, l₂, h => by
    simp only [List.cons_append, List.drop_succ_cons]
    exact drop_append_le n l₁ l₂ (by simpa using h)

theorem headD_drop (l : Str) (m : Nat) (d : Char) :
    (l.drop m).headD d = l.getD m d := by
  have h1 : (l.drop m)[0]? = l[m]? := List.getElem?_drop l m 0
  rcases hld : l.drop m with _ | ⟨a, t⟩ <;>
    rw [List.getD_eq_getElem?_getD, ← h1, hld] <;> simp

theorem getD_of_take_eq {x y : Str} {n i : Nat} (h : x.take n = y.take n)
    (hi : i < n) (d : Char) : x.getD i d = y.getD i d := by
  have h1 : x[i]? = (x.take n)[i]? := (List.getElem?_take_of_lt hi).symm
  have h2 : y[i]? = (y.take n)[i]? := (List.getElem?_take_of_lt hi).symm
  rw [List.getD_eq_getElem?_getD, List.getD_eq_getElem?_getD, h1, h2, h]

theorem tryHdr_none_of_pre (pat : Str) (aw : Bool) (s : Str)
    (h : ¬ (lowerStr (s.take pat.length) = pat)) : tryHdr pat aw s = none := by
  simp only [tryHdr, h, if_false]

/-- With no whitespace gap allowed, a whitespace character right after the
pattern position makes the match fail (the `\S+` token is empty). -/
theorem tryHdr_none_of_tok_ws (pat : Str) (s : Str)
    (h : pyIsSpace ((s.drop pat.length).headD ' ') = true) :
    tryHdr pat false s = none := by
  by_cases hpre : lowerStr (s.take pat.length) = pat
  · have htok : ((s.drop pat.length).takeWhile nonWS).isEmpty = true := by
      cases hd : s.drop pat.length with
      | nil => simp
      | cons c cs =>
        rw [hd] at h
        simp only [List.headD_cons] at h
        have : nonWS c = false := by simp [nonWS, h]
        simp [List.takeWhile_cons_of_neg, this]
    simp only [tryHdr, hpre, if_true, Bool.false_eq_true, if_false,
      List.length_nil, List.drop_zero, htok]
  · exact tryHdr_none_of_pre pat false s hpre

/-- Inversion of a failed `tryHdr`: either the (case-folded) pattern is
not at the front, or the pattern is there but no token follows. -/
theorem tryHdr_none_inv (pat : Str) (aw : Bool) (s : Str)
    (h : tryHdr pat aw s = none) :
    ¬ (lowerStr (s.take pat.length) = pat) ∨
    (aw = true ∧ ∀ c ∈ s.drop pat.length, pyIsSpace c = true) ∨
    (aw = false ∧ (s.drop pat.length = [] ∨
      pyIsSpace ((s.drop pat.length).headD ' ') = true)) := by
  by_cases hpre : lowerStr (s.take pat.length) = pat
  case neg => exact Or.inl hpre
  right
  cases aw with
  | false =>
    refine Or.inr ⟨rfl, ?_⟩
    simp only [tryHdr, hpre, if_true, Bool.false_eq_true, if_false,
      List.length_nil, List.drop_zero] at h
    cases hd : s.drop pat.length with
    | nil => exact Or.inl rfl
    | cons c cs =>
      right
      rw [hd] at h
      by_cases hc : nonWS c
      · rw [List.takeWhile_cons_of_pos hc] at h
        simp at h
      · simp only [List.headD_cons]
        simpa [nonWS] using hc
  | true =>
    refine Or.inl ⟨rfl, ?_⟩
    simp only [tryHdr, hpre, if_true] at h
    rw [drop_length_takeWhile] at h
    cases hd : (s.drop pat.length).dropWhile pyIsSpace with
    | nil => exact List.dropWhile_eq_nil_iff.1 hd
    | cons c cs =>
      exfalso
      have hh := List.head?_dropWhile_not pyIsSpace (s.drop pat.length)
      rw [hd] at hh
      simp only [List.head?_cons, Option.all_some] at hh
      have : nonWS c = true := by simpa [nonWS] using hh
      rw [hd, List.takeWhile_cons_of_pos this] at h
      simp at h

theorem drop_cons_of_pos (c : Char) (t : Str) (n : Nat) (h : 1 ≤ n) :
    (c :: t).drop n = t.drop (n - 1) := by
  cases n with
  | zero => omega
  | succ m => simp

/-- Scanning never changes the first `pat.length` characters: every match
copies the pattern occurrence (and the whitespace gap) verbatim. -/
theorem subHdr_take_agree (pat : Str) (aw : Bool) (hpat : pat ≠ []) :
    ∀ (t : Str) (k : Nat), k ≤ pat.length →
      (subScan (tryHdr pat aw) t).take k = t.take k := by
  have h0 := tryHdr_nil pat aw hpat
  suffices H : ∀ (N : Nat) (t : Str) (k : Nat), t.length ≤ N → k ≤ pat.length →
      (subScan (tryHdr pat aw) t).take k = t.take k by
    intro t k hk
    exact H t.length t k (le_refl _) hk
  intro N
  induction N with
  | zero =>
    intro t k ht hk
    cases t with
    | nil => rw [subScan_nil _ h0]
    | cons c t => simp at ht
  | succ N ih =>
    intro t k ht hk
    cases t with
    | nil => rw [subScan_nil _ h0]
    | cons c t =>
      cases h : tryHdr pat aw (c :: t) with
      | none =>
        rw [subScan_cons_none _ c t h]
        cases k with
        | zero => rfl
        | succ k =>
          simp only [List.take_succ_cons]
          rw [ih t k (by simp at ht; omega) (by omega)]
      | some rn =>
        obtain ⟨rep, n⟩ := rn
        obtain ⟨A, W, TOK, rest, hsplit, hA, _, _, _, _, _, _, hrep, hn⟩ :=
          tryHdr_some_shape pat aw (c :: t) rep n h
        have hn1 : 1 ≤ n := by
          rw [hn]
          have : 0 < pat.length := List.length_pos.2 hpat
          omega
        rw [subScan_cons_some _ h0 c t rep n h hn1]
        have hkrep : k ≤ rep.length := by
          rw [hrep]
          simp only [List.length_append, hA]
          omega
        rw [take_append_le k rep _ hkrep, hrep]
        have h1 : (A ++ W ++ REDACTED).take k = A.take k := by
          rw [List.append_assoc, take_append_le k A _ (by omega)]
        have h2 : (c :: t).take k = A.take k := by
          rw [hsplit, List.append_assoc, List.append_assoc,
            take_append_le k A _ (by omega)]
        rw [h1, h2]

/-- First-match decomposition: the scan either changes nothing, or the
output is a copied prefix of length at least `pat.length`, the insertion
`[REDACTED]`, and the scan of some suffix of the input. -/
theorem subHdr_agree (pat : Str) (aw : Bool) (hpat : pat ≠ []) :
    ∀ t : Str,
      subScan (tryHdr pat aw) t = t ∨
      ∃ q mid rest, t = q ++ mid ++ rest ∧
        subScan (tryHdr pat aw) t = q ++ REDACTED ++ subScan (tryHdr pat aw) rest ∧
        pat.length ≤ q.length := by
  have h0 := tryHdr_nil pat aw hpat
  suffices H : ∀ (N : Nat) (t : Str), t.length ≤ N →
      (subScan (tryHdr pat aw) t = t ∨
      ∃ q mid rest, t = q ++ mid ++ rest ∧
        subScan (tryHdr pat aw) t = q ++ REDACTED ++ subScan (tryHdr pat aw) rest ∧
        pat.length ≤ q.length) by
    intro t
    exact H t.length t (le_refl _)
  intro N
  induction N with
  | zero =>
    intro t ht
    cases t with
    | nil => exact Or.inl (subScan_nil _ h0)
    | cons c t => simp at ht
  | succ N ih =>
    intro t ht
    cases t with
    | nil => exact Or.inl (subScan_nil _ h0)
    | cons c t =>
      cases h : tryHdr pat aw (c :: t) with
      | none =>
        rcases ih t (by simp at ht; omega) with h1 | ⟨q, mid, rest, h1, h2, h3⟩
        · left
          rw [subScan_cons_none _ c t h, h1]
        · right
          refine ⟨c :: q, mid, rest, by simp [h1], ?_,
            le_trans h3 (by simp)⟩
          rw [subScan_cons_none _ c t h, h2]
          rfl
      | some rn =>
        obtain ⟨rep, n⟩ := rn
        obtain ⟨A, W, TOK, rest, hsplit, hA, _, _, _, hTOKne, _, _, hrep, hn⟩ :=
          tryHdr_some_shape pat aw (c :: t) rep n h
        have hn1 : 1 ≤ n := by
          rw [hn]
          have : 0 < pat.length := List.length_pos.2 hpat
          omega
        right
        refine ⟨A ++ W, TOK, rest, ?_, ?_, by simp [hA]⟩
        · rw [hsplit]
        · rw [subScan_cons_some _ h0 c t rep n h hn1, hrep]
          have hdrop : t.drop (n - 1) = rest := by
            have h1 : (c :: t).drop n = rest := by
              rw [hsplit]
              have e : A ++ W ++ TOK ++ rest = (A ++ W ++ TOK) ++ rest := by
                simp [List.append_assoc]
              rw [e, List.drop_left' (by simp only [List.length_append]; omega)]
            rw [← h1, drop_cons_of_pos c t n hn1]
          rw [hdrop]

/-- Splitting a suffix of a concatenation: the suffix either reaches into
`P` or is a suffix of `Q`. -/
theorem suffix_split {P Q u v : Str} (h : P ++ Q = u ++ v) :
    (∃ k, k ≤ P.length ∧ v = P.drop k ++ Q) ∨ (∃ w, Q = w ++ v) := by
  by_cases hk : u.length ≤ P.length
  · left
    refine ⟨u.length, hk, ?_⟩
    have hv : v = (u ++ v).drop u.length := by simp
    rw [hv, ← h, drop_append_le _ _ _ hk]
  · right
    refine ⟨Q.take (u.length - P.length), ?_⟩
    have hv : v = (u ++ v).drop u.length := by simp
    rw [hv, ← h, List.drop_append_eq_append_drop,
      List.drop_eq_nil_of_le (by omega), List.nil_append, List.take_append_drop]

theorem take_eq_of_take_eq {x y : Str} {m j : Nat} (hj : j ≤ m)
    (h : y.take m = x.take m) : y.take j = x.take j := by
  have h2 := congrArg (List.take j) h
  rwa [List.take_take, List.take_take, min_eq_left hj] at h2

theorem drop_take_eq_of_take_eq {x y : Str} {m j : Nat}
    (h : y.take m = x.take m) :
    (y.drop j).take (m - j) = (x.drop j).take (m - j) := by
  rw [← List.drop_take, ← List.drop_take, h]

/-- `takeWhile` agrees on two lists that agree on a prefix strictly longer
than the run. -/
theorem takeWhile_eq_of_take_eq (P : Char → Bool) :
    ∀ (m : Nat) (x y : Str), y.take m = x.take m →
      (x.takeWhile P).length < m → y.takeWhile P = x.takeWhile P := by
  intro m
  induction m with
  | zero => intro x y _ hl; omega
  | succ m ih =>
    intro x y hxy hl
    cases x with
    | nil =>
      have : y = [] := by
        have := hxy
        simp only [List.take_nil] at this
        exact (List.take_eq_nil_iff.1 this).resolve_left (by omega)
      rw [this]
    | cons a x =>
      cases y with
      | nil => simp at hxy
      | cons b y =>
        simp only [List.take_succ_cons, List.cons.injEq] at hxy
        obtain ⟨hab, hxy⟩ := hxy
        subst hab
        by_cases hP : P b
        · rw [List.takeWhile_cons_of_pos hP] at hl ⊢
          rw [List.takeWhile_cons_of_pos hP]
          simp only [List.length_cons] at hl
          rw [ih x y hxy (by omega)]
        · rw [List.takeWhile_cons_of_neg hP, List.takeWhile_cons_of_neg hP]

/-- A `takeWhile` run is recovered by `take` of its length. -/
theorem take_takeWhile_len (P : Char → Bool) (l : Str) :
    l.take (l.takeWhile P).length = l.takeWhile P := by
  induction l with
  | nil => rfl
  | cons c t ih =>
    by_cases h : P c
    · rw [List.takeWhile_cons_of_pos h]
      simpa [List.take_succ_cons] using ih
    · rw [List.takeWhile_cons_of_neg h]
      rfl

theorem getD_append_offset (x y : Str) (i : Nat) (d : Char) :
    (x ++ y).getD (x.length + i) d = y.getD i d := by
  rw [List.getD_eq_getElem?_getD, List.getD_eq_getElem?_getD]
  have he : x.length + i - x.length = i := by omega
  rw [List.getElem?_append_right (by omega), he]

theorem mem_take_sub {x : Str} {n : Nat} {c : Char} (h : c ∈ x.take n) : c ∈ x :=
  (List.take_prefix n x).mem h

/-- `tryJwt` fails when the head is not in the jwt character class. -/
theorem tryJwt_none_of_head (s : Str) (h : jwtCls (s.headD '.') = false) :
    tryJwt s = none := by
  cases s with
  | nil => rfl
  | cons c t =>
    simp only [List.headD_cons] at h
    have hcons : List.takeWhile jwtCls (c :: t) = [] :=
      List.takeWhile_cons_of_neg (by simp [h])
    simp [tryJwt, hcons]

/-! Character-class facts. -/

theorem pyIsSpace_not_jwtCls (c : Char) (h : pyIsSpace c = true) :
    jwtCls c = false := by
  have h2 := h
  simp only [pyIsSpace, Bool.or_eq_true, decide_eq_true_eq] at h2
  rcases h2 with ((((h2 | h2) | h2) | h2) | h2) | h2 <;> subst h2 <;> decide

theorem jwtCls_not_ws (c : Char) (h : jwtCls c = true) : pyIsSpace c = false := by
  cases h2 : pyIsSpace c with
  | false => rfl
  | true => rw [pyIsSpace_not_jwtCls c h2] at h; cases h

/-! The `tryHdr` matcher on explicitly decomposed input. -/

/-- `tryHdr` on a fully exhibited match region: pattern occurrence,
whitespace gap, non-whitespace token, whitespace terminator. -/
theorem tryHdr_computes (pat : Str) (aw : Bool) (A W TOK : Str) (d : Char)
    (Z : Str) (hA : A.length = pat.length) (hlow : lowerStr A = pat)
    (hW : ∀ c ∈ W, pyIsSpace c = true) (hWaw : aw = false → W = [])
    (hTOKne : TOK ≠ []) (hTOK : ∀ c ∈ TOK, pyIsSpace c = false)
    (hd : pyIsSpace d = true) :
    tryHdr pat aw (A ++ W ++ TOK ++ d :: Z) =
      some (A ++ W ++ REDACTED, pat.length + W.length + TOK.length) := by
  obtain ⟨tk, TOK', hTOKd⟩ := List.exists_cons_of_ne_nil hTOKne
  have htk : nonWS tk = true := by
    have := hTOK tk (by rw [hTOKd]; simp)
    simp [nonWS, this]
  have hs : A ++ W ++ TOK ++ d :: Z = A ++ (W ++ (TOK ++ d :: Z)) := by
    simp [List.append_assoc]
  have htake : (A ++ W ++ TOK ++ d :: Z).take pat.length = A := by
    rw [hs]; exact List.take_left' hA
  have hdrop : (A ++ W ++ TOK ++ d :: Z).drop pat.length = W ++ (TOK ++ d :: Z) := by
    rw [hs]; exact List.drop_left' hA
  have htok : (TOK ++ d :: Z).takeWhile nonWS = TOK := by
    rw [List.takeWhile_append_of_pos (by intro c hc; simp [nonWS, hTOK c hc]),
      List.takeWhile_cons_of_neg (by simp [nonWS, hd])]
    simp
  have htokne : TOK.isEmpty = false := by
    rw [hTOKd]; rfl
  have hz : (TOK ++ d :: Z).takeWhile pyIsSpace = [] := by
    rw [hTOKd, List.cons_append]
    exact List.takeWhile_cons_of_neg (by simp [hTOK tk (by rw [hTOKd]; simp)])
  simp only [tryHdr, htake, hdrop, hlow, eq_self_iff_true, if_true]
  cases aw with
  | false =>
    have hWnil : W = [] := hWaw rfl
    subst hWnil
    simp only [Bool.false_eq_true, if_false, List.length_nil, List.drop_zero,
      List.nil_append, htok, htokne]
  | true =>
    simp only [if_true]
    rw [List.takeWhile_append_of_pos hW, hz, List.append_nil]
    simp only [List.drop_left, htok, htokne]
    simp

/-- `tryHdr` on a match region whose token runs into an open tail. -/
theorem tryHdr_fires (pat : Str) (aw : Bool) (A W : Str) (d : Char) (X : Str)
    (hA : A.length = pat.length) (hlow : lowerStr A = pat)
    (hW : ∀ c ∈ W, pyIsSpace c = true) (hWaw : aw = false → W = [])
    (hd : pyIsSpace d = false) :
    tryHdr pat aw (A ++ W ++ d :: X) =
      some (A ++ W ++ REDACTED,
        pat.length + W.length + (d :: X.takeWhile nonWS).length) := by
  have hs : A ++ W ++ d :: X = A ++ (W ++ d :: X) := by
    simp [List.append_assoc]
  have htake : (A ++ W ++ d :: X).take pat.length = A := by
    rw [hs]; exact List.take_left' hA
  have hdrop : (A ++ W ++ d :: X).drop pat.length = W ++ d :: X := by
    rw [hs]; exact List.drop_left' hA
  have htok : (d :: X).takeWhile nonWS = d :: X.takeWhile nonWS := by
    rw [List.takeWhile_cons_of_pos (by simp [nonWS, hd])]
  simp only [tryHdr, htake, hdrop, hlow, eq_self_iff_true, if_true]
  cases aw with
  | false =>
    have hWnil : W = [] := hWaw rfl
    subst hWnil
    simp only [Bool.false_eq_true, if_false, List.length_nil, List.drop_zero,
      List.nil_append, htok]
    simp
  | true =>
    simp only [if_true]
    rw [List.takeWhile_append_of_pos hW,
      List.takeWhile_cons_of_neg (by simp [hd])]
    simp only [List.append_nil, List.drop_left, htok]
    simp

/-- Match transfer: a match with a visible whitespace terminator transfers
to any string agreeing beyond the terminator. -/
theorem tryHdr_take_eq (pat : Str) (aw : Bool) (x y rep : Str) (n m : Nat)
    (h : tryHdr pat aw x = some (rep, n)) (hnm : n + 1 ≤ m) (hnx : n < x.length)
    (hxy : y.take m = x.take m) :
    tryHdr pat aw y = some (rep, n) := by
  obtain ⟨A, W, TOK, rest, hsplit, hA, hlow, hWws, hWaw, hTOKne, hTOKn, hrest, hrep, hn⟩ :=
    tryHdr_some_shape pat aw x rep n h
  have hlenx : x.length = A.length + W.length + TOK.length + rest.length := by
    rw [hsplit]; simp [List.length_append]; omega
  have hrne : rest ≠ [] := by
    intro h0
    rw [h0] at hlenx
    simp at hlenx
    omega
  obtain ⟨d, rest', hdrest⟩ := List.exists_cons_of_ne_nil hrne
  have hdws : pyIsSpace d = true := by
    rcases hrest with h0 | h0
    · exact absurd h0 hrne
    · rw [hdrest] at h0; simpa using h0
  have hx2 : x = (A ++ W ++ TOK) ++ d :: rest' := by
    rw [hsplit, hdrest]
  have hlenAWT : (A ++ W ++ TOK).length = n := by
    simp only [List.length_append, hA]
    omega
  have hyn : y.take (n + 1) = (A ++ W ++ TOK) ++ [d] := by
    rw [take_eq_of_take_eq hnm hxy, hx2, List.take_append_eq_append_take,
      List.take_of_length_le (by omega), hlenAWT]
    simp
  have hy : y = A ++ W ++ TOK ++ d :: y.drop (n + 1) := by
    nth_rewrite 1 [(List.take_append_drop (n + 1) y).symm]
    rw [hyn]
    simp [List.append_assoc]
  rw [hy, tryHdr_computes pat aw A W TOK d _ hA hlow hWws hWaw hTOKne hTOKn hdws,
    hrep, hn]

/-- A header scan preserves emptiness-or-whitespace-head of a string. -/
theorem scan_ws_head (pat : Str) (aw : Bool) (hpat : pat ≠ [])
    (hp : ∀ d ∈ pat, pyIsSpace d = false) (t : Str)
    (ht : t = [] ∨ pyIsSpace (t.headD ' ') = true) :
    subScan (tryHdr pat aw) t = [] ∨
      pyIsSpace ((subScan (tryHdr pat aw) t).headD ' ') = true := by
  rcases ht with h0 | h0
  · left
    rw [h0]
    exact subScan_nil _ (tryHdr_nil pat aw hpat)
  · cases t with
    | nil =>
      left
      exact subScan_nil _ (tryHdr_nil pat aw hpat)
    | cons c t' =>
      right
      simp only [List.headD_cons] at h0
      rw [subScan_cons_none _ c t' (tryHdr_none_of_ws_head pat aw c t' hpat hp h0)]
      simpa using h0

/-- A jwt scan preserves emptiness-or-whitespace-head of a string. -/
theorem jwt_scan_ws_head (t : Str)
    (ht : t = [] ∨ pyIsSpace (t.headD ' ') = true) :
    subScan tryJwt t = [] ∨
      pyIsSpace ((subScan tryJwt t).headD ' ') = true := by
  rcases ht with h0 | h0
  · left
    rw [h0]
    exact subScan_nil _ tryJwt_nil
  · cases t with
    | nil => left; exact subScan_nil _ tryJwt_nil
    | cons c t' =>
      right
      simp only [List.headD_cons] at h0
      have hnone : tryJwt (c :: t') = none :=
        tryJwt_none_of_head _ (by simp [pyIsSpace_not_jwtCls c h0])
      rw [subScan_cons_none _ c t' hnone]
      simpa using h0

/-- First-match decomposition of a header scan, recording the failures at
every position before the match and the full shape of the match. -/
theorem subHdr_split (pat : Str) (aw : Bool) (hpat : pat ≠ []) :
    ∀ t : Str,
      (subScan (tryHdr pat aw) t = t ∧
        ∀ u v, t = u ++ v → tryHdr pat aw v = none) ∨
      ∃ pre A W TOK rest,
        t = pre ++ (A ++ W ++ TOK ++ rest) ∧
        subScan (tryHdr pat aw) t =
          pre ++ (A ++ W ++ REDACTED ++ subScan (tryHdr pat aw) rest) ∧
        (∀ j, j < pre.length → tryHdr pat aw (t.drop j) = none) ∧
        A.length = pat.length ∧ lowerStr A = pat ∧
        (∀ c ∈ W, pyIsSpace c = true) ∧ (aw = false → W = []) ∧
        TOK ≠ [] ∧ (∀ c ∈ TOK, pyIsSpace c = false) ∧
        (rest = [] ∨ pyIsSpace (rest.headD ' ') = true) := by
  have h0 := tryHdr_nil pat aw hpat
  suffices H : ∀ (N : Nat) (t : Str), t.length ≤ N →
      ((subScan (tryHdr pat aw) t = t ∧
        ∀ u v, t = u ++ v → tryHdr pat aw v = none) ∨
      ∃ pre A W TOK rest,
        t = pre ++ (A ++ W ++ TOK ++ rest) ∧
        subScan (tryHdr pat aw) t =
          pre ++ (A ++ W ++ REDACTED ++ subScan (tryHdr pat aw) rest) ∧
        (∀ j, j < pre.length → tryHdr pat aw (t.drop j) = none) ∧
        A.length = pat.length ∧ lowerStr A = pat ∧
        (∀ c ∈ W, pyIsSpace c = true) ∧ (aw = false → W = []) ∧
        TOK ≠ [] ∧ (∀ c ∈ TOK, pyIsSpace c = false) ∧
        (rest = [] ∨ pyIsSpace (rest.headD ' ') = true)) by
    intro t
    exact H t.length t (le_refl _)
  intro N
  induction N with
  | zero =>
    intro t ht
    cases t with
    | nil =>
      refine Or.inl ⟨subScan_nil _ h0, ?_⟩
      intro u v huv
      have hv : v = [] := by
        rcases List.append_eq_nil.1 huv.symm with ⟨_, hv⟩
        exact hv
      rw [hv, h0]
    | cons c t => simp at ht
  | succ N ih =>
    intro t ht
    cases t with
    | nil =>
      refine Or.inl ⟨subScan_nil _ h0, ?_⟩
      intro u v huv
      have hv : v = [] := by
        rcases List.append_eq_nil.1 huv.symm with ⟨_, hv⟩
        exact hv
      rw [hv, h0]
    | cons c t =>
      cases h : tryHdr pat aw (c :: t) with
      | none =>
        rcases ih t (by simp at ht; omega) with ⟨h1, h2⟩ |
          ⟨pre, A, W, TOK, rest, ht', hS, hfail, hshape⟩
        · refine Or.inl ⟨?_, ?_⟩
          · rw [subScan_cons_none _ c t h, h1]
          · intro u v huv
            cases u with
            | nil =>
              simp only [List.nil_append] at huv
              rw [← huv, h]
            | cons a u' =>
              rw [List.cons_append] at huv
              injection huv with h3 h4
              exact h2 u' v h4
        · refine Or.inr ⟨c :: pre, A, W, TOK, rest, ?_, ?_, ?_, hshape⟩
          · rw [List.cons_append, ← ht']
          · rw [subScan_cons_none _ c t h, hS]
            rfl
          · intro j hj
            cases j with
            | zero => exact h
            | succ j =>
              have : (c :: t).drop (j + 1) = t.drop j := by simp
              rw [this]
              exact hfail j (by simpa using hj)
      | some rn =>
        obtain ⟨rep, n⟩ := rn
        obtain ⟨A, W, TOK, rest, hsplit, hA, hlow, hWws, hWaw, hTOKne, hTOKn,
          hrest, hrep, hn⟩ := tryHdr_some_shape pat aw (c :: t) rep n h
        have hn1 : 1 ≤ n := by
          rw [hn]
          have : 0 < pat.length := List.length_pos.2 hpat
          omega
        refine Or.inr ⟨[], A, W, TOK, rest, by rw [hsplit]; rfl, ?_,
          by intro j hj; simp at hj, hA, hlow, hWws, hWaw, hTOKne, hTOKn, hrest⟩
        rw [subScan_cons_some _ h0 c t rep n h hn1, hrep]
        have hdrop : t.drop (n - 1) = rest := by
          have h1 : (c :: t).drop n = rest := by
            rw [hsplit]
            have e : A ++ W ++ TOK ++ rest = (A ++ W ++ TOK) ++ rest := by
              simp [List.append_assoc]
            rw [e, List.drop_left' (by simp only [List.length_append]; omega)]
          rw [← h1, drop_cons_of_pos c t n hn1]
        rw [hdrop]
        simp [List.append_assoc]

theorem Idem_of_allfail (tryM : Str → Option (Str × Nat)) (t : Str)
    (hf : ∀ u v, t = u ++ v → tryM v = none) : Idem tryM t := by
  intro u v huv rep n hrep
  rw [hf u v huv] at hrep
  cases hrep

theorem IdAt_of_none {tryM : Str → Option (Str × Nat)} {v : Str}
    (h : tryM v = none) : IdAt tryM v := by
  intro rep n hrep
  rw [h] at hrep
  cases hrep

theorem headD_append_left (x y : Str) (d : Char) (hx : x ≠ []) :
    (x ++ y).headD d = x.headD d := by
  cases x with
  | nil => exact absurd rfl hx
  | cons a x => rfl

theorem tryHdr_none_of_ws_headD (pat : Str) (aw : Bool) (v : Str)
    (hpat : pat ≠ []) (hp : ∀ d ∈ pat, pyIsSpace d = false)
    (hne : v ≠ []) (hws : pyIsSpace (v.headD ' ') = true) :
    tryHdr pat aw v = none := by
  cases v with
  | nil => exact absurd rfl hne
  | cons c x =>
    simp only [List.headD_cons] at hws
    exact tryHdr_none_of_ws_head pat aw c x hpat hp hws

/-- The `IdAt` fact at a redacted block: a match there rewrites the block
to itself. -/
theorem tryHdr_IdAt_block (pat : Str) (aw : Bool) (A W Xr : Str)
    (hA : A.length = pat.length) (hlow : lowerStr A = pat)
    (hWws : ∀ c ∈ W, pyIsSpace c = true) (hWaw : aw = false → W = [])
    (hXr : Xr = [] ∨ pyIsSpace (Xr.headD ' ') = true) :
    IdAt (tryHdr pat aw) (A ++ W ++ REDACTED ++ Xr) := by
  intro rep n hm
  rw [tryHdr_identity pat aw A W Xr hA hlow hWws hWaw hXr] at hm
  injection hm with hm
  injection hm with h1 h2
  constructor
  · rw [← h1, ← h2]
    have he : pat.length + W.length + REDACTED.length =
        (A ++ W ++ REDACTED).length := by
      simp only [List.length_append, hA]
    rw [he, List.take_left]
  · rw [← h2]
    have hR : 0 < REDACTED.length := by decide
    omega

/-- Self-idempotence of one header scan: every match of the pattern in the
scan's own output rewrites to itself. -/
theorem subHdr_self_idem (pat : Str) (aw : Bool) (hpat : pat ≠ [])
    (hnws : ∀ c ∈ pat, pyIsSpace c = false)
    (hbr : ∀ c ∈ pat, c ≠ '[')
    (hmismR : ∀ k, k < REDACTED.length →
      mismL (lowerStr (REDACTED.drop k)) pat = true)
    (hborder : ∀ k, 0 < k → k < pat.length → mismL (pat.drop k) pat = true) :
    ∀ t : Str, Idem (tryHdr pat aw) (subScan (tryHdr pat aw) t) := by
  have h0 := tryHdr_nil pat aw hpat
  suffices H : ∀ (N : Nat) (t : Str), t.length ≤ N →
      Idem (tryHdr pat aw) (subScan (tryHdr pat aw) t) by
    intro t
    exact H t.length t (le_refl _)
  intro N
  induction N with
  | zero =>
    intro t ht
    cases t with
    | nil =>
      rw [subScan_nil _ h0]
      refine Idem_of_allfail _ _ ?_
      intro u v huv
      rcases List.append_eq_nil.1 huv.symm with ⟨_, hv⟩
      rw [hv, h0]
    | cons c t => simp at ht
  | succ N ih =>
    intro t ht
    rcases subHdr_split pat aw hpat t with ⟨hSt, hfail⟩ |
      ⟨pre, A, W, TOK, rest, ht', hS, hfail, hA, hlow, hWws, hWaw, hTOKne,
        hTOKn, hrest⟩
    · rw [hSt]
      exact Idem_of_allfail _ _ hfail
    · have hlent := congrArg List.length ht'
      simp only [List.length_append] at hlent
      have hTOK1 : 0 < TOK.length := List.length_pos.2 hTOKne
      have hrlen : rest.length ≤ N := by omega
      have hXr := ih rest hrlen
      have hXrws := scan_ws_head pat aw hpat hnws rest hrest
      rw [hS]
      intro u v huv
      rcases suffix_split huv with ⟨k, hk, hv⟩ | ⟨w, hw⟩
      · -- the suffix starts inside the copied prefix (or at the match)
        by_cases hkpre : k = pre.length
        · rw [hv, hkpre, List.drop_length, List.nil_append]
          exact tryHdr_IdAt_block pat aw A W _ hA hlow hWws hWaw hXrws
        · have hklt : k < pre.length := lt_of_le_of_ne hk hkpre
          have hfk := hfail k hklt
          have htk : t.drop k = pre.drop k ++ (A ++ W ++ TOK ++ rest) := by
            rw [ht', drop_append_le k pre _ hk]
          intro rep n hm
          exfalso
          obtain ⟨A', W', TOK', rest', hv', hA', hlow', hW', hWaw', hTOK'ne,
            hTOK'n, hrest', hrep', hn'⟩ := tryHdr_some_shape pat aw v rep n hm
          have hvb : v = ((pre.drop k) ++ A ++ W) ++ (REDACTED ++
              subScan (tryHdr pat aw) rest) := by
            rw [hv]
            simp [List.append_assoc]
          have htkb : t.drop k = ((pre.drop k) ++ A ++ W) ++ (TOK ++ rest) := by
            rw [htk]
            simp [List.append_assoc]
          have hcommon : (t.drop k).take ((pre.drop k) ++ A ++ W).length =
              v.take ((pre.drop k) ++ A ++ W).length := by
            rw [hvb, htkb, List.take_left, List.take_left]
          have hbL : v.getD ((pre.drop k) ++ A ++ W).length ' ' = '[' := by
            rw [hvb]
            have h1 := getD_append_offset ((pre.drop k) ++ A ++ W)
              (REDACTED ++ subScan (tryHdr pat aw) rest) 0 ' '
            simpa using h1
          have hlenv : v.length = ((pre.drop k) ++ A ++ W).length +
              (REDACTED ++ subScan (tryHdr pat aw) rest).length := by
            rw [hvb, List.length_append]
          have hRne : (0:Nat) < REDACTED.length := by decide
          rcases lt_trichotomy n ((pre.drop k) ++ A ++ W).length with hnβ | hnβ | hnβ
          · -- the match ends with a visible terminator: transfer to t.drop k
            have hnv : n < v.length := by omega
            have hfire := tryHdr_take_eq pat aw v (t.drop k) rep n
              ((pre.drop k) ++ A ++ W).length hm (by omega) hnv hcommon
            rw [hfk] at hfire
            cases hfire
          · -- the match ends exactly at the inserted block: no terminator
            have hAWT : (A' ++ W' ++ TOK').length = n := by
              simp only [List.length_append, hA']
              omega
            have hrest'' : rest' = v.drop n := by
              rw [hv', ← hAWT, List.drop_left]
            have hdropn : v.drop n = REDACTED ++ subScan (tryHdr pat aw) rest := by
              rw [hnβ, hvb, List.drop_left]
            rcases hrest' with h1 | h1
            · rw [hrest'', hdropn] at h1
              rcases List.append_eq_nil.1 h1 with ⟨h2, _⟩
              exact absurd h2 (by decide)
            · rw [hrest'', hdropn] at h1
              have hhd : (REDACTED ++ subScan (tryHdr pat aw) rest).headD ' ' = '[' := rfl
              rw [hhd] at h1
              exact absurd h1 (by decide)
          · -- the match crosses the inserted block
            by_cases hc1 : ((pre.drop k) ++ A ++ W).length < A'.length
            · -- the bracket would be inside the pattern occurrence
              have hvA : v = A' ++ (W' ++ (TOK' ++ rest')) := by
                rw [hv']
                simp [List.append_assoc]
              have hgA : A'.getD ((pre.drop k) ++ A ++ W).length ' ' =
                  v.getD ((pre.drop k) ++ A ++ W).length ' ' := by
                rw [hvA, List.getD_eq_getElem?_getD, List.getD_eq_getElem?_getD,
                  List.getElem?_append_left hc1]
              have hmem : '[' ∈ A' := by
                rw [← hbL, ← hgA]
                exact getD_mem_of_lt hc1 ' '
              have : pyToLower '[' ∈ lowerStr A' := List.mem_map_of_mem pyToLower hmem
              rw [hlow'] at this
              have h2 : ('[' : Char) ∈ pat := by
                have he : pyToLower '[' = '[' := by decide
                rwa [he] at this
              exact hbr '[' h2 rfl
            by_cases hc2 : ((pre.drop k) ++ A ++ W).length < A'.length + W'.length
            · -- the bracket would be inside the whitespace gap
              have hvAW : v = (A' ++ W') ++ (TOK' ++ rest') := by
                rw [hv']
                simp [List.append_assoc]
              have htakeAW0 : v.take (A'.length + W'.length) = A' ++ W' := by
                rw [hvAW]
                exact List.take_left' (List.length_append A' W')
              have h1 : v.getD ((pre.drop k) ++ A ++ W).length ' ' =
                  (A' ++ W').getD ((pre.drop k) ++ A ++ W).length ' ' := by
                refine getD_of_take_eq ?_ hc2 ' '
                rw [htakeAW0, List.take_of_length_le (le_of_eq (List.length_append A' W'))]
              have h2 : (A' ++ W').getD ((pre.drop k) ++ A ++ W).length ' ' =
                  W'.getD (((pre.drop k) ++ A ++ W).length - A'.length) ' ' := by
                have h3 := getD_append_offset A' W'
                  (((pre.drop k) ++ A ++ W).length - A'.length) ' '
                rw [← h3]
                congr 1
                omega
              have hmem : '[' ∈ W' := by
                rw [← hbL, h1, h2]
                exact getD_mem_of_lt (by omega) ' '
              exact absurd ( hW' '[' hmem) (by decide)
            · -- the bracket is inside the token: the original must fire at k
              have hm'β : A'.length + W'.length ≤ ((pre.drop k) ++ A ++ W).length := by
                omega
              have hvAW : v = (A' ++ W') ++ (TOK' ++ rest') := by
                rw [hv']
                simp [List.append_assoc]
              have htakeAW : v.take (A'.length + W'.length) = A' ++ W' := by
                rw [hvAW]
                exact List.take_left' (by simp)
              have htakeTk : (t.drop k).take (A'.length + W'.length) = A' ++ W' := by
                rw [← htakeAW]
                exact take_eq_of_take_eq hm'β hcommon
              have hlentk : (t.drop k).length =
                  ((pre.drop k) ++ A ++ W).length + (TOK.length + rest.length) := by
                rw [htkb, List.length_append, List.length_append TOK rest]
              have hdtk : (t.drop k).drop (A'.length + W'.length) ≠ [] := by
                intro hnil
                have h2 : ((t.drop k).drop (A'.length + W'.length)).length = 0 := by
                  rw [hnil]
                  rfl
                rw [List.length_drop] at h2
                omega
              obtain ⟨d, X', hdX⟩ := List.exists_cons_of_ne_nil hdtk
              have hdec : t.drop k = A' ++ W' ++ d :: X' := by
                nth_rewrite 1 [(List.take_append_drop (A'.length + W'.length)
                  (t.drop k)).symm]
                rw [htakeTk, hdX]
              have hdgetD : d = (t.drop k).getD (A'.length + W'.length) ' ' := by
                rw [← headD_drop, hdX]
                rfl
              have hdns : pyIsSpace d = false := by
                by_cases hm'' : A'.length + W'.length < ((pre.drop k) ++ A ++ W).length
                · -- the char is shared with v and lies in the token of the v-match
                  have hcomm2 : (t.drop k).getD (A'.length + W'.length) ' ' =
                      v.getD (A'.length + W'.length) ' ' :=
                    getD_of_take_eq hcommon hm'' ' '
                  obtain ⟨tk', TOK'2, hT'⟩ := List.exists_cons_of_ne_nil hTOK'ne
                  have hvg : v.getD (A'.length + W'.length) ' ' = tk' := by
                    rw [hvAW]
                    have h1 := getD_append_offset (A' ++ W') (TOK' ++ rest') 0 ' '
                    simp only [List.length_append] at h1
                    have h2 : A'.length + W'.length + 0 = A'.length + W'.length := by omega
                    rw [h2] at h1
                    rw [h1, hT']
                    rfl
                  rw [hdgetD, hcomm2, hvg]
                  exact hTOK'n tk' (by rw [hT']; simp)
                · -- the char is the head of the original token
                  have hm'eq : A'.length + W'.length = ((pre.drop k) ++ A ++ W).length := by
                    omega
                  obtain ⟨tk, TOK2, hT⟩ := List.exists_cons_of_ne_nil hTOKne
                  have hvg : (t.drop k).getD (A'.length + W'.length) ' ' = tk := by
                    rw [htkb, hm'eq]
                    have h1 := getD_append_offset ((pre.drop k) ++ A ++ W)
                      (TOK ++ rest) 0 ' '
                    have h2 : ((pre.drop k) ++ A ++ W).length + 0 =
                        ((pre.drop k) ++ A ++ W).length := by omega
                    rw [h2] at h1
                    rw [h1, hT]
                    rfl
                  rw [hdgetD, hvg]
                  exact hTOKn tk (by rw [hT]; simp)
              have hfire := tryHdr_fires pat aw A' W' d X' hA' hlow' hW' hWaw' hdns
              rw [hdec] at hfk
              rw [hfk] at hfire
              cases hfire
      · -- the suffix starts inside the match region or beyond
        rcases suffix_split hw with ⟨k2, hk2, hv2⟩ | ⟨w2, hw2⟩
        · have hlenAWR : (A ++ W ++ REDACTED).length =
              A.length + W.length + REDACTED.length := by
            rw [List.length_append, List.length_append]
          by_cases hfull : A.length + W.length + REDACTED.length ≤ k2
          · have hnil : (A ++ W ++ REDACTED).drop k2 = [] :=
              List.drop_eq_nil_of_le (by omega)
            rw [hv2, hnil, List.nil_append]
            exact hXr [] _ rfl
          by_cases h20 : k2 = 0
          · rw [hv2, h20, List.drop_zero]
            exact tryHdr_IdAt_block pat aw A W _ hA hlow hWws hWaw hXrws
          by_cases hcb : k2 < A.length
          · apply IdAt_of_none
            have hd1 : (A ++ W ++ REDACTED).drop k2 = A.drop k2 ++ (W ++ REDACTED) := by
              have e : A ++ W ++ REDACTED = A ++ (W ++ REDACTED) := by
                simp [List.append_assoc]
              rw [e, drop_append_le k2 A _ (by omega)]
            have hv3 : v = A.drop k2 ++ ((W ++ REDACTED) ++
                subScan (tryHdr pat aw) rest) := by
              rw [hv2, hd1]
              simp [List.append_assoc]
            rw [hv3]
            refine tryHdr_none_of_mismL pat aw (A.drop k2) (pat.drop k2) _ ?_ ?_
            · rw [lowerStr, List.map_drop]
              rw [show List.map pyToLower A = lowerStr A from rfl, hlow]
            · exact hborder k2 (by omega) (by omega)
          by_cases hcw : k2 < A.length + W.length
          · apply IdAt_of_none
            have hd1 : (A ++ W ++ REDACTED).drop k2 =
                W.drop (k2 - A.length) ++ REDACTED := by
              have e : A ++ W ++ REDACTED = A ++ (W ++ REDACTED) := by
                simp [List.append_assoc]
              rw [e, List.drop_append_eq_append_drop,
                List.drop_eq_nil_of_le (by omega), List.nil_append,
                drop_append_le _ W _ (by omega)]
            have hWne : W.drop (k2 - A.length) ≠ [] := by
              intro hnil
              have h2 := congrArg List.length hnil
              simp only [List.length_drop, List.length_nil] at h2
              omega
            have hv3 : v = (W.drop (k2 - A.length) ++ REDACTED) ++
                subScan (tryHdr pat aw) rest := by
              rw [hv2, hd1]
            refine tryHdr_none_of_ws_headD pat aw v hpat hnws ?_ ?_
            · rw [hv3]
              intro hnl
              rcases List.append_eq_nil.1 hnl with ⟨h1, _⟩
              rcases List.append_eq_nil.1 h1 with ⟨h2, _⟩
              exact hWne h2
            · rw [hv3, headD_append_left _ _ _ (by
                intro hnl
                rcases List.append_eq_nil.1 hnl with ⟨h2, _⟩
                exact hWne h2), headD_append_left _ _ _ hWne, headD_drop]
              exact hWws _ (getD_mem_of_lt (by omega) ' ')
          · apply IdAt_of_none
            have hd1 : (A ++ W ++ REDACTED).drop k2 =
                REDACTED.drop (k2 - (A.length + W.length)) := by
              rw [List.drop_append_eq_append_drop,
                List.drop_eq_nil_of_le (by simp only [List.length_append]; omega),
                List.nil_append]
              congr 1
              simp only [List.length_append]
            have hv3 : v = REDACTED.drop (k2 - (A.length + W.length)) ++
                subScan (tryHdr pat aw) rest := by
              rw [hv2, hd1]
            rw [hv3]
            exact tryHdr_none_of_mismL pat aw _ _ _ rfl
              (hmismR (k2 - (A.length + W.length)) (by omega))
        · exact hXr w2 v hw2

/-- Unique splitting of a string into a non-whitespace run followed by a
whitespace-or-empty tail. -/
theorem nws_split_unique : ∀ (T R r' X : Str),
    T ++ r' = R ++ X →
    (∀ c ∈ T, pyIsSpace c = false) →
    (r' = [] ∨ pyIsSpace (r'.headD ' ') = true) →
    (∀ c ∈ R, pyIsSpace c = false) →
    (X = [] ∨ pyIsSpace (X.headD ' ') = true) →
    T = R ∧ r' = X
  | [], R, r', X, h, _, hr', hR, _ => by
    simp only [List.nil_append] at h
    cases R with
    | nil => exact ⟨rfl, by simpa using h⟩
    | cons b R' =>
      exfalso
      rcases hr' with h0 | h0
      · rw [h0] at h
        cases h
      · rw [h] at h0
        simp only [List.cons_append, List.headD_cons] at h0
        rw [hR b (by simp)] at h0
        cases h0
  | a :: T', R, r', X, h, hT, hr', hR, hX => by
    cases R with
    | nil =>
      exfalso
      simp only [List.nil_append] at h
      rcases hX with h0 | h0
      · rw [h0] at h
        cases h
      · rw [← h] at h0
        simp only [List.cons_append, List.headD_cons] at h0
        rw [hT a (by simp)] at h0
        cases h0
    | cons b R' =>
      simp only [List.cons_append] at h
      injection h with hab h2
      obtain ⟨h3, h4⟩ := nws_split_unique T' R' r' X h2
        (fun c hc => hT c (by simp [hc])) hr'
        (fun c hc => hR c (by simp [hc])) hX
      exact ⟨by rw [hab, h3], h4⟩

theorem getD_junction (x : Str) (c : Char) (y : Str) (d : Char) :
    (x ++ c :: y).getD x.length d = c := by
  have h1 := getD_append_offset x (c :: y) 0 d
  simpa using h1

/-- The key preservation step: if every p-match on the original region
`pdk ++ A ++ W ++ TOK ++ rest` is an identity rewrite, then every p-match
on the corresponding q-redacted region is an identity rewrite.  Here `A`
is a (case-insensitive) occurrence of the pattern `q`, `W` its whitespace
gap and `TOK` the replaced token. -/
theorem IdAt_preserve_block (p : Str) (awp : Bool) (q : Str)
    (hp : p ≠ []) (hpbr : ∀ c ∈ p, c ≠ '[')
    (hqbr : ∀ c ∈ q, c ≠ '[')
    (hqseg : ∀ o, o + q.length ≤ REDACTED.length →
      lowerStr ((REDACTED.drop o).take q.length) ≠ q)
    (pdk A W TOK rest Xr : Str)
    (hA : A.length = q.length) (hlow : lowerStr A = q)
    (hWws : ∀ c ∈ W, pyIsSpace c = true)
    (hTOKne : TOK ≠ []) (hTOKn : ∀ c ∈ TOK, pyIsSpace c = false)
    (hXrws : Xr = [] ∨ pyIsSpace (Xr.headD ' ') = true)
    (hIdy : IdAt (tryHdr p awp) (pdk ++ (A ++ W ++ TOK ++ rest))) :
    IdAt (tryHdr p awp) (pdk ++ (A ++ W ++ REDACTED ++ Xr)) := by
  have hRED : ∀ c ∈ REDACTED, pyIsSpace c = false := by decide
  have hp1 : 0 < p.length := List.length_pos.2 hp
  have hTOK1 : 0 < TOK.length := List.length_pos.2 hTOKne
  intro rep n hm
  obtain ⟨A', W', TOK', rest', hv', hA', hlow', hW', hWaw', hTOK'ne,
    hTOK'n, hrest', hrep', hn'⟩ := tryHdr_some_shape p awp _ rep n hm
  have hvb : pdk ++ (A ++ W ++ REDACTED ++ Xr) =
      (pdk ++ A ++ W) ++ (REDACTED ++ Xr) := by
    simp [List.append_assoc]
  have hyb : pdk ++ (A ++ W ++ TOK ++ rest) =
      (pdk ++ A ++ W) ++ (TOK ++ rest) := by
    simp [List.append_assoc]
  rw [hvb] at hm hv' ⊢
  rw [hyb] at hIdy
  have hβexp : ((pdk) ++ A ++ W).length =
      pdk.length + A.length + W.length := by
    rw [List.length_append, List.length_append]
  have hcommon : ((pdk ++ A ++ W) ++ (TOK ++ rest)).take (pdk ++ A ++ W).length =
      ((pdk ++ A ++ W) ++ (REDACTED ++ Xr)).take (pdk ++ A ++ W).length := by
    rw [List.take_left, List.take_left]
  have hbL : ((pdk ++ A ++ W) ++ (REDACTED ++ Xr)).getD (pdk ++ A ++ W).length ' '
      = '[' := by
    have h1 := getD_append_offset (pdk ++ A ++ W) (REDACTED ++ Xr) 0 ' '
    simpa using h1
  have hlenv : ((pdk ++ A ++ W) ++ (REDACTED ++ Xr)).length =
      (pdk ++ A ++ W).length + (REDACTED ++ Xr).length := List.length_append _ _
  have hlentk : ((pdk ++ A ++ W) ++ (TOK ++ rest)).length =
      (pdk ++ A ++ W).length + (TOK.length + rest.length) := by
    rw [List.length_append, List.length_append TOK rest]
  rcases lt_trichotomy n (pdk ++ A ++ W).length with hnβ | hnβ | hnβ
  · -- transfer the match back to the original region
    have hnv : n < ((pdk ++ A ++ W) ++ (REDACTED ++ Xr)).length := by omega
    have hfire := tryHdr_take_eq p awp _ ((pdk ++ A ++ W) ++ (TOK ++ rest)) rep n
      (pdk ++ A ++ W).length hm (by omega) hnv hcommon
    obtain ⟨hr1, hr2⟩ := hIdy rep n hfire
    refine ⟨?_, hr2⟩
    rw [hr1, take_eq_of_take_eq (by omega) hcommon]
  · -- the match would end exactly at the inserted block
    exfalso
    have hAWT : (A' ++ W' ++ TOK').length = n := by
      simp only [List.length_append, hA']
      omega
    have hrest'' : rest' = ((pdk ++ A ++ W) ++ (REDACTED ++ Xr)).drop n := by
      rw [hv', ← hAWT, List.drop_left]
    have hdropn : ((pdk ++ A ++ W) ++ (REDACTED ++ Xr)).drop n =
        REDACTED ++ Xr := by
      rw [hnβ, List.drop_left]
    rcases hrest' with h1 | h1
    · rw [hrest'', hdropn] at h1
      rcases List.append_eq_nil.1 h1 with ⟨h2, _⟩
      exact absurd h2 (by decide)
    · rw [hrest'', hdropn] at h1
      have hhd : (REDACTED ++ Xr).headD ' ' = '[' := rfl
      rw [hhd] at h1
      exact absurd h1 (by decide)
  · by_cases hc1 : (pdk ++ A ++ W).length < A'.length
    · -- the bracket would sit inside the p-pattern occurrence
      exfalso
      have hvA : (pdk ++ A ++ W) ++ (REDACTED ++ Xr) =
          A' ++ (W' ++ (TOK' ++ rest')) := by
        rw [hv']
        simp [List.append_assoc]
      have hgA : A'.getD (pdk ++ A ++ W).length ' ' =
          ((pdk ++ A ++ W) ++ (REDACTED ++ Xr)).getD (pdk ++ A ++ W).length ' ' := by
        rw [hvA, List.getD_eq_getElem?_getD, List.getD_eq_getElem?_getD,
          List.getElem?_append_left hc1]
      have hmem : '[' ∈ A' := by
        rw [← hbL, ← hgA]
        exact getD_mem_of_lt hc1 ' '
      have h5 : pyToLower '[' ∈ lowerStr A' := List.mem_map_of_mem pyToLower hmem
      rw [hlow'] at h5
      have h2 : ('[' : Char) ∈ p := by
        have he : pyToLower '[' = '[' := by decide
        rwa [he] at h5
      exact hpbr '[' h2 rfl
    by_cases hc2 : (pdk ++ A ++ W).length < A'.length + W'.length
    · -- the bracket would sit inside the whitespace gap of the p-match
      exfalso
      have hvAW : (pdk ++ A ++ W) ++ (REDACTED ++ Xr) =
          (A' ++ W') ++ (TOK' ++ rest') := by
        rw [hv']
        simp [List.append_assoc]
      have htakeAW0 : ((pdk ++ A ++ W) ++ (REDACTED ++ Xr)).take
          (A'.length + W'.length) = A' ++ W' := by
        rw [hvAW]
        exact List.take_left' (List.length_append A' W')
      have h1 : ((pdk ++ A ++ W) ++ (REDACTED ++ Xr)).getD (pdk ++ A ++ W).length ' ' =
          (A' ++ W').getD (pdk ++ A ++ W).length ' ' := by
        refine getD_of_take_eq ?_ hc2 ' '
        rw [htakeAW0, List.take_of_length_le (le_of_eq (List.length_append A' W'))]
      have h2 : (A' ++ W').getD (pdk ++ A ++ W).length ' ' =
          W'.getD ((pdk ++ A ++ W).length - A'.length) ' ' := by
        have h3 := getD_append_offset A' W'
          ((pdk ++ A ++ W).length - A'.length) ' '
        rw [← h3]
        congr 1
        omega
      have hmem : '[' ∈ W' := by
        rw [← hbL, h1, h2]
        exact getD_mem_of_lt (by omega) ' '
      exact absurd ( hW' '[' hmem) (by decide)
    · -- the token of the p-match reaches the inserted block
      have hm'β : A'.length + W'.length ≤ (pdk ++ A ++ W).length := by omega
      have hnm' : n = A'.length + W'.length + TOK'.length := by
        rw [hn', hA']
      have hvAW : (pdk ++ A ++ W) ++ (REDACTED ++ Xr) =
          (A' ++ W') ++ (TOK' ++ rest') := by
        rw [hv']
        simp [List.append_assoc]
      have htakeAW : ((pdk ++ A ++ W) ++ (REDACTED ++ Xr)).take
          (A'.length + W'.length) = A' ++ W' := by
        rw [hvAW]
        exact List.take_left' (List.length_append A' W')
      have htakeTk : ((pdk ++ A ++ W) ++ (TOK ++ rest)).take
          (A'.length + W'.length) = A' ++ W' := by
        rw [← htakeAW]
        exact take_eq_of_take_eq hm'β hcommon
      by_cases hm'' : A'.length + W'.length = (pdk ++ A ++ W).length
      · -- the token starts exactly at the block: identity rewrite
        have hdropv : ((pdk ++ A ++ W) ++ (REDACTED ++ Xr)).drop
            (A'.length + W'.length) = REDACTED ++ Xr := by
          rw [hm'', List.drop_left]
        have hdropv2 : ((pdk ++ A ++ W) ++ (REDACTED ++ Xr)).drop
            (A'.length + W'.length) = TOK' ++ rest' := by
          rw [hvAW, ← List.length_append A' W', List.drop_left]
        obtain ⟨hT1, _⟩ :=
          nws_split_unique TOK' REDACTED rest' Xr
            (by rw [← hdropv2, hdropv]) hTOK'n hrest' hRED hXrws
        have hnval : n = (A' ++ W' ++ TOK').length := by
          simp only [List.length_append, hA']
          omega
        refine ⟨?_, by omega⟩
        rw [hrep', hv', hnval, List.take_left, hT1]
      · -- the token starts strictly before the block: impossible
        exfalso
        have hm's : A'.length + W'.length < (pdk ++ A ++ W).length := by omega
        have hdtk : ((pdk ++ A ++ W) ++ (TOK ++ rest)).drop
            (A'.length + W'.length) ≠ [] := by
          intro hnil
          have h2 : (((pdk ++ A ++ W) ++ (TOK ++ rest)).drop
              (A'.length + W'.length)).length = 0 := by
            rw [hnil]
            rfl
          rw [List.length_drop] at h2
          omega
        obtain ⟨d, X', hdX⟩ := List.exists_cons_of_ne_nil hdtk
        have hdec : (pdk ++ A ++ W) ++ (TOK ++ rest) = A' ++ W' ++ d :: X' := by
          nth_rewrite 1 [(List.take_append_drop (A'.length + W'.length)
            ((pdk ++ A ++ W) ++ (TOK ++ rest))).symm]
          rw [htakeTk, hdX]
        have hdgetD : d = ((pdk ++ A ++ W) ++ (TOK ++ rest)).getD
            (A'.length + W'.length) ' ' := by
          rw [← headD_drop, hdX]
          rfl
        have hdns : pyIsSpace d = false := by
          have hcomm2 : ((pdk ++ A ++ W) ++ (TOK ++ rest)).getD
              (A'.length + W'.length) ' ' =
              ((pdk ++ A ++ W) ++ (REDACTED ++ Xr)).getD
                (A'.length + W'.length) ' ' :=
            getD_of_take_eq hcommon hm's ' '
          obtain ⟨tk', TOK'2, hT'⟩ := List.exists_cons_of_ne_nil hTOK'ne
          have hvg : ((pdk ++ A ++ W) ++ (REDACTED ++ Xr)).getD
              (A'.length + W'.length) ' ' = tk' := by
            rw [hvAW, ← List.length_append A' W', hT']
            exact getD_junction _ tk' _ ' '
          rw [hdgetD, hcomm2, hvg]
          exact hTOK'n tk' (by rw [hT']; simp)
        have hfire := tryHdr_fires p awp A' W' d X' hA' hlow' hW' hWaw' hdns
        rw [← hdec] at hfire
        obtain ⟨hid1, _⟩ := hIdy _ _ hfire
        have harg : (A' ++ W').length ≤
            p.length + W'.length + (d :: X'.takeWhile nonWS).length := by
          rw [List.length_append, hA']
          omega
        have harg2 : p.length + W'.length + (d :: X'.takeWhile nonWS).length -
            (A' ++ W').length = (d :: X'.takeWhile nonWS).length := by
          rw [List.length_append, hA']
          omega
        have h3 : (d :: X').take (d :: X'.takeWhile nonWS).length =
            d :: X'.takeWhile nonWS := by
          rw [List.length_cons, List.take_succ_cons, take_takeWhile_len]
        have htkTOK : ((pdk ++ A ++ W) ++ (TOK ++ rest)).take (p.length + W'.length +
            (d :: X'.takeWhile nonWS).length) =
            A' ++ W' ++ (d :: X'.takeWhile nonWS) := by
          rw [hdec]
          have e1 : A' ++ W' ++ d :: X' = (A' ++ W') ++ (d :: X') := rfl
          rw [e1, List.take_append_eq_append_take,
            List.take_of_length_le harg, harg2, h3]
        have hREDtok : REDACTED = d :: X'.takeWhile nonWS := by
          have h4 := hid1
          rw [htkTOK] at h4
          exact List.append_cancel_left h4
        have hLtk : REDACTED = (((pdk ++ A ++ W) ++ (TOK ++ rest)).drop
            (A'.length + W'.length)).take REDACTED.length := by
          rw [hdX, hREDtok]
          exact h3.symm
        have hchar : ∀ i, i < REDACTED.length →
            ((pdk ++ A ++ W) ++ (TOK ++ rest)).getD (A'.length + W'.length + i) ' ' =
              REDACTED.getD i ' ' := by
          intro i hi
          conv_rhs => rw [hLtk]
          rw [List.getD_eq_getElem?_getD, List.getD_eq_getElem?_getD,
            List.getElem?_take_of_lt hi, List.getElem?_drop]
        have hterm : (((pdk ++ A ++ W) ++ (TOK ++ rest)).drop
            (A'.length + W'.length)).drop REDACTED.length =
            (d :: X').dropWhile nonWS := by
          rw [hdX]
          have h6 : REDACTED.length = ((d :: X').takeWhile nonWS).length := by
            rw [List.takeWhile_cons_of_pos (by simp [nonWS, hdns]), ← hREDtok]
          rw [h6, drop_length_takeWhile]
        have hrlt : (pdk ++ A ++ W).length <
            A'.length + W'.length + REDACTED.length := by
          by_contra hge
          have hge' : A'.length + W'.length + REDACTED.length ≤
              (pdk ++ A ++ W).length := by omega
          have hDWne : (d :: X').dropWhile nonWS ≠ [] := by
            intro hnil
            have h7 := congrArg List.length hterm
            rw [hnil] at h7
            simp only [List.length_drop, List.length_nil] at h7
            omega
          obtain ⟨e, DW', hDW⟩ := List.exists_cons_of_ne_nil hDWne
          have hews : pyIsSpace e = true := by
            have h8 := List.head?_dropWhile_not nonWS (d :: X')
            rw [hDW] at h8
            simp only [List.head?_cons, Option.all_some] at h8
            simpa [nonWS] using h8
          have hepos : ((pdk ++ A ++ W) ++ (TOK ++ rest)).getD
              (A'.length + W'.length + REDACTED.length) ' ' = e := by
            rw [← headD_drop, ← List.drop_drop, hterm, hDW]
            rfl
          by_cases hcase : A'.length + W'.length + REDACTED.length <
              (pdk ++ A ++ W).length
          · have hcomm3 : ((pdk ++ A ++ W) ++ (TOK ++ rest)).getD
                (A'.length + W'.length + REDACTED.length) ' ' =
                ((pdk ++ A ++ W) ++ (REDACTED ++ Xr)).getD
                  (A'.length + W'.length + REDACTED.length) ' ' :=
              getD_of_take_eq hcommon hcase ' '
            have hiTOK : REDACTED.length < TOK'.length := by omega
            have hvch : ((pdk ++ A ++ W) ++ (REDACTED ++ Xr)).getD
                (A'.length + W'.length + REDACTED.length) ' ' =
                TOK'.getD REDACTED.length ' ' := by
              rw [hvAW]
              have h9 := getD_append_offset (A' ++ W') (TOK' ++ rest')
                REDACTED.length ' '
              rw [List.length_append] at h9
              rw [h9, List.getD_eq_getElem?_getD, List.getD_eq_getElem?_getD,
                List.getElem?_append_left hiTOK]
            have hmem2 : e ∈ TOK' := by
              rw [← hepos, hcomm3, hvch]
              exact getD_mem_of_lt hiTOK ' '
            rw [hTOK'n e hmem2] at hews
            cases hews
          · have hcase' : A'.length + W'.length + REDACTED.length =
                (pdk ++ A ++ W).length := by omega
            obtain ⟨tk, TOK2, hT⟩ := List.exists_cons_of_ne_nil hTOKne
            have htkch : ((pdk ++ A ++ W) ++ (TOK ++ rest)).getD
                (pdk ++ A ++ W).length ' ' = tk := by
              rw [hT]
              exact getD_junction _ tk _ ' '
            rw [← hcase', hepos] at htkch
            rw [htkch] at hews
            rw [hTOKn tk (by rw [hT]; simp)] at hews
            cases hews
        have hWnil : W = [] := by
          by_contra hWne
          obtain ⟨w0, W2, hW0⟩ := List.exists_cons_of_ne_nil hWne
          have hpdkA : (pdk ++ A).length = pdk.length + A.length :=
            List.length_append _ _
          by_cases hpw : A'.length + W'.length ≤ pdk.length + A.length
          · have hwchar : ((pdk ++ A ++ W) ++ (TOK ++ rest)).getD
                (pdk.length + A.length) ' ' = w0 := by
              have e2 : (pdk ++ A ++ W) ++ (TOK ++ rest) = (pdk ++ A) ++
                  (w0 :: (W2 ++ (TOK ++ rest))) := by
                rw [hW0]
                simp [List.append_assoc]
              rw [e2, ← hpdkA]
              exact getD_junction _ w0 _ ' '
            have hi2 : pdk.length + A.length -
                (A'.length + W'.length) < REDACTED.length := by
              omega
            have h10 := hchar (pdk.length + A.length -
              (A'.length + W'.length)) hi2
            have h11 : A'.length + W'.length +
                (pdk.length + A.length - (A'.length + W'.length)) =
                pdk.length + A.length := by omega
            rw [h11, hwchar] at h10
            have h12 : pyIsSpace w0 = true := hWws w0 (by rw [hW0]; simp)
            have h13 := hRED _ (getD_mem_of_lt hi2 ' ')
            rw [← h10, h12] at h13
            cases h13
          · have hj2 : A'.length + W'.length - (pdk.length + A.length)
                < W.length := by omega
            have hwchar : ((pdk ++ A ++ W) ++ (TOK ++ rest)).getD
                (A'.length + W'.length) ' ' =
                W.getD (A'.length + W'.length -
                  (pdk.length + A.length)) ' ' := by
              have e2 : (pdk ++ A ++ W) ++ (TOK ++ rest) = (pdk ++ A) ++
                  (W ++ (TOK ++ rest)) := by
                simp [List.append_assoc]
              rw [e2]
              have h9 := getD_append_offset (pdk ++ A) (W ++ (TOK ++ rest))
                (A'.length + W'.length - (pdk.length + A.length)) ' '
              rw [hpdkA] at h9
              have h11 : pdk.length + A.length +
                  (A'.length + W'.length - (pdk.length + A.length)) =
                  A'.length + W'.length := by omega
              rw [h11] at h9
              rw [h9, List.getD_eq_getElem?_getD, List.getD_eq_getElem?_getD,
                List.getElem?_append_left hj2]
            have h12 : pyIsSpace d = true := by
              rw [hdgetD, hwchar]
              exact hWws _ (getD_mem_of_lt hj2 ' ')
            rw [hdns] at h12
            cases h12
        have hW0len : W.length = 0 := by
          rw [hWnil]
          rfl
        have e3 : (pdk ++ A ++ W) ++ (TOK ++ rest) =
            pdk ++ (A ++ (TOK ++ rest)) := by
          rw [hWnil]
          simp [List.append_assoc]
        by_cases hpd : pdk.length ≤ A'.length + W'.length
        · have hd41 : d = '[' := by
            have h13 : REDACTED.headD ' ' = d := by
              rw [hREDtok]
              rfl
            rw [← h13]
            rfl
          have hj3 : A'.length + W'.length - pdk.length < A.length := by
            omega
          have hachar : ((pdk ++ A ++ W) ++ (TOK ++ rest)).getD
              (A'.length + W'.length) ' ' =
              A.getD (A'.length + W'.length - pdk.length) ' ' := by
            rw [e3]
            have h9 := getD_append_offset pdk (A ++ (TOK ++ rest))
              (A'.length + W'.length - pdk.length) ' '
            have h11 : pdk.length +
                (A'.length + W'.length - pdk.length) =
                A'.length + W'.length := by omega
            rw [h11] at h9
            rw [h9, List.getD_eq_getElem?_getD, List.getD_eq_getElem?_getD,
              List.getElem?_append_left hj3]
          have hmem3 : '[' ∈ A := by
            rw [← hd41, hdgetD, hachar]
            exact getD_mem_of_lt hj3 ' '
          have h5 : pyToLower '[' ∈ lowerStr A := List.mem_map_of_mem pyToLower hmem3
          rw [hlow] at h5
          have h2 : ('[' : Char) ∈ q := by
            have he : pyToLower '[' = '[' := by decide
            rwa [he] at h5
          exact hqbr '[' h2 rfl
        · have ho1 : pdk.length - (A'.length + W'.length) +
              q.length ≤ REDACTED.length := by
            rw [← hA]
            omega
          have hAseg : A = (((pdk ++ A ++ W) ++ (TOK ++ rest)).drop
              pdk.length).take A.length := by
            rw [e3, List.drop_left, List.take_left' rfl]
          have hAseg2 : (REDACTED.drop (pdk.length -
              (A'.length + W'.length))).take q.length = A := by
            conv_lhs => rw [hLtk]
            rw [List.drop_take, List.drop_drop]
            have h14 : A'.length + W'.length +
                (pdk.length - (A'.length + W'.length)) =
                pdk.length := by omega
            rw [h14, List.take_take]
            have h15 : min q.length (REDACTED.length -
                (pdk.length - (A'.length + W'.length))) = q.length := by
              omega
            rw [h15, ← hA]
            exact hAseg.symm
          have h16 := hqseg (pdk.length - (A'.length + W'.length)) ho1
          rw [hAseg2, hlow] at h16
          exact h16 rfl

/-- A scan by header rule q preserves idempotence of header rule p. -/
theorem subHdr_preserve (p : Str) (awp : Bool) (q : Str) (awq : Bool)
    (hp : p ≠ []) (hpws : ∀ c ∈ p, pyIsSpace c = false)
    (hpbr : ∀ c ∈ p, c ≠ '[')
    (hmismRp : ∀ k, k < REDACTED.length →
      mismL (lowerStr (REDACTED.drop k)) p = true)
    (hq : q ≠ []) (hqws : ∀ c ∈ q, pyIsSpace c = false)
    (hqbr : ∀ c ∈ q, c ≠ '[')
    (hqseg : ∀ o, o + q.length ≤ REDACTED.length →
      lowerStr ((REDACTED.drop o).take q.length) ≠ q)
    (hcross : ∀ k, 0 < k → k < q.length → mismL (q.drop k) p = true) :
    ∀ t : Str, Idem (tryHdr p awp) t →
      Idem (tryHdr p awp) (subScan (tryHdr q awq) t) := by
  suffices H : ∀ (N : Nat) (t : Str), t.length ≤ N → Idem (tryHdr p awp) t →
      Idem (tryHdr p awp) (subScan (tryHdr q awq) t) by
    intro t
    exact H t.length t (le_refl _)
  intro N
  induction N with
  | zero =>
    intro t ht hid
    cases t with
    | nil =>
      rw [subScan_nil _ (tryHdr_nil q awq hq)]
      exact hid
    | cons c t => simp at ht
  | succ N ih =>
    intro t ht hid
    rcases subHdr_split q awq hq t with ⟨hSt, _⟩ |
      ⟨pre, A, W, TOK, rest, ht', hS, _, hA, hlow, hWws, hWaw, hTOKne,
        hTOKn, hrest⟩
    · rw [hSt]
      exact hid
    · have hlent := congrArg List.length ht'
      simp only [List.length_append] at hlent
      have hTOK1 : 0 < TOK.length := List.length_pos.2 hTOKne
      have hidrest : Idem (tryHdr p awp) rest :=
        hid.suffix (u := pre ++ (A ++ W ++ TOK))
          (by rw [ht']; simp [List.append_assoc])
      have hXr := ih rest (by omega) hidrest
      have hXrws := scan_ws_head q awq hq hqws rest hrest
      rw [hS]
      intro u v huv
      rcases suffix_split huv with ⟨k, hk, hv⟩ | ⟨w, hw⟩
      · rw [hv]
        refine IdAt_preserve_block p awp q hp hpbr hqbr hqseg (pre.drop k)
          A W TOK rest _ hA hlow hWws hTOKne hTOKn hXrws ?_
        have htk : t.drop k = pre.drop k ++ (A ++ W ++ TOK ++ rest) := by
          rw [ht', drop_append_le k pre _ hk]
        rw [← htk]
        exact hid (t.take k) (t.drop k) (List.take_append_drop k t).symm
      · rcases suffix_split hw with ⟨k2, hk2, hv2⟩ | ⟨w2, hw2⟩
        · have hlenAWR : (A ++ W ++ REDACTED).length =
              A.length + W.length + REDACTED.length := by
            rw [List.length_append, List.length_append]
          by_cases hfull : A.length + W.length + REDACTED.length ≤ k2
          · have hnil : (A ++ W ++ REDACTED).drop k2 = [] :=
              List.drop_eq_nil_of_le (by omega)
            rw [hv2, hnil, List.nil_append]
            exact hXr [] _ rfl
          by_cases h20 : k2 = 0
          · rw [hv2, h20, List.drop_zero]
            have hbase : IdAt (tryHdr p awp)
                ([] ++ (A ++ W ++ REDACTED ++ subScan (tryHdr q awq) rest)) := by
              refine IdAt_preserve_block p awp q hp hpbr hqbr hqseg []
                A W TOK rest _ hA hlow hWws hTOKne hTOKn hXrws ?_
              have h1 : IdAt (tryHdr p awp) (A ++ W ++ TOK ++ rest) :=
                hid pre (A ++ W ++ TOK ++ rest) ht'
              simpa using h1
            simpa using hbase
          by_cases hcb : k2 < A.length
          · apply IdAt_of_none
            have hd1 : (A ++ W ++ REDACTED).drop k2 = A.drop k2 ++ (W ++ REDACTED) := by
              have e : A ++ W ++ REDACTED = A ++ (W ++ REDACTED) := by
                simp [List.append_assoc]
              rw [e, drop_append_le k2 A _ (by omega)]
            have hv3 : v = A.drop k2 ++ ((W ++ REDACTED) ++
                subScan (tryHdr q awq) rest) := by
              rw [hv2, hd1]
              simp [List.append_assoc]
            rw [hv3]
            refine tryHdr_none_of_mismL p awp (A.drop k2) (q.drop k2) _ ?_ ?_
            · rw [lowerStr, List.map_drop]
              rw [show List.map pyToLower A = lowerStr A from rfl, hlow]
            · exact hcross k2 (by omega) (by omega)
          by_cases hcw : k2 < A.length + W.length
          · apply IdAt_of_none
            have hd1 : (A ++ W ++ REDACTED).drop k2 =
                W.drop (k2 - A.length) ++ REDACTED := by
              have e : A ++ W ++ REDACTED = A ++ (W ++ REDACTED) := by
                simp [List.append_assoc]
              rw [e, List.drop_append_eq_append_drop,
                List.drop_eq_nil_of_le (by omega), List.nil_append,
                drop_append_le _ W _ (by omega)]
            have hWne : W.drop (k2 - A.length) ≠ [] := by
              intro hnil
              have h2 := congrArg List.length hnil
              simp only [List.length_drop, List.length_nil] at h2
              omega
            have hv3 : v = (W.drop (k2 - A.length) ++ REDACTED) ++
                subScan (tryHdr q awq) rest := by
              rw [hv2, hd1]
            refine tryHdr_none_of_ws_headD p awp v hp hpws ?_ ?_
            · rw [hv3]
              intro hnl
              rcases List.append_eq_nil.1 hnl with ⟨h1, _⟩
              rcases List.append_eq_nil.1 h1 with ⟨h2, _⟩
              exact hWne h2
            · rw [hv3, headD_append_left _ _ _ (by
                intro hnl
                rcases List.append_eq_nil.1 hnl with ⟨h2, _⟩
                exact hWne h2), headD_append_left _ _ _ hWne, headD_drop]
              exact hWws _ (getD_mem_of_lt (by omega) ' ')
          · apply IdAt_of_none
            have hd1 : (A ++ W ++ REDACTED).drop k2 =
                REDACTED.drop (k2 - (A.length + W.length)) := by
              rw [List.drop_append_eq_append_drop,
                List.drop_eq_nil_of_le (by simp only [List.length_append]; omega),
                List.nil_append]
              congr 1
              simp only [List.length_append]
            have hv3 : v = REDACTED.drop (k2 - (A.length + W.length)) ++
                subScan (tryHdr q awq) rest := by
              rw [hv2, hd1]
            rw [hv3]
            exact tryHdr_none_of_mismL p awp _ _ _ rfl
              (hmismRp (k2 - (A.length + W.length)) (by omega))
        · exact hXr w2 v hw2

/-! `tryJwt` computation lemmas. -/

theorem run_stop (R : Str) (d : Char) (Y : Str)
    (hR : ∀ c ∈ R, jwtCls c = true) (hd : jwtCls d = false) :
    (R ++ d :: Y).takeWhile jwtCls = R := by
  rw [List.takeWhile_append_of_pos hR, List.takeWhile_cons_of_neg (by simp [hd])]
  simp

theorem run_drop (R : Str) (d : Char) (Y : Str) :
    (R ++ d :: Y).drop R.length = d :: Y := List.drop_left R (d :: Y)

/-- `tryJwt` fails when a non-dot, non-class character ends the first run. -/
theorem tryJwt_blocked1 (R : Str) (d : Char) (Y : Str)
    (hR : ∀ c ∈ R, jwtCls c = true) (hd : jwtCls d = false) (hd2 : d ≠ '.') :
    tryJwt (R ++ d :: Y) = none := by
  simp only [tryJwt, run_stop R d Y hR hd, run_drop R d Y]
  by_cases hR0 : R.isEmpty
  · simp [hR0]
  · simp only [hR0, Bool.false_eq_true, if_false]
    split
    · rename_i s1 heq
      injection heq with h1 _
      exact absurd h1 hd2
    · rfl

/-- `tryJwt` fails on an all-class string (no dot is ever reached). -/
theorem tryJwt_none_of_all_cls (s : Str) (h : ∀ c ∈ s, jwtCls c = true) :
    tryJwt s = none := by
  have hr1 : s.takeWhile jwtCls = s := List.takeWhile_eq_self_iff.2 h
  simp only [tryJwt, hr1, List.drop_length]
  by_cases h0 : s.isEmpty <;> simp [h0]

/-- `tryJwt` fails when the run after the first dot ends at a non-dot,
non-class character. -/
theorem tryJwt_blocked2a (R1 R2 : Str) (d : Char) (Y : Str)
    (hR1 : R1 ≠ []) (hc1 : ∀ c ∈ R1, jwtCls c = true)
    (hc2 : ∀ c ∈ R2, jwtCls c = true)
    (hd : jwtCls d = false) (hd2 : d ≠ '.') :
    tryJwt (R1 ++ '.' :: (R2 ++ d :: Y)) = none := by
  have hdot : jwtCls '.' = false := by decide
  simp only [tryJwt, run_stop R1 '.' _ hc1 hdot, run_drop R1 '.' _]
  have hR10 : R1.isEmpty = false := by
    cases R1 with
    | nil => exact absurd rfl hR1
    | cons a b => rfl
  simp only [hR10, Bool.false_eq_true, if_false]
  simp only [run_stop R2 d Y hc2 hd, run_drop R2 d Y]
  by_cases hR20 : R2.isEmpty
  · simp [hR20]
  · simp only [hR20, Bool.false_eq_true, if_false]
    split
    · rename_i s2 heq
      injection heq with h1 _
      exact absurd h1 hd2
    · rfl

/-- `tryJwt` fails when the string ends right after the first dot-run. -/
theorem tryJwt_blocked2end (R1 : Str) (hR1 : R1 ≠ [])
    (hc1 : ∀ c ∈ R1, jwtCls c = true) :
    tryJwt (R1 ++ ['.']) = none := by
  have hdot : jwtCls '.' = false := by decide
  have he : R1 ++ ['.'] = R1 ++ '.' :: ([] : Str) := rfl
  rw [he]
  simp only [tryJwt, run_stop R1 '.' _ hc1 hdot, run_drop R1 '.' _]
  have hR10 : R1.isEmpty = false := by
    cases R1 with
    | nil => exact absurd rfl hR1
    | cons a b => rfl
  simp only [hR10, Bool.false_eq_true, if_false]
  rfl

/-- `tryJwt` fails when the run after the second dot is empty. -/
theorem tryJwt_blocked3 (R1 R2 : Str) (d : Char) (Y : Str)
    (hR1 : R1 ≠ []) (hc1 : ∀ c ∈ R1, jwtCls c = true)
    (hR2 : R2 ≠ []) (hc2 : ∀ c ∈ R2, jwtCls c = true)
    (hd : jwtCls d = false) :
    tryJwt (R1 ++ '.' :: (R2 ++ '.' :: (d :: Y))) = none := by
  have hdot : jwtCls '.' = false := by decide
  simp only [tryJwt, run_stop R1 '.' _ hc1 hdot, run_drop R1 '.' _]
  have hR10 : R1.isEmpty = false := by
    cases R1 with
    | nil => exact absurd rfl hR1
    | cons a b => rfl
  simp only [hR10, Bool.false_eq_true, if_false]
  simp only [run_stop R2 '.' _ hc2 hdot, run_drop R2 '.' _]
  have hR20 : R2.isEmpty = false := by
    cases R2 with
    | nil => exact absurd rfl hR2
    | cons a b => rfl
  simp only [hR20, Bool.false_eq_true, if_false]
  have hr3 : (d :: Y).takeWhile jwtCls = [] :=
    List.takeWhile_cons_of_neg (by simp [hd])
  simp [hr3]

/-- `tryJwt` fails when the string ends right after the second dot. -/
theorem tryJwt_blocked3end (R1 R2 : Str)
    (hR1 : R1 ≠ []) (hc1 : ∀ c ∈ R1, jwtCls c = true)
    (hR2 : R2 ≠ []) (hc2 : ∀ c ∈ R2, jwtCls c = true) :
    tryJwt (R1 ++ '.' :: (R2 ++ ['.'])) = none := by
  have hdot : jwtCls '.' = false := by decide
  have he : R2 ++ ['.'] = R2 ++ '.' :: ([] : Str) := rfl
  rw [he]
  simp only [tryJwt, run_stop R1 '.' _ hc1 hdot, run_drop R1 '.' _]
  have hR10 : R1.isEmpty = false := by
    cases R1 with
    | nil => exact absurd rfl hR1
    | cons a b => rfl
  simp only [hR10, Bool.false_eq_true, if_false]
  simp only [run_stop R2 '.' _ hc2 hdot, run_drop R2 '.' _]
  have hR20 : R2.isEmpty = false := by
    cases R2 with
    | nil => exact absurd rfl hR2
    | cons a b => rfl
  simp only [hR20, Bool.false_eq_true, if_false]
  rfl

/-- `tryJwt` fires on three dot-separated non-empty class runs. -/
theorem tryJwt_fires (R1 R2 R3 : Str) (Y : Str)
    (hR1 : R1 ≠ []) (hc1 : ∀ c ∈ R1, jwtCls c = true)
    (hR2 : R2 ≠ []) (hc2 : ∀ c ∈ R2, jwtCls c = true)
    (hR3 : R3 ≠ []) (hc3 : ∀ c ∈ R3, jwtCls c = true) :
    tryJwt (R1 ++ '.' :: (R2 ++ '.' :: (R3 ++ Y))) ≠ none := by
  have hdot : jwtCls '.' = false := by decide
  simp only [tryJwt, run_stop R1 '.' _ hc1 hdot, run_drop R1 '.' _]
  have hR10 : R1.isEmpty = false := by
    cases R1 with
    | nil => exact absurd rfl hR1
    | cons a b => rfl
  simp only [hR10, Bool.false_eq_true, if_false]
  simp only [run_stop R2 '.' _ hc2 hdot, run_drop R2 '.' _]
  have hR20 : R2.isEmpty = false := by
    cases R2 with
    | nil => exact absurd rfl hR2
    | cons a b => rfl
  simp only [hR20, Bool.false_eq_true, if_false]
  have hr3 : ((R3 ++ Y).takeWhile jwtCls).isEmpty = false := by
    obtain ⟨a, R3', hR3'⟩ := List.exists_cons_of_ne_nil hR3
    rw [hR3', List.cons_append,
      List.takeWhile_cons_of_pos (by exact hc3 a (by rw [hR3']; simp))]
    rfl
  simp [hr3]

/-- Shape of a successful `tryJwt` match: three dot-separated non-empty
class runs at the front. -/
theorem tryJwt_some_shape (s rep : Str) (n : Nat) (h : tryJwt s = some (rep, n)) :
    ∃ R1 R2 R3 rest, s = R1 ++ '.' :: (R2 ++ '.' :: (R3 ++ rest)) ∧
      R1 ≠ [] ∧ R2 ≠ [] ∧ R3 ≠ [] ∧
      (∀ c ∈ R1, jwtCls c = true) ∧ (∀ c ∈ R2, jwtCls c = true) ∧
      (∀ c ∈ R3, jwtCls c = true) ∧
      rep = JWT_RED ∧ n = R1.length + 1 + R2.length + 1 + R3.length := by
  unfold tryJwt at h
  by_cases h1 : (s.takeWhile jwtCls).isEmpty
  · rw [if_pos h1] at h
    cases h
  rw [if_neg h1] at h
  split at h
  · rename_i s1 heq1
    by_cases h2 : (s1.takeWhile jwtCls).isEmpty
    · rw [if_pos h2] at h
      cases h
    rw [if_neg h2] at h
    split at h
    · rename_i s2 heq2
      by_cases h3 : (s2.takeWhile jwtCls).isEmpty
      · rw [if_pos h3] at h
        cases h
      rw [if_neg h3] at h
      injection h with h'
      injection h' with hrep hn
      have hs0 : s = s.takeWhile jwtCls ++ '.' :: s1 := by
        conv_lhs => rw [← List.take_append_drop (s.takeWhile jwtCls).length s]
        rw [take_takeWhile_len, heq1]
      have hs1 : s1 = s1.takeWhile jwtCls ++ '.' :: s2 := by
        conv_lhs => rw [← List.take_append_drop (s1.takeWhile jwtCls).length s1]
        rw [take_takeWhile_len, heq2]
      have hs2 : s2 = s2.takeWhile jwtCls ++ s2.dropWhile jwtCls :=
        (List.takeWhile_append_dropWhile jwtCls s2).symm
      refine ⟨s.takeWhile jwtCls, s1.takeWhile jwtCls, s2.takeWhile jwtCls,
        s2.dropWhile jwtCls, ?_, ?_, ?_, ?_,
        fun c hc => List.mem_takeWhile_imp hc,
        fun c hc => List.mem_takeWhile_imp hc,
        fun c hc => List.mem_takeWhile_imp hc,
        hrep.symm, hn.symm⟩
      · rw [← hs2, ← hs1, ← hs0]
      · simpa [List.isEmpty_iff] using h1
      · simpa [List.isEmpty_iff] using h2
      · simpa [List.isEmpty_iff] using h3
    · simp at h
  · simp at h

/-- `tryJwt` fails when a non-class character follows the first dot. -/
theorem tryJwt_blocked2b (R1 : Str) (e : Char) (Y : Str)
    (hR1 : R1 ≠ []) (hc1 : ∀ c ∈ R1, jwtCls c = true)
    (he : jwtCls e = false) :
    tryJwt (R1 ++ '.' :: (e :: Y)) = none := by
  have hdot : jwtCls '.' = false := by decide
  simp only [tryJwt, run_stop R1 '.' _ hc1 hdot, run_drop R1 '.' _]
  have hR10 : R1.isEmpty = false := by
    cases R1 with
    | nil => exact absurd rfl hR1
    | cons a b => rfl
  simp only [hR10, Bool.false_eq_true, if_false]
  have hr2 : (e :: Y).takeWhile jwtCls = [] :=
    List.takeWhile_cons_of_neg (by simp [he])
  simp [hr2]

/-- Decomposition of a string at the end of its leading class run. -/
theorem cls_run_split (Z : Str) (hz : ¬ Z.takeWhile jwtCls = Z) :
    ∃ j d1 Z1, Z = j ++ d1 :: Z1 ∧ Z.takeWhile jwtCls = j ∧
      (∀ c ∈ j, jwtCls c = true) ∧ jwtCls d1 = false := by
  have hdw : Z.dropWhile jwtCls ≠ [] := by
    intro h0
    apply hz
    have h1 := List.takeWhile_append_dropWhile jwtCls Z
    rw [h0, List.append_nil] at h1
    exact h1
  obtain ⟨d1, Z1, hZ1⟩ := List.exists_cons_of_ne_nil hdw
  refine ⟨Z.takeWhile jwtCls, d1, Z1, ?_, rfl,
    fun c hc => List.mem_takeWhile_imp hc, ?_⟩
  · conv_lhs => rw [← List.takeWhile_append_dropWhile jwtCls Z]
    rw [hZ1]
  · have h8 := List.head?_dropWhile_not jwtCls Z
    rw [hZ1] at h8
    simp only [List.head?_cons, Option.all_some] at h8
    simpa using h8

/-- Stage transfer: if `tryJwt` fails on `Z` followed by a full jwt-shaped
match, it fails on `Z` followed by a blocking character. -/
theorem tryJwt_transfer (Z R1 R2 R3 rest : Str) (d : Char) (Y : Str)
    (hR1 : R1 ≠ []) (hR2 : R2 ≠ []) (hR3 : R3 ≠ [])
    (hcls1 : ∀ c ∈ R1, jwtCls c = true) (hcls2 : ∀ c ∈ R2, jwtCls c = true)
    (hcls3 : ∀ c ∈ R3, jwtCls c = true)
    (hy : tryJwt (Z ++ (R1 ++ '.' :: (R2 ++ '.' :: (R3 ++ rest)))) = none)
    (_hd : jwtCls d = false) (_hd2 : d ≠ '.') :
    tryJwt (Z ++ d :: Y) = none := by
  by_cases hz1 : Z.takeWhile jwtCls = Z
  · -- Z is all-class: the original fires, contradiction
    exfalso
    have hZcls : ∀ c ∈ Z, jwtCls c = true := fun c hc =>
      List.mem_takeWhile_imp (hz1 ▸ hc)
    have he : Z ++ (R1 ++ '.' :: (R2 ++ '.' :: (R3 ++ rest))) =
        (Z ++ R1) ++ '.' :: (R2 ++ '.' :: (R3 ++ rest)) := by
      simp [List.append_assoc]
    rw [he] at hy
    refine tryJwt_fires (Z ++ R1) R2 R3 rest ?_ ?_ hR2 hcls2 hR3 hcls3 hy
    · intro h0
      exact hR1 (List.append_eq_nil.1 h0).2
    · intro c hc
      rcases List.mem_append.1 hc with hc | hc
      · exact hZcls c hc
      · exact hcls1 c hc
  obtain ⟨j1, d1, Z1, hZdec, _, hj1cls, hd1cls⟩ := cls_run_split Z hz1
  by_cases hd1 : d1 = '.'
  case neg =>
    have he : Z ++ d :: Y = j1 ++ d1 :: (Z1 ++ d :: Y) := by
      rw [hZdec]
      simp [List.append_assoc]
    rw [he]
    exact tryJwt_blocked1 j1 d1 _ hj1cls hd1cls hd1
  subst hd1
  by_cases hj1 : j1 = []
  · have hZhead : Z = '.' :: Z1 := by
      rw [hZdec, hj1, List.nil_append]
    have hh : (Z ++ d :: Y).headD '.' = '.' := by
      rw [hZhead]
      rfl
    exact tryJwt_none_of_head _ (by rw [hh]; decide)
  by_cases hz2 : Z1.takeWhile jwtCls = Z1
  · -- Z1 all-class: the original fires
    exfalso
    have hZ1cls : ∀ c ∈ Z1, jwtCls c = true := fun c hc =>
      List.mem_takeWhile_imp (hz2 ▸ hc)
    have he : Z ++ (R1 ++ '.' :: (R2 ++ '.' :: (R3 ++ rest))) =
        j1 ++ '.' :: ((Z1 ++ R1) ++ '.' :: (R2 ++ '.' :: (R3 ++ rest))) := by
      rw [hZdec]
      simp [List.append_assoc]
    rw [he] at hy
    refine tryJwt_fires j1 (Z1 ++ R1) R2 ('.' :: (R3 ++ rest)) hj1 hj1cls ?_ ?_
      hR2 hcls2 ?_
    · intro h0
      exact hR1 (List.append_eq_nil.1 h0).2
    · intro c hc
      rcases List.mem_append.1 hc with hc | hc
      · exact hZ1cls c hc
      · exact hcls1 c hc
    · exact hy
  obtain ⟨j2, d2, Z2, hZ1dec, _, hj2cls, hd2cls⟩ := cls_run_split Z1 hz2
  by_cases hd2' : d2 = '.'
  case neg =>
    have he : Z ++ d :: Y = j1 ++ '.' :: (j2 ++ d2 :: (Z2 ++ d :: Y)) := by
      rw [hZdec, hZ1dec]
      simp [List.append_assoc]
    rw [he]
    exact tryJwt_blocked2a j1 j2 d2 _ hj1 hj1cls hj2cls hd2cls hd2'
  subst hd2'
  by_cases hj2 : j2 = []
  · have he : Z ++ d :: Y = j1 ++ '.' :: ('.' :: (Z2 ++ d :: Y)) := by
      rw [hZdec, hZ1dec, hj2]
      simp [List.append_assoc]
    rw [he]
    exact tryJwt_blocked2b j1 '.' _ hj1 hj1cls (by decide)
  by_cases hz3 : Z2.takeWhile jwtCls = Z2
  · -- Z2 all-class: the original fires
    exfalso
    have hZ2cls : ∀ c ∈ Z2, jwtCls c = true := fun c hc =>
      List.mem_takeWhile_imp (hz3 ▸ hc)
    have he : Z ++ (R1 ++ '.' :: (R2 ++ '.' :: (R3 ++ rest))) =
        j1 ++ '.' :: (j2 ++ '.' :: ((Z2 ++ R1) ++
          ('.' :: (R2 ++ '.' :: (R3 ++ rest))))) := by
      rw [hZdec, hZ1dec]
      simp [List.append_assoc]
    rw [he] at hy
    refine tryJwt_fires j1 j2 (Z2 ++ R1) ('.' :: (R2 ++ '.' :: (R3 ++ rest)))
      hj1 hj1cls hj2 hj2cls ?_ ?_ hy
    · intro h0
      exact hR1 (List.append_eq_nil.1 h0).2
    · intro c hc
      rcases List.mem_append.1 hc with hc | hc
      · exact hZ2cls c hc
      · exact hcls1 c hc
  obtain ⟨j3, d3, Z3, hZ2dec, _, hj3cls, hd3cls⟩ := cls_run_split Z2 hz3
  by_cases hj3 : j3 = []
  · have he : Z ++ d :: Y = j1 ++ '.' :: (j2 ++ '.' :: (d3 :: (Z3 ++ d :: Y))) := by
      rw [hZdec, hZ1dec, hZ2dec, hj3]
      simp [List.append_assoc]
    rw [he]
    exact tryJwt_blocked3 j1 j2 d3 _ hj1 hj1cls hj2 hj2cls hd3cls
  · -- j3 nonempty: the original fires
    exfalso
    have he : Z ++ (R1 ++ '.' :: (R2 ++ '.' :: (R3 ++ rest))) =
        j1 ++ '.' :: (j2 ++ '.' :: (j3 ++
          (d3 :: (Z3 ++ (R1 ++ '.' :: (R2 ++ '.' :: (R3 ++ rest))))))) := by
      rw [hZdec, hZ1dec, hZ2dec]
      simp [List.append_assoc]
    rw [he] at hy
    exact tryJwt_fires j1 j2 j3 _ hj1 hj1cls hj2 hj2cls hj3 hj3cls hy

/-- First-match decomposition of the jwt scan. -/
theorem subJwt_split : ∀ t : Str,
    (subScan tryJwt t = t ∧ ∀ u v, t = u ++ v → tryJwt v = none) ∨
    ∃ pre R1 R2 R3 rest,
      t = pre ++ (R1 ++ '.' :: (R2 ++ '.' :: (R3 ++ rest))) ∧
      subScan tryJwt t = pre ++ (JWT_RED ++ subScan tryJwt rest) ∧
      (∀ j, j < pre.length → tryJwt (t.drop j) = none) ∧
      R1 ≠ [] ∧ R2 ≠ [] ∧ R3 ≠ [] ∧
      (∀ c ∈ R1, jwtCls c = true) ∧ (∀ c ∈ R2, jwtCls c = true) ∧
      (∀ c ∈ R3, jwtCls c = true) := by
  have h0 : tryJwt [] = none := tryJwt_nil
  suffices H : ∀ (N : Nat) (t : Str), t.length ≤ N →
      ((subScan tryJwt t = t ∧ ∀ u v, t = u ++ v → tryJwt v = none) ∨
      ∃ pre R1 R2 R3 rest,
        t = pre ++ (R1 ++ '.' :: (R2 ++ '.' :: (R3 ++ rest))) ∧
        subScan tryJwt t = pre ++ (JWT_RED ++ subScan tryJwt rest) ∧
        (∀ j, j < pre.length → tryJwt (t.drop j) = none) ∧
        R1 ≠ [] ∧ R2 ≠ [] ∧ R3 ≠ [] ∧
        (∀ c ∈ R1, jwtCls c = true) ∧ (∀ c ∈ R2, jwtCls c = true) ∧
        (∀ c ∈ R3, jwtCls c = true)) by
    intro t
    exact H t.length t (le_refl _)
  intro N
  induction N with
  | zero =>
    intro t ht
    cases t with
    | nil =>
      refine Or.inl ⟨subScan_nil _ h0, ?_⟩
      intro u v huv
      rcases List.append_eq_nil.1 huv.symm with ⟨_, hv⟩
      rw [hv, h0]
    | cons c t => simp at ht
  | succ N ih =>
    intro t ht
    cases t with
    | nil =>
      refine Or.inl ⟨subScan_nil _ h0, ?_⟩
      intro u v huv
      rcases List.append_eq_nil.1 huv.symm with ⟨_, hv⟩
      rw [hv, h0]
    | cons c t =>
      cases h : tryJwt (c :: t) with
      | none =>
        rcases ih t (by simp at ht; omega) with ⟨h1, h2⟩ |
          ⟨pre, R1, R2, R3, rest, ht', hS, hfail, hshape⟩
        · refine Or.inl ⟨?_, ?_⟩
          · rw [subScan_cons_none _ c t h, h1]
          · intro u v huv
            cases u with
            | nil =>
              simp only [List.nil_append] at huv
              rw [← huv, h]
            | cons a u' =>
              rw [List.cons_append] at huv
              injection huv with h3 h4
              exact h2 u' v h4
        · refine Or.inr ⟨c :: pre, R1, R2, R3, rest, ?_, ?_, ?_, hshape⟩
          · rw [List.cons_append, ← ht']
          · rw [subScan_cons_none _ c t h, hS]
            rfl
          · intro j hj
            cases j with
            | zero => exact h
            | succ j =>
              have he : (c :: t).drop (j + 1) = t.drop j := by simp
              rw [he]
              exact hfail j (by simpa using hj)
      | some rn =>
        obtain ⟨rep, n⟩ := rn
        obtain ⟨R1, R2, R3, rest, hsplit, hR1, hR2, hR3, hc1, hc2, hc3,
          hrep, hn⟩ := tryJwt_some_shape (c :: t) rep n h
        have hn1 : 1 ≤ n := by
          rw [hn]
          omega
        refine Or.inr ⟨[], R1, R2, R3, rest, by rw [hsplit]; rfl, ?_,
          by intro j hj; simp at hj, hR1, hR2, hR3, hc1, hc2, hc3⟩
        rw [subScan_cons_some _ h0 c t rep n h hn1, hrep]
        have hdrop : t.drop (n - 1) = rest := by
          have h1 : (c :: t).drop n = rest := by
            rw [hsplit]
            have e : R1 ++ '.' :: (R2 ++ '.' :: (R3 ++ rest)) =
                (R1 ++ '.' :: (R2 ++ '.' :: R3)) ++ rest := by
              simp [List.append_assoc]
            rw [e, List.drop_left' ?hlen]
            case hlen =>
              simp only [List.length_append, List.length_cons]
              omega
          rw [← h1, drop_cons_of_pos c t n hn1]
        rw [hdrop]
        rfl

/-- The jwt matcher fails at every position of the jwt scan's own output. -/
theorem subJwt_self_allfail : ∀ (t u v : Str),
    subScan tryJwt t = u ++ v → tryJwt v = none := by
  have hrun : ∀ m, m < JWT_RED.length →
      ¬ ((JWT_RED.drop m).takeWhile jwtCls = JWT_RED.drop m) := by decide
  have hdots : ∀ m, m < JWT_RED.length →
      (JWT_RED.drop m).getD ((JWT_RED.drop m).takeWhile jwtCls).length '.'
        ≠ '.' := by decide
  suffices H : ∀ (N : Nat) (t : Str), t.length ≤ N → ∀ u v : Str,
      subScan tryJwt t = u ++ v → tryJwt v = none by
    intro t
    exact H t.length t (le_refl _)
  intro N
  induction N with
  | zero =>
    intro t ht u v huv
    cases t with
    | nil =>
      rw [subScan_nil _ tryJwt_nil] at huv
      rcases List.append_eq_nil.1 huv.symm with ⟨_, hv⟩
      rw [hv, tryJwt_nil]
    | cons c t => simp at ht
  | succ N ih =>
    intro t ht u v huv
    rcases subJwt_split t with ⟨hSt, hfail⟩ |
      ⟨pre, R1, R2, R3, rest, ht', hS, hfail, hR1, hR2, hR3, hc1, hc2, hc3⟩
    · rw [hSt] at huv
      exact hfail u v huv
    · have hlent := congrArg List.length ht'
      simp only [List.length_append, List.length_cons] at hlent
      have hR11 : 0 < R1.length := List.length_pos.2 hR1
      have hrlen : rest.length ≤ N := by omega
      rw [hS] at huv
      rcases suffix_split huv with ⟨k, hk, hv⟩ | ⟨w, hw⟩
      · by_cases hkpre : k = pre.length
        · rw [hv, hkpre, List.drop_length, List.nil_append]
          have hh : (JWT_RED ++ subScan tryJwt rest).headD '.' = '[' := rfl
          exact tryJwt_none_of_head _ (by rw [hh]; decide)
        · have hklt : k < pre.length := lt_of_le_of_ne hk hkpre
          have hfk := hfail k hklt
          have htk : t.drop k = pre.drop k ++
              (R1 ++ '.' :: (R2 ++ '.' :: (R3 ++ rest))) := by
            rw [ht', drop_append_le k pre _ hk]
          rw [htk] at hfk
          have hJ : JWT_RED ++ subScan tryJwt rest =
              '[' :: ("JWT_REDACTED]".toList ++ subScan tryJwt rest) := rfl
          rw [hv, hJ]
          exact tryJwt_transfer (pre.drop k) R1 R2 R3 rest '[' _
            hR1 hR2 hR3 hc1 hc2 hc3 hfk (by decide) (by decide)
      · rcases suffix_split hw with ⟨m, hm, hv2⟩ | ⟨w2, hw2⟩
        · by_cases hmfull : m = JWT_RED.length
          · rw [hv2, hmfull, List.drop_length, List.nil_append]
            exact ih rest hrlen [] _ rfl
          · have hmlt : m < JWT_RED.length := lt_of_le_of_ne hm hmfull
            obtain ⟨j, d1, Z1, hdec, hjtw, hjcls, hd1cls⟩ :=
              cls_run_split (JWT_RED.drop m) (hrun m hmlt)
            have hd1ne : d1 ≠ '.' := by
              have h1 := hdots m hmlt
              rw [hjtw, hdec, getD_junction j d1 Z1 '.'] at h1
              exact h1
            have he : v = j ++ d1 :: (Z1 ++ subScan tryJwt rest) := by
              rw [hv2, hdec]
              simp [List.append_assoc]
            rw [he]
            exact tryJwt_blocked1 j d1 _ hjcls hd1cls hd1ne
        · exact ih rest hrlen w2 v hw2

/-- The jwt scan is idempotent at the matcher level: every match on its
own output (there are none) is an identity rewrite. -/
theorem subJwt_self_idem (s : Str) : Idem tryJwt (subScan tryJwt s) :=
  Idem_of_allfail _ _ (subJwt_self_allfail s)

/-- The jwt preservation step: if every p-match on the original region
`pdk ++ R1.R2.R3 ++ rest` is an identity rewrite, then every p-match on
the jwt-redacted region is an identity rewrite. -/
theorem IdAt_preserve_jwt_block (p : Str) (awp : Bool)
    (hp : p ≠ []) (hpbr : ∀ c ∈ p, c ≠ '[')
    (pdk R1 R2 R3 rest Xr : Str)
    (hR1 : R1 ≠ []) (hcls1 : ∀ c ∈ R1, jwtCls c = true)
    (hIdy : IdAt (tryHdr p awp)
      (pdk ++ (R1 ++ '.' :: (R2 ++ '.' :: (R3 ++ rest))))) :
    IdAt (tryHdr p awp) (pdk ++ (JWT_RED ++ Xr)) := by
  have hdotR : ∀ c ∈ REDACTED, c ≠ '.' := by decide
  have hJne : (JWT_RED : Str) ≠ [] := by decide
  have hp1 : 0 < p.length := List.length_pos.2 hp
  intro rep n hm
  obtain ⟨A', W', TOK', rest', hv', hA', hlow', hW', hWaw', hTOK'ne,
    hTOK'n, hrest', hrep', hn'⟩ := tryHdr_some_shape p awp _ rep n hm
  have hcommon : (pdk ++ (R1 ++ '.' :: (R2 ++ '.' :: (R3 ++ rest)))).take
      pdk.length = (pdk ++ (JWT_RED ++ Xr)).take pdk.length := by
    rw [List.take_left, List.take_left]
  have hJcons : JWT_RED ++ Xr = '[' :: ("JWT_REDACTED]".toList ++ Xr) := rfl
  have hbL : (pdk ++ (JWT_RED ++ Xr)).getD pdk.length ' ' = '[' := by
    rw [hJcons]
    exact getD_junction pdk '[' _ ' '
  have hlenv : (pdk ++ (JWT_RED ++ Xr)).length =
      pdk.length + (JWT_RED ++ Xr).length := List.length_append _ _
  have hleny : (pdk ++ (R1 ++ '.' :: (R2 ++ '.' :: (R3 ++ rest)))).length =
      pdk.length + (R1.length + (1 + (R2.length +
        (1 + (R3.length + rest.length))))) := by
    simp only [List.length_append, List.length_cons]
    omega
  have hR11 : 0 < R1.length := List.length_pos.2 hR1
  have hJlen : (0:Nat) < (JWT_RED ++ Xr).length := by
    rw [List.length_append]
    have : (0:Nat) < JWT_RED.length := by decide
    omega
  obtain ⟨r1h, R1t, hR1d⟩ := List.exists_cons_of_ne_nil hR1
  have hr1hns : pyIsSpace r1h = false :=
    jwtCls_not_ws r1h (hcls1 r1h (by rw [hR1d]; simp))
  rcases lt_trichotomy n pdk.length with hnβ | hnβ | hnβ
  · -- transfer the match back to the original region
    have hnv : n < (pdk ++ (JWT_RED ++ Xr)).length := by omega
    have hfire := tryHdr_take_eq p awp _
      (pdk ++ (R1 ++ '.' :: (R2 ++ '.' :: (R3 ++ rest)))) rep n
      pdk.length hm (by omega) hnv hcommon
    obtain ⟨hr1, hr2⟩ := hIdy rep n hfire
    refine ⟨?_, hr2⟩
    rw [hr1, take_eq_of_take_eq (by omega) hcommon]
  · -- the match would end exactly at the inserted block
    exfalso
    have hAWT : (A' ++ W' ++ TOK').length = n := by
      simp only [List.length_append, hA']
      omega
    have hrest'' : rest' = (pdk ++ (JWT_RED ++ Xr)).drop n := by
      rw [hv', ← hAWT, List.drop_left]
    have hdropn : (pdk ++ (JWT_RED ++ Xr)).drop n = JWT_RED ++ Xr := by
      rw [hnβ, List.drop_left]
    rcases hrest' with h1 | h1
    · rw [hrest'', hdropn] at h1
      rcases List.append_eq_nil.1 h1 with ⟨h2, _⟩
      exact hJne h2
    · rw [hrest'', hdropn, hJcons] at h1
      simp only [List.headD_cons] at h1
      exact absurd h1 (by decide)
  · by_cases hc1 : pdk.length < A'.length
    · -- the bracket would sit inside the p-pattern occurrence
      exfalso
      have hvA : pdk ++ (JWT_RED ++ Xr) = A' ++ (W' ++ (TOK' ++ rest')) := by
        rw [hv']
        simp [List.append_assoc]
      have hgA : A'.getD pdk.length ' ' =
          (pdk ++ (JWT_RED ++ Xr)).getD pdk.length ' ' := by
        rw [hvA, List.getD_eq_getElem?_getD, List.getD_eq_getElem?_getD,
          List.getElem?_append_left hc1]
      have hmem : '[' ∈ A' := by
        rw [← hbL, ← hgA]
        exact getD_mem_of_lt hc1 ' '
      have h5 : pyToLower '[' ∈ lowerStr A' := List.mem_map_of_mem pyToLower hmem
      rw [hlow'] at h5
      have h2 : ('[' : Char) ∈ p := by
        have he : pyToLower '[' = '[' := by decide
        rwa [he] at h5
      exact hpbr '[' h2 rfl
    by_cases hc2 : pdk.length < A'.length + W'.length
    · -- the bracket would sit inside the whitespace gap of the p-match
      exfalso
      have hvAW : pdk ++ (JWT_RED ++ Xr) = (A' ++ W') ++ (TOK' ++ rest') := by
        rw [hv']
        simp [List.append_assoc]
      have htakeAW0 : (pdk ++ (JWT_RED ++ Xr)).take (A'.length + W'.length) =
          A' ++ W' := by
        rw [hvAW]
        exact List.take_left' (List.length_append A' W')
      have h1 : (pdk ++ (JWT_RED ++ Xr)).getD pdk.length ' ' =
          (A' ++ W').getD pdk.length ' ' := by
        refine getD_of_take_eq ?_ hc2 ' '
        rw [htakeAW0, List.take_of_length_le (le_of_eq (List.length_append A' W'))]
      have h2 : (A' ++ W').getD pdk.length ' ' =
          W'.getD (pdk.length - A'.length) ' ' := by
        have h3 := getD_append_offset A' W' (pdk.length - A'.length) ' '
        rw [← h3]
        congr 1
        omega
      have hmem : '[' ∈ W' := by
        rw [← hbL, h1, h2]
        exact getD_mem_of_lt (by omega) ' '
      exact absurd ( hW' '[' hmem) (by decide)
    · -- the token of the p-match reaches the inserted block
      exfalso
      have hm'β : A'.length + W'.length ≤ pdk.length := by omega
      have hnm' : n = A'.length + W'.length + TOK'.length := by
        rw [hn', hA']
      have hvAW : pdk ++ (JWT_RED ++ Xr) = (A' ++ W') ++ (TOK' ++ rest') := by
        rw [hv']
        simp [List.append_assoc]
      have htakeAW : (pdk ++ (JWT_RED ++ Xr)).take (A'.length + W'.length) =
          A' ++ W' := by
        rw [hvAW]
        exact List.take_left' (List.length_append A' W')
      have htakeTk : (pdk ++ (R1 ++ '.' :: (R2 ++ '.' :: (R3 ++ rest)))).take
          (A'.length + W'.length) = A' ++ W' := by
        rw [← htakeAW]
        exact take_eq_of_take_eq hm'β hcommon
      have hdtk : (pdk ++ (R1 ++ '.' :: (R2 ++ '.' :: (R3 ++ rest)))).drop
          (A'.length + W'.length) ≠ [] := by
        intro hnil
        have h2 : ((pdk ++ (R1 ++ '.' :: (R2 ++ '.' :: (R3 ++ rest)))).drop
            (A'.length + W'.length)).length = 0 := by
          rw [hnil]
          rfl
        rw [List.length_drop] at h2
        omega
      obtain ⟨d, X', hdX⟩ := List.exists_cons_of_ne_nil hdtk
      have hdec : pdk ++ (R1 ++ '.' :: (R2 ++ '.' :: (R3 ++ rest))) =
          A' ++ W' ++ d :: X' := by
        nth_rewrite 1 [(List.take_append_drop (A'.length + W'.length)
          (pdk ++ (R1 ++ '.' :: (R2 ++ '.' :: (R3 ++ rest))))).symm]
        rw [htakeTk, hdX]
      have hdgetD : d = (pdk ++ (R1 ++ '.' :: (R2 ++ '.' :: (R3 ++ rest)))).getD
          (A'.length + W'.length) ' ' := by
        rw [← headD_drop, hdX]
        rfl
      have hr1pos : (pdk ++ (R1 ++ '.' :: (R2 ++ '.' :: (R3 ++ rest)))).getD
          pdk.length ' ' = r1h := by
        have e2 : pdk ++ (R1 ++ '.' :: (R2 ++ '.' :: (R3 ++ rest))) =
            pdk ++ (r1h :: (R1t ++ '.' :: (R2 ++ '.' :: (R3 ++ rest)))) := by
          rw [hR1d]
          simp [List.append_assoc]
        rw [e2]
        exact getD_junction pdk r1h _ ' '
      have hdns : pyIsSpace d = false := by
        by_cases hm'' : A'.length + W'.length < pdk.length
        · have hcomm2 := getD_of_take_eq hcommon hm'' ' '
          obtain ⟨tk', TOK'2, hT'⟩ := List.exists_cons_of_ne_nil hTOK'ne
          have hvg : (pdk ++ (JWT_RED ++ Xr)).getD (A'.length + W'.length) ' '
              = tk' := by
            rw [hvAW, ← List.length_append A' W', hT']
            exact getD_junction _ tk' _ ' '
          rw [hdgetD, hcomm2, hvg]
          exact hTOK'n tk' (by rw [hT']; simp)
        · have hm'eq : A'.length + W'.length = pdk.length := by omega
          rw [hdgetD, hm'eq, hr1pos]
          exact hr1hns
      have hfire := tryHdr_fires p awp A' W' d X' hA' hlow' hW' hWaw' hdns
      rw [← hdec] at hfire
      obtain ⟨hid1, _⟩ := hIdy _ _ hfire
      have harg : (A' ++ W').length ≤
          p.length + W'.length + (d :: X'.takeWhile nonWS).length := by
        rw [List.length_append, hA']
        omega
      have harg2 : p.length + W'.length + (d :: X'.takeWhile nonWS).length -
          (A' ++ W').length = (d :: X'.takeWhile nonWS).length := by
        rw [List.length_append, hA']
        omega
      have h3 : (d :: X').take (d :: X'.takeWhile nonWS).length =
          d :: X'.takeWhile nonWS := by
        rw [List.length_cons, List.take_succ_cons, take_takeWhile_len]
      have htkTOK : (pdk ++ (R1 ++ '.' :: (R2 ++ '.' :: (R3 ++ rest)))).take
          (p.length + W'.length + (d :: X'.takeWhile nonWS).length) =
          A' ++ W' ++ (d :: X'.takeWhile nonWS) := by
        rw [hdec]
        have e1 : A' ++ W' ++ d :: X' = (A' ++ W') ++ (d :: X') := rfl
        rw [e1, List.take_append_eq_append_take,
          List.take_of_length_le harg, harg2, h3]
      have hREDtok : REDACTED = d :: X'.takeWhile nonWS := by
        have h4 := hid1
        rw [htkTOK] at h4
        exact List.append_cancel_left h4
      have hLtk : REDACTED = ((pdk ++ (R1 ++ '.' :: (R2 ++ '.' ::
          (R3 ++ rest)))).drop (A'.length + W'.length)).take REDACTED.length := by
        rw [hdX, hREDtok]
        exact h3.symm
      have hchar : ∀ i, i < REDACTED.length →
          (pdk ++ (R1 ++ '.' :: (R2 ++ '.' :: (R3 ++ rest)))).getD
            (A'.length + W'.length + i) ' ' = REDACTED.getD i ' ' := by
        intro i hi
        conv_rhs => rw [hLtk]
        rw [List.getD_eq_getElem?_getD, List.getD_eq_getElem?_getD,
          List.getElem?_take_of_lt hi, List.getElem?_drop]
      have hterm : ((pdk ++ (R1 ++ '.' :: (R2 ++ '.' :: (R3 ++ rest)))).drop
          (A'.length + W'.length)).drop REDACTED.length =
          (d :: X').dropWhile nonWS := by
        rw [hdX]
        have h6 : REDACTED.length = ((d :: X').takeWhile nonWS).length := by
          rw [List.takeWhile_cons_of_pos (by simp [nonWS, hdns]), ← hREDtok]
        rw [h6, drop_length_takeWhile]
      have hpdkR1 : (pdk ++ R1).length = pdk.length + R1.length :=
        List.length_append _ _
      have hdotchar : (pdk ++ (R1 ++ '.' :: (R2 ++ '.' :: (R3 ++ rest)))).getD
          (pdk.length + R1.length) ' ' = '.' := by
        have e2 : pdk ++ (R1 ++ '.' :: (R2 ++ '.' :: (R3 ++ rest))) =
            (pdk ++ R1) ++ '.' :: (R2 ++ '.' :: (R3 ++ rest)) := by
          simp [List.append_assoc]
        rw [e2, ← hpdkR1]
        exact getD_junction _ '.' _ ' '
      by_cases hsp : pdk.length + R1.length < A'.length + W'.length + REDACTED.length
      · -- the first dot would sit inside the redacted text
        have hi1 : pdk.length + R1.length - (A'.length + W'.length) <
            REDACTED.length := by omega
        have h10 := hchar (pdk.length + R1.length - (A'.length + W'.length)) hi1
        have h11 : A'.length + W'.length + (pdk.length + R1.length -
            (A'.length + W'.length)) = pdk.length + R1.length := by omega
        rw [h11, hdotchar] at h10
        exact hdotR _ (getD_mem_of_lt hi1 ' ') h10.symm
      · -- the token terminator would sit inside the original jwt match
        have hDWne : (d :: X').dropWhile nonWS ≠ [] := by
          intro hnil
          have h7 := congrArg List.length hterm
          rw [hnil] at h7
          simp only [List.length_drop, List.length_nil] at h7
          omega
        obtain ⟨e, DW', hDW⟩ := List.exists_cons_of_ne_nil hDWne
        have hews : pyIsSpace e = true := by
          have h8 := List.head?_dropWhile_not nonWS (d :: X')
          rw [hDW] at h8
          simp only [List.head?_cons, Option.all_some] at h8
          simpa [nonWS] using h8
        have hepos : (pdk ++ (R1 ++ '.' :: (R2 ++ '.' :: (R3 ++ rest)))).getD
            (A'.length + W'.length + REDACTED.length) ' ' = e := by
          rw [← headD_drop, ← List.drop_drop, hterm, hDW]
          rfl
        by_cases hq1 : A'.length + W'.length + REDACTED.length < pdk.length
        · -- shared char lies inside the p-token of the redacted text
          have hcomm3 := getD_of_take_eq hcommon hq1 ' '
          have hiTOK : REDACTED.length < TOK'.length := by omega
          have hvch : (pdk ++ (JWT_RED ++ Xr)).getD
              (A'.length + W'.length + REDACTED.length) ' ' =
              TOK'.getD REDACTED.length ' ' := by
            rw [hvAW]
            have h9 := getD_append_offset (A' ++ W') (TOK' ++ rest')
              REDACTED.length ' '
            rw [List.length_append] at h9
            rw [h9, List.getD_eq_getElem?_getD, List.getD_eq_getElem?_getD,
              List.getElem?_append_left hiTOK]
          have hmem2 : e ∈ TOK' := by
            rw [← hepos, hcomm3, hvch]
            exact getD_mem_of_lt hiTOK ' '
          rw [hTOK'n e hmem2] at hews
          cases hews
        by_cases hq2 : A'.length + W'.length + REDACTED.length = pdk.length
        · rw [hq2, hr1pos] at hepos
          rw [← hepos, hr1hns] at hews
          cases hews
        · -- the char lies inside the first run or at the first dot
          by_cases hq3 : A'.length + W'.length + REDACTED.length =
              pdk.length + R1.length
          · rw [hq3, hdotchar] at hepos
            rw [← hepos] at hews
            exact absurd hews (by decide)
          · have hj4 : A'.length + W'.length + REDACTED.length - pdk.length <
                R1.length := by omega
            have hrch : (pdk ++ (R1 ++ '.' :: (R2 ++ '.' :: (R3 ++ rest)))).getD
                (A'.length + W'.length + REDACTED.length) ' ' =
                R1.getD (A'.length + W'.length + REDACTED.length -
                  pdk.length) ' ' := by
              have h9 := getD_append_offset pdk
                (R1 ++ '.' :: (R2 ++ '.' :: (R3 ++ rest)))
                (A'.length + W'.length + REDACTED.length - pdk.length) ' '
              have h12 : pdk.length + (A'.length + W'.length + REDACTED.length -
                  pdk.length) = A'.length + W'.length + REDACTED.length := by
                omega
              rw [h12] at h9
              rw [h9, List.getD_eq_getElem?_getD, List.getD_eq_getElem?_getD,
                List.getElem?_append_left hj4]
            rw [hrch] at hepos
            have hmem4 := getD_mem_of_lt hj4 ' '
            rw [hepos] at hmem4
            rw [jwtCls_not_ws e (hcls1 e hmem4)] at hews
            cases hews

/-- The jwt scan preserves idempotence of a header rule p. -/
theorem subJwt_preserve_hdr (p : Str) (awp : Bool)
    (hp : p ≠ []) (_hpws : ∀ c ∈ p, pyIsSpace c = false)
    (hpbr : ∀ c ∈ p, c ≠ '[')
    (hmismJp : ∀ k, k < JWT_RED.length →
      mismL (lowerStr (JWT_RED.drop k)) p = true) :
    ∀ t : Str, Idem (tryHdr p awp) t →
      Idem (tryHdr p awp) (subScan tryJwt t) := by
  suffices H : ∀ (N : Nat) (t : Str), t.length ≤ N → Idem (tryHdr p awp) t →
      Idem (tryHdr p awp) (subScan tryJwt t) by
    intro t
    exact H t.length t (le_refl _)
  intro N
  induction N with
  | zero =>
    intro t ht hid
    cases t with
    | nil =>
      rw [subScan_nil _ tryJwt_nil]
      exact hid
    | cons c t => simp at ht
  | succ N ih =>
    intro t ht hid
    rcases subJwt_split t with ⟨hSt, _⟩ |
      ⟨pre, R1, R2, R3, rest, ht', hS, _, hR1, hR2, hR3, hc1, hc2, hc3⟩
    · rw [hSt]
      exact hid
    · have hlent := congrArg List.length ht'
      simp only [List.length_append, List.length_cons] at hlent
      have hR11 : 0 < R1.length := List.length_pos.2 hR1
      have hidrest : Idem (tryHdr p awp) rest :=
        hid.suffix (u := pre ++ (R1 ++ '.' :: (R2 ++ '.' :: R3)))
          (by rw [ht']; simp [List.append_assoc])
      have hXr := ih rest (by omega) hidrest
      rw [hS]
      intro u v huv
      rcases suffix_split huv with ⟨k, hk, hv⟩ | ⟨w, hw⟩
      · rw [hv]
        refine IdAt_preserve_jwt_block p awp hp hpbr (pre.drop k)
          R1 R2 R3 rest _ hR1 hc1 ?_
        have htk : t.drop k = pre.drop k ++
            (R1 ++ '.' :: (R2 ++ '.' :: (R3 ++ rest))) := by
          rw [ht', drop_append_le k pre _ hk]
        rw [← htk]
        exact hid (t.take k) (t.drop k) (List.take_append_drop k t).symm
      · rcases suffix_split hw with ⟨m, hm, hv2⟩ | ⟨w2, hw2⟩
        · by_cases hmfull : m = JWT_RED.length
          · rw [hv2, hmfull, List.drop_length, List.nil_append]
            exact hXr [] _ rfl
          by_cases hm0 : m = 0
          · rw [hv2, hm0, List.drop_zero]
            have hbase : IdAt (tryHdr p awp)
                ([] ++ (JWT_RED ++ subScan tryJwt rest)) := by
              refine IdAt_preserve_jwt_block p awp hp hpbr []
                R1 R2 R3 rest _ hR1 hc1 ?_
              have h1 : IdAt (tryHdr p awp)
                  (R1 ++ '.' :: (R2 ++ '.' :: (R3 ++ rest))) :=
                hid pre _ ht'
              simpa using h1
            simpa using hbase
          · have hmlt : m < JWT_RED.length := lt_of_le_of_ne hm hmfull
            apply IdAt_of_none
            rw [hv2]
            exact tryHdr_none_of_mismL p awp _ _ _ rfl (hmismJp m hmlt)
        · exact hXr w2 v hw2

/-- **C5.** The redaction rewrite set of `executor._redact` is idempotent:
for every text, applying the four ordered rewrites twice yields the same
result as applying them once. -/
theorem redact_idempotent (s : Str) : pyRedact (pyRedact s) = pyRedact s := by
  -- decidable side conditions for the three header patterns
  have hne1 : AUTH_PAT ≠ [] := by decide
  have hne2 : PWD_PAT ≠ [] := by decide
  have hne3 : AWS_PAT ≠ [] := by decide
  have hws1 : ∀ c ∈ AUTH_PAT, pyIsSpace c = false := by decide
  have hws2 : ∀ c ∈ PWD_PAT, pyIsSpace c = false := by decide
  have hws3 : ∀ c ∈ AWS_PAT, pyIsSpace c = false := by decide
  have hbr1 : ∀ c ∈ AUTH_PAT, c ≠ '[' := by decide
  have hbr2 : ∀ c ∈ PWD_PAT, c ≠ '[' := by decide
  have hbr3 : ∀ c ∈ AWS_PAT, c ≠ '[' := by decide
  have hmR1 : ∀ k, k < REDACTED.length →
      mismL (lowerStr (REDACTED.drop k)) AUTH_PAT = true := by decide
  have hmR2 : ∀ k, k < REDACTED.length →
      mismL (lowerStr (REDACTED.drop k)) PWD_PAT = true := by decide
  have hmR3 : ∀ k, k < REDACTED.length →
      mismL (lowerStr (REDACTED.drop k)) AWS_PAT = true := by decide
  have hmJ1 : ∀ k, k < JWT_RED.length →
      mismL (lowerStr (JWT_RED.drop k)) AUTH_PAT = true := by decide
  have hmJ2 : ∀ k, k < JWT_RED.length →
      mismL (lowerStr (JWT_RED.drop k)) PWD_PAT = true := by decide
  have hmJ3 : ∀ k, k < JWT_RED.length →
      mismL (lowerStr (JWT_RED.drop k)) AWS_PAT = true := by decide
  have hbd1' : ∀ k, k < AUTH_PAT.length → 0 < k →
      mismL (AUTH_PAT.drop k) AUTH_PAT = true := by decide
  have hbd1 : ∀ k, 0 < k → k < AUTH_PAT.length →
      mismL (AUTH_PAT.drop k) AUTH_PAT = true := fun k h1 h2 => hbd1' k h2 h1
  have hbd2' : ∀ k, k < PWD_PAT.length → 0 < k →
      mismL (PWD_PAT.drop k) PWD_PAT = true := by decide
  have hbd2 : ∀ k, 0 < k → k < PWD_PAT.length →
      mismL (PWD_PAT.drop k) PWD_PAT = true := fun k h1 h2 => hbd2' k h2 h1
  have hbd3' : ∀ k, k < AWS_PAT.length → 0 < k →
      mismL (AWS_PAT.drop k) AWS_PAT = true := by decide
  have hbd3 : ∀ k, 0 < k → k < AWS_PAT.length →
      mismL (AWS_PAT.drop k) AWS_PAT = true := fun k h1 h2 => hbd3' k h2 h1
  have hseg2' : ∀ o, o ≤ REDACTED.length → o + PWD_PAT.length ≤ REDACTED.length →
      lowerStr ((REDACTED.drop o).take PWD_PAT.length) ≠ PWD_PAT := by decide
  have hseg2 : ∀ o, o + PWD_PAT.length ≤ REDACTED.length →
      lowerStr ((REDACTED.drop o).take PWD_PAT.length) ≠ PWD_PAT :=
    fun o h => hseg2' o (le_trans (Nat.le_add_right o PWD_PAT.length) h) h
  have hseg3' : ∀ o, o ≤ REDACTED.length → o + AWS_PAT.length ≤ REDACTED.length →
      lowerStr ((REDACTED.drop o).take AWS_PAT.length) ≠ AWS_PAT := by decide
  have hseg3 : ∀ o, o + AWS_PAT.length ≤ REDACTED.length →
      lowerStr ((REDACTED.drop o).take AWS_PAT.length) ≠ AWS_PAT :=
    fun o h => hseg3' o (le_trans (Nat.le_add_right o AWS_PAT.length) h) h
  have hx12' : ∀ k, k < PWD_PAT.length → 0 < k →
      mismL (PWD_PAT.drop k) AUTH_PAT = true := by decide
  have hx12 : ∀ k, 0 < k → k < PWD_PAT.length →
      mismL (PWD_PAT.drop k) AUTH_PAT = true := fun k h1 h2 => hx12' k h2 h1
  have hx13' : ∀ k, k < AWS_PAT.length → 0 < k →
      mismL (AWS_PAT.drop k) AUTH_PAT = true := by decide
  have hx13 : ∀ k, 0 < k → k < AWS_PAT.length →
      mismL (AWS_PAT.drop k) AUTH_PAT = true := fun k h1 h2 => hx13' k h2 h1
  have hx23' : ∀ k, k < AWS_PAT.length → 0 < k →
      mismL (AWS_PAT.drop k) PWD_PAT = true := by decide
  have hx23 : ∀ k, 0 < k → k < AWS_PAT.length →
      mismL (AWS_PAT.drop k) PWD_PAT = true := fun k h1 h2 => hx23' k h2 h1
  -- rule 1 stays idempotent through rules 2, 3 and 4
  have hI1 : Idem (tryHdr AUTH_PAT true) (pyRedact s) :=
    subJwt_preserve_hdr AUTH_PAT true hne1 hws1 hbr1 hmJ1 _
      (subHdr_preserve AUTH_PAT true AWS_PAT false hne1 hws1 hbr1 hmR1
        hne3 hws3 hbr3 hseg3 hx13 _
        (subHdr_preserve AUTH_PAT true PWD_PAT false hne1 hws1 hbr1 hmR1
          hne2 hws2 hbr2 hseg2 hx12 _
          (subHdr_self_idem AUTH_PAT true hne1 hws1 hbr1 hmR1 hbd1 s)))
  -- rule 2 stays idempotent through rules 3 and 4
  have hI2 : Idem (tryHdr PWD_PAT false) (pyRedact s) :=
    subJwt_preserve_hdr PWD_PAT false hne2 hws2 hbr2 hmJ2 _
      (subHdr_preserve PWD_PAT false AWS_PAT false hne2 hws2 hbr2 hmR2
        hne3 hws3 hbr3 hseg3 hx23 _
        (subHdr_self_idem PWD_PAT false hne2 hws2 hbr2 hmR2 hbd2 (sub1 s)))
  -- rule 3 stays idempotent through rule 4
  have hI3 : Idem (tryHdr AWS_PAT false) (pyRedact s) :=
    subJwt_preserve_hdr AWS_PAT false hne3 hws3 hbr3 hmJ3 _
      (subHdr_self_idem AWS_PAT false hne3 hws3 hbr3 hmR3 hbd3 (sub2 (sub1 s)))
  -- rule 4 never matches its own output
  have hI4 : Idem tryJwt (pyRedact s) := subJwt_self_idem (sub3 (sub2 (sub1 s)))
  have e1 : sub1 (pyRedact s) = pyRedact s :=
    subScan_eq_self _ (tryHdr_nil AUTH_PAT true hne1) _ hI1
  have e2 : sub2 (pyRedact s) = pyRedact s :=
    subScan_eq_self _ (tryHdr_nil PWD_PAT false hne2) _ hI2
  have e3 : sub3 (pyRedact s) = pyRedact s :=
    subScan_eq_self _ (tryHdr_nil AWS_PAT false hne3) _ hI3
  have e4 : sub4 (pyRedact s) = pyRedact s :=
    subScan_eq_self _ tryJwt_nil _ hI4
  show sub4 (sub3 (sub2 (sub1 (pyRedact s)))) = pyRedact s
  rw [e1, e2, e3, e4]

end WSRA
